import Mathlib

/-!
Shallow embedding of the translation engine of the `exceltext-cs` repository
(`src/translation_engine.py`), together with theorems settling the frozen
claims about its specification.

Strings are modelled as `List Char` (Python `str` is a sequence of Unicode
code points, as is `List Char`).  Python's `str.isalpha` is modelled on the
character repertoire the program manipulates (ASCII plus the CJK unified
ideograph block the code's own regexes single out); Python's `str.strip` and
the regex class `\s` are modelled on ASCII whitespace.
-/

namespace ExcelText

/-- The regex class `[a-zA-Z]` / `[A-Za-z]`. -/
def isLatinLetter (c : Char) : Bool :=
  ('a' ≤ c && c ≤ 'z') || ('A' ≤ c && c ≤ 'Z')

/-- Model of Python `str.isalpha` on the repertoire this repository
manipulates: Latin letters, and CJK unified ideographs U+4E00–U+9FA5
(Python classifies those as alphabetic as well). -/
def pyIsAlpha (c : Char) : Bool :=
  isLatinLetter c || (0x4E00 ≤ c.toNat && c.toNat ≤ 0x9FA5)

/-- The regex class `[一-龥]` used by the code to detect Chinese. -/
def isCJK (c : Char) : Bool :=
  0x4E00 ≤ c.toNat && c.toNat ≤ 0x9FA5

/-- ASCII whitespace: stripped by Python `str.strip`, matched by `\s`. -/
def pyIsSpace (c : Char) : Bool :=
  c = ' ' || c = '\t' || c = '\n' || c = '\r' || c = '\x0b' || c = '\x0c'

/-- Python `str.lstrip()`. -/
def pyStripLeft (s : List Char) : List Char :=
  s.dropWhile pyIsSpace

/-- Python `str.rstrip()`: drop the maximal trailing whitespace run. -/
def pyStripRight : List Char → List Char
  | [] => []
  | c :: rest =>
    if pyStripRight rest = [] ∧ pyIsSpace c then [] else c :: pyStripRight rest

/-- Python `str.strip()`. -/
def pyStrip (s : List Char) : List Char :=
  pyStripRight (pyStripLeft s)

/-- Python `s.split('\n')`. -/
def splitOnNl : List Char → List (List Char)
  | [] => [[]]
  | c :: rest =>
    if c = '\n' then [] :: splitOnNl rest
    else
      match splitOnNl rest with
      | [] => [[c]]
      | h :: t => (c :: h) :: t

/-- Does `$` (non-multiline) match here: at the end of the string, or just
before a terminating newline. -/
def endOk (t : List Char) : Bool :=
  t == [] || t == ['\n']

/-- Scanner for the tail of `re.search(r'\([a-zA-Z].*\)$', s)`: after the
Latin letter, `.*` (newline-free, any length) must reach a `)` placed at a
position where `$` matches.  Lazy/greedy is irrelevant for a boolean match;
this scans for any viable closing parenthesis. -/
def closeOk : List Char → Bool
  | [] => false
  | c :: rest =>
    (c = ')' && endOk rest) || (c ≠ '\n' && closeOk rest)

/-- `re.search(r'\([a-zA-Z].*\)$', s)` as a Boolean: some position starts
`(`, a Latin letter, then newline-free characters up to a `)` at which `$`
matches. -/
def searchParen : List Char → Bool
  | [] => false
  | c :: rest =>
    (c = '(' &&
      match rest with
      | [] => false
      | d :: tail => isLatinLetter d && closeOk tail) ||
    searchParen rest

/-- `is_already_translated` (src/translation_engine.py:74-91) on a string:
the trailing-parenthesis regex, or a newline with an alphabetic character in
the stripped first line. -/
def is_already_translatedStr (s : List Char) : Bool :=
  if searchParen s then true
  else if s.any (· = '\n') then
    let parts := splitOnNl s
    if 2 ≤ parts.length then
      ((pyStrip (parts.headD [])).any pyIsAlpha)
    else false
  else false

/-! ### The bracket regex of `check_and_adjust_translation_order`

`re.match(r'^(.*?)\s*\(([A-Za-z\s].*?)\)\s*$', s)` is embedded as a
deterministic scanner reproducing the engine's backtracking order:

* group 1 (`(.*?)`, lazy, newline-free) grows one character at a time from
  the empty prefix;
* `\s*` before `\(` must consume exactly the whitespace run at the split
  (since `(` is not whitespace, no other amount can succeed);
* group 2 starts with one `[A-Za-z\s]` character, then `(.*?)` lazily takes
  newline-free characters up to the first `)` after which `\s*$` matches,
  i.e. after which every remaining character is whitespace. -/

/-- All characters whitespace: exactly when `\s*$` matches the remainder. -/
def allWs (l : List Char) : Bool :=
  l.all pyIsSpace

/-- Lazy scan for `(.*?)\)\s*$` after the first group-2 character: returns
the group-2 remainder `mid` such that the input is `mid ++ ')' :: tail` with
`tail` all whitespace, choosing the leftmost viable `)`. `mid` may not
contain a newline. -/
def findClose : List Char → Option (List Char)
  | [] => none
  | c :: rest =>
    if c = ')' && allWs rest then some []
    else if c = '\n' then none
    else (findClose rest).map (c :: ·)

/-- Attempt the part of the pattern after group 1 at a given split:
`\s*\(([A-Za-z\s].*?)\)\s*$`.  Returns group 2 on success. -/
def tryAt (rest : List Char) : Option (List Char) :=
  match rest.dropWhile pyIsSpace with
  | '(' :: d :: tail =>
    if isLatinLetter d || pyIsSpace d then (findClose tail).map (d :: ·)
    else none
  | _ => none

/-- Scanner for the whole match: group 1 (first component, reversed in the
accumulator) is grown lazily; a newline stops the search (group 1 is
newline-free). -/
def bracketScanAux (acc : List Char) : List Char → Option (List Char × List Char)
  | [] =>
    match tryAt [] with
    | some g2 => some (acc.reverse, g2)
    | none => none
  | c :: rest =>
    match tryAt (c :: rest) with
    | some g2 => some (acc.reverse, g2)
    | none => if c = '\n' then none else bracketScanAux (c :: acc) rest

/-- `re.match(r'^(.*?)\s*\(([A-Za-z\s].*?)\)\s*$', s)`: `some (g1, g2)` with
the two captured groups, or `none` when the pattern does not match. -/
def bracketMatch (s : List Char) : Option (List Char × List Char) :=
  bracketScanAux [] s

/-- `check_and_adjust_translation_order` (src/translation_engine.py:93-122)
on a string. -/
def adjustStr (s : List Char) : List Char :=
  match bracketMatch s with
  | some (g1, g2) => pyStrip g2 ++ '\n' :: pyStrip g1
  | none =>
    if s.any (· = '\n') then
      let parts := ((splitOnNl s).map pyStrip).filter (fun p => ¬p.isEmpty)
      match parts with
      | [p1, p2] =>
        if p1.any isCJK && !p2.any isCJK then p2 ++ '\n' :: p1
        else if !p1.any isCJK && p2.any isCJK then s
        else s
      | _ => s
    else s

/-! ### Specification-side predicates (transcribed from the spec's words)

These definitions follow the sentences of the specification, not the code;
the refinement theorems below compare them with the embedded code. -/

/-- The first line of a text: everything before the first newline. -/
def firstLine (s : List Char) : List Char :=
  s.takeWhile (· ≠ '\n')

/-- Spec side of C1, first disjunct, as the claim states it: the text ends
with a parenthesized group `(<content>)` whose first character is a Latin
letter (`<anything>(<Latin-starting-content>)` at end of string). -/
def specTrailingParenLatin (s : List Char) : Bool :=
  (List.range s.length).any fun i =>
    match s.drop i with
    | '(' :: d :: rest => isLatinLetter d && !rest.isEmpty && (rest.getLast? == some ')')
    | _ => false

/-- Spec side of C1 exactly as the claim states it: trailing Latin-starting
parenthesized group, or a newline with a Latin letter in the trimmed first
line. -/
def spec_is_bilingual (s : List Char) : Bool :=
  specTrailingParenLatin s ||
    (s.any (· = '\n') && (pyStrip (firstLine s)).any isLatinLetter)

/-- Amended spec side of the closing scan: some `)` after newline-free
characters, placed where `$` matches (end of string or before a final
newline). -/
def specCloses (rest : List Char) : Bool :=
  (List.range rest.length).any fun j =>
    (rest.get? j == some ')') && endOk (rest.drop (j + 1)) &&
      !((rest.take j).any (· = '\n'))

/-- Amended spec side of C1's first disjunct: a `(` followed by a Latin
letter and then newline-free characters up to a `)` at which `$` matches. -/
def specTrailingParenAmended (s : List Char) : Bool :=
  (List.range s.length).any fun i =>
    (s.get? i == some '(') &&
      (match s.get? (i + 1) with
       | some d => isLatinLetter d
       | none => false) &&
      specCloses (s.drop (i + 2))

/-- Amended spec side of C1: as the claim, but with the closing parenthesis
allowed just before a terminating newline, and "Latin letter" in the
first-line test replaced by "alphabetic character" (Python `str.isalpha`,
which also accepts CJK ideographs). -/
def spec_is_bilingual_amended (s : List Char) : Bool :=
  specTrailingParenAmended s ||
    (s.any (· = '\n') && (pyStrip (firstLine s)).any pyIsAlpha)

/-- Spec side of C2: all decompositions `s = pfx ++ '(' :: content ++ [')']`
matching `^.*\([A-Za-z][^()]*\)$` — `pfx` newline-free, `content` starting
with a Latin letter and free of parentheses.  Because `content` may not
contain parentheses, at most one decomposition exists. -/
def specC2cands (s : List Char) : List (List Char × List Char) :=
  (List.range s.length).filterMap fun i =>
    match s.drop i with
    | '(' :: d :: rest =>
      if isLatinLetter d && !rest.isEmpty && (rest.getLast? == some ')') &&
          !(rest.dropLast.any fun c => c = '(' || c = ')') &&
          !((s.take i).any (· = '\n'))
      then some (s.take i, d :: rest.dropLast)
      else none
    | _ => none

/-! ## Theorems -/

/-! ### Helper lemmas -/

theorem range_any_shift (n : Nat) (f : Nat → Bool) :
    (List.range (n + 1)).any f = (f 0 || (List.range n).any fun i => f (i + 1)) := by
  rw [List.range_succ_eq_map, List.any_cons, List.any_map]
  simp [Function.comp_def]

theorem some_beq_some (a b : Char) : ((some a == some b) : Bool) = (a == b) := rfl

theorem specCloses_nil : specCloses [] = false := by
  decide

theorem specCloses_cons (c : Char) (rest : List Char) :
    specCloses (c :: rest) =
      ((c == ')') && endOk rest || (!(c == '\n') && specCloses rest)) := by
  unfold specCloses
  rw [List.length_cons, range_any_shift]
  simp only [List.get?_cons_zero, List.get?_cons_succ, List.drop_succ_cons,
    List.drop_zero, List.take_succ_cons, List.take_zero, List.any_nil,
    List.any_cons, some_beq_some]
  by_cases hn : c = '\n'
  · subst hn
    simp
  · have hb : (c == '\n') = false :=
      Bool.eq_false_iff.mpr (fun h => hn (eq_of_beq h))
    rw [hb]
    simp [Bool.and_assoc, hn]

theorem closeOk_eq_specCloses (l : List Char) : closeOk l = specCloses l := by
  induction l with
  | nil => simp [closeOk, specCloses_nil]
  | cons c rest ih =>
    rw [closeOk, specCloses_cons, ih]
    by_cases hc : c = ')' <;> by_cases hn : c = '\n'
    · subst hc; simp_all
    · subst hc; simp
    · subst hn; simp [hc]
    · have hb : (c == '\n') = false :=
        Bool.eq_false_iff.mpr (fun h => hn (eq_of_beq h))
      have hb2 : (c == ')') = false :=
        Bool.eq_false_iff.mpr (fun h => hc (eq_of_beq h))
      rw [hb, hb2]
      simp [hn, hc]

theorem specTPA_cons (c : Char) (rest : List Char) :
    specTrailingParenAmended (c :: rest) =
      ((c == '(') &&
        (match rest.get? 0 with
         | some d => isLatinLetter d
         | none => false) &&
        specCloses (rest.drop 1) || specTrailingParenAmended rest) := by
  unfold specTrailingParenAmended
  rw [List.length_cons, range_any_shift]
  simp only [List.get?_cons_zero, List.get?_cons_succ, List.drop_succ_cons,
    some_beq_some]

theorem searchParen_eq_spec (s : List Char) :
    searchParen s = specTrailingParenAmended s := by
  induction s with
  | nil => simp [searchParen, specTrailingParenAmended]
  | cons c rest ih =>
    rw [specTPA_cons, ← ih]
    simp only [searchParen]
    cases rest with
    | nil => simp
    | cons d tail =>
      simp only [List.get?_cons_zero, List.drop_one, List.tail_cons]
      rw [closeOk_eq_specCloses]
      by_cases hc : c = '('
      · subst hc
        simp [Bool.and_assoc]
      · have hb : (c == '(') = false :=
          Bool.eq_false_iff.mpr (fun h => hc (eq_of_beq h))
        simp [hc, hb]

theorem splitOnNl_ne_nil (s : List Char) : splitOnNl s ≠ [] := by
  cases s with
  | nil => simp [splitOnNl]
  | cons c rest =>
    rw [splitOnNl]
    by_cases hc : c = '\n'
    · simp [hc]
    · simp only [hc, if_false]
      cases splitOnNl rest <;> simp

theorem firstLine_cons_of_ne (c : Char) (rest : List Char) (hc : c ≠ '\n') :
    firstLine (c :: rest) = c :: firstLine rest := by
  simp [firstLine, List.takeWhile_cons, hc]

theorem splitOnNl_headD (s : List Char) :
    (splitOnNl s).headD [] = firstLine s := by
  induction s with
  | nil => simp [splitOnNl, firstLine]
  | cons c rest ih =>
    rw [splitOnNl]
    by_cases hc : c = '\n'
    · subst hc
      simp [firstLine, List.takeWhile_cons]
    · rw [firstLine_cons_of_ne c rest hc]
      simp only [hc, if_false]
      rcases hsp : splitOnNl rest with _ | ⟨h0, t0⟩
      · exact absurd hsp (splitOnNl_ne_nil rest)
      · rw [hsp] at ih
        simpa using congrArg (c :: ·) ih

theorem splitOnNl_length_ge (s : List Char) (h : s.any (· = '\n') = true) :
    2 ≤ (splitOnNl s).length := by
  induction s with
  | nil => simp at h
  | cons c rest ih =>
    rw [splitOnNl]
    by_cases hc : c = '\n'
    · subst hc
      have h1 : 0 < (splitOnNl rest).length :=
        List.length_pos.mpr (splitOnNl_ne_nil rest)
      simp only [splitOnNl, if_pos]
      simp only [List.length_cons]
      omega
    · simp only [List.any_cons] at h
      have hrest : rest.any (· = '\n') = true := by
        rcases Bool.or_eq_true_iff.mp h with h1 | h1
        · exact absurd (by simpa using h1) hc
        · exact h1
      have h2 := ih hrest
      simp only [hc, if_false]
      rcases hsp : splitOnNl rest with _ | ⟨h0, t0⟩
      · exact absurd hsp (splitOnNl_ne_nil rest)
      · rw [hsp] at h2
        simp only [List.length_cons] at h2 ⊢
        omega

/-- C1 (counterexample): on the text `"中\n中"` — a newline whose trimmed
first line contains no Latin letter and no parenthesis at all — the claimed
classification is `false`, yet `is_already_translated` returns `true`
(Python `str.isalpha` also accepts CJK ideographs). -/
theorem C1_counterexample :
    is_already_translatedStr ("中\n中".data) = true ∧
      spec_is_bilingual ("中\n中".data) = false := by
  decide

/-- C3 (counterexample): `"中\n\nEn"` has three lines (one blank), which the
claim says must be returned unchanged, but the code collapses blank lines
and swaps, returning `"En\n中"`. -/
theorem C3_counterexample :
    (splitOnNl ("中\n\nEn".data)).length = 3 ∧
      adjustStr ("中\n\nEn".data) ≠ "中\n\nEn".data := by
  decide

/-- C2 (counterexample): `"x(a)(b)"` matches `^.*\([A-Za-z][^()]*\)$` with
prefix `"x(a)"` and content `"b"`, so the claim predicts `"b\nx(a)"`; the
code's lazy group capture instead returns `"a)(b\nx"`. -/
theorem C2_counterexample :
    specC2cands ("x(a)(b)".data) = [("x(a)".data, "b".data)] ∧
      adjustStr ("x(a)(b)".data) = "a)(b\nx".data ∧
      adjustStr ("x(a)(b)".data) ≠ "b".data ++ '\n' :: "x(a)".data := by
  decide


/-- C1 (amended): `is_already_translated` returns true iff the text contains
`(`, a Latin letter, then newline-free characters up to a `)` at the end of
the string or just before a terminating newline — or the text contains a
newline and its trimmed first line contains at least one alphabetic
character (Python `str.isalpha`, which also accepts CJK ideographs); false
otherwise. -/
theorem C1_theorem (s : List Char) :
    is_already_translatedStr s = spec_is_bilingual_amended s := by
  unfold is_already_translatedStr spec_is_bilingual_amended
  rw [searchParen_eq_spec]
  cases hp : specTrailingParenAmended s
  · simp only [Bool.false_or, if_false]
    cases hn : s.any (· = '\n')
    · simp
    · simp only [if_true, Bool.true_and]
      rw [if_pos (splitOnNl_length_ge s hn), splitOnNl_headD]
      simp
  · simp

/-! ### Lemmas about the bracket scanner on clean decompositions -/

theorem allWs_nil : allWs [] = true := rfl

theorem allWs_cons (x : Char) (l : List Char) :
    allWs (x :: l) = (pyIsSpace x && allWs l) := by
  simp [allWs]

theorem pyStripLeft_cons (x : Char) (l : List Char) :
    pyStripLeft (x :: l) = if pyIsSpace x then pyStripLeft l else x :: l := by
  simp [pyStripLeft, List.dropWhile_cons]

theorem pyStripRight_eq_nil_iff (l : List Char) :
    pyStripRight l = [] ↔ allWs l = true := by
  induction l with
  | nil => simp [pyStripRight, allWs_nil]
  | cons x rest ih =>
    by_cases h : pyStripRight rest = [] ∧ pyIsSpace x
    · rw [pyStripRight, if_pos h, allWs_cons]
      simp [h.2, ih.mp h.1]
    · rw [pyStripRight, if_neg h, allWs_cons]
      by_cases hA : pyStripRight rest = []
      · have hB : ¬pyIsSpace x = true := fun hB => h ⟨hA, hB⟩
        simp [hB]
      · have hw : allWs rest = false := by
          cases hw : allWs rest
          · rfl
          · exact absurd (ih.mpr hw) hA
        simp [hw]

theorem pyStripRight_cons_of_not_allWs (x : Char) (l : List Char)
    (h : allWs (x :: l) = false) :
    pyStripRight (x :: l) = x :: pyStripRight l := by
  rw [pyStripRight, if_neg]
  rintro ⟨h1, h2⟩
  have := (pyStripRight_eq_nil_iff l).mp h1
  rw [allWs_cons, h2, this] at h
  simp at h

theorem strip_commute (l : List Char) :
    pyStripLeft (pyStripRight l) = pyStripRight (pyStripLeft l) := by
  induction l with
  | nil => rfl
  | cons x rest ih =>
    by_cases h : pyStripRight rest = [] ∧ pyIsSpace x
    · rw [pyStripRight, if_pos h]
      have hz : pyStripRight (pyStripLeft rest) = [] := by
        rw [← ih, h.1]
        rfl
      rw [pyStripLeft_cons, if_pos h.2, hz]
      rfl
    · rw [pyStripRight, if_neg h]
      by_cases hsx : pyIsSpace x
      · have hA : pyStripRight rest ≠ [] := fun hA => h ⟨hA, hsx⟩
        rw [pyStripLeft_cons, if_pos hsx]
        cases hh : pyStripRight rest with
        | nil => exact absurd hh hA
        | cons y ys =>
          rw [← hh, ih, pyStripLeft_cons, if_pos hsx]
      · rw [pyStripLeft_cons, if_neg hsx, pyStripLeft_cons, if_neg hsx,
          pyStripRight, if_neg (fun hh => hsx hh.2)]

theorem pyStripRight_idem (l : List Char) :
    pyStripRight (pyStripRight l) = pyStripRight l := by
  induction l with
  | nil => rfl
  | cons x rest ih =>
    by_cases h : pyStripRight rest = [] ∧ pyIsSpace x
    · rw [pyStripRight, if_pos h]
      rfl
    · rw [pyStripRight, if_neg h, pyStripRight, ih, if_neg h]

theorem pyStrip_stripRight (l : List Char) :
    pyStrip (pyStripRight l) = pyStrip l := by
  unfold pyStrip
  rw [strip_commute, pyStripRight_idem]


/-! ### Bracket scanner on clean decompositions (for C2) -/

theorem findClose_clean (c : List Char)
    (hc : ∀ x ∈ c, x ≠ ')' ∧ x ≠ '\n') :
    findClose (c ++ [')']) = some c := by
  induction c with
  | nil =>
    simp [findClose, allWs_nil]
  | cons x rest ih =>
    have hx := hc x (List.mem_cons_self x rest)
    have hrest : ∀ y ∈ rest, y ≠ ')' ∧ y ≠ '\n' :=
      fun y hy => hc y (List.mem_cons_of_mem x hy)
    rw [List.cons_append, findClose]
    have h1 : (x = ')' && allWs (rest ++ [')'])) = false := by
      simp [hx.1]
    rw [h1, if_neg (by simp), if_neg hx.2, ih hrest]
    rfl

theorem closeOk_clean (c : List Char)
    (hc : ∀ x ∈ c, x ≠ ')' ∧ x ≠ '\n') :
    closeOk (c ++ [')']) = true := by
  induction c with
  | nil => simp [closeOk, endOk]
  | cons x rest ih =>
    have hx := hc x (List.mem_cons_self x rest)
    have hrest : ∀ y ∈ rest, y ≠ ')' ∧ y ≠ '\n' :=
      fun y hy => hc y (List.mem_cons_of_mem x hy)
    rw [List.cons_append, closeOk, ih hrest]
    simp [hx.2]

theorem searchParen_append_left (p t : List Char) (h : searchParen t = true) :
    searchParen (p ++ t) = true := by
  induction p with
  | nil => simpa using h
  | cons x rest ih =>
    rw [List.cons_append]
    simp only [searchParen]
    rw [ih]
    simp

theorem dropWhile_ws_append (w l : List Char) (hw : allWs w = true) :
    (w ++ l).dropWhile pyIsSpace = l.dropWhile pyIsSpace := by
  induction w with
  | nil => rfl
  | cons x rest ih =>
    rw [allWs_cons, Bool.and_eq_true] at hw
    rw [List.cons_append, List.dropWhile_cons, if_pos hw.1]
    exact ih hw.2

theorem tryAt_allWs (w : List Char) (d : Char) (tail : List Char)
    (hw : allWs w = true) (hd : isLatinLetter d || pyIsSpace d) :
    tryAt (w ++ '(' :: d :: tail) = (findClose tail).map (d :: ·) := by
  unfold tryAt
  rw [dropWhile_ws_append w _ hw, List.dropWhile_cons, if_neg (by decide)]
  simp [hd]

theorem tryAt_none_of_not_allWs (p : List Char) (l : List Char)
    (hp : ∀ x ∈ p, x ≠ '(') (hnw : allWs p = false) :
    tryAt (p ++ '(' :: l) = none := by
  induction p with
  | nil => simp [allWs_nil] at hnw
  | cons x rest ih =>
    have hx := hp x (List.mem_cons_self x rest)
    have hrest : ∀ y ∈ rest, y ≠ '(' :=
      fun y hy => hp y (List.mem_cons_of_mem x hy)
    by_cases hsx : pyIsSpace x
    · have hnw2 : allWs rest = false := by
        cases hr : allWs rest
        · rfl
        · rw [allWs_cons, hsx, hr] at hnw
          simp at hnw
      have := ih hrest hnw2
      unfold tryAt at this ⊢
      rw [List.cons_append, List.dropWhile_cons, if_pos hsx]
      exact this
    · unfold tryAt
      rw [List.cons_append, List.dropWhile_cons, if_neg hsx]
      split
      · next d tail heq =>
        rw [List.cons.injEq] at heq
        exact absurd heq.1 hx
      · rfl

theorem bracketScanAux_clean (p : List Char) (d : Char) (c : List Char)
    (hd : isLatinLetter d || pyIsSpace d)
    (hc : ∀ x ∈ c, x ≠ ')' ∧ x ≠ '\n') :
    ∀ (acc : List Char), (∀ x ∈ p, x ≠ '(' ∧ x ≠ ')' ∧ x ≠ '\n') →
      bracketScanAux acc (p ++ '(' :: d :: (c ++ [')'])) =
        some (acc.reverse ++ pyStripRight p, d :: c) := by
  induction p with
  | nil =>
    intro acc _
    rw [List.nil_append]
    simp only [bracketScanAux]
    have ht : tryAt ('(' :: d :: (c ++ [')'])) =
        (findClose (c ++ [')'])).map (d :: ·) := by
      unfold tryAt
      rw [List.dropWhile_cons, if_neg (by decide)]
      simp [hd]
    rw [ht, findClose_clean c hc]
    simp [pyStripRight]
  | cons x rest ih =>
    intro acc hp
    have hx := hp x (List.mem_cons_self x rest)
    have hrest : ∀ y ∈ rest, y ≠ '(' ∧ y ≠ ')' ∧ y ≠ '\n' :=
      fun y hy => hp y (List.mem_cons_of_mem x hy)
    rw [List.cons_append]
    simp only [bracketScanAux]
    by_cases hws : allWs (x :: rest) = true
    · have ht : tryAt (x :: (rest ++ '(' :: d :: (c ++ [')']))) =
          (findClose (c ++ [')'])).map (d :: ·) :=
        tryAt_allWs (x :: rest) d (c ++ [')']) hws hd
      rw [ht, findClose_clean c hc]
      have hz : pyStripRight (x :: rest) = [] :=
        (pyStripRight_eq_nil_iff _).mpr hws
      rw [hz]
      simp
    · have hnw : allWs (x :: rest) = false := Bool.eq_false_iff.mpr hws
      have ht : tryAt (x :: (rest ++ '(' :: d :: (c ++ [')']))) = none :=
        tryAt_none_of_not_allWs (x :: rest) _
          (fun y hy => ((List.mem_cons.mp hy).elim (fun h => h ▸ hx.1)
            (fun h => (hrest y h).1))) hnw
      rw [ht]
      simp only []
      rw [if_neg hx.2.2, ih (x :: acc) hrest,
        pyStripRight_cons_of_not_allWs x rest hnw]
      simp

theorem bracketMatch_clean (p : List Char) (d : Char) (c : List Char)
    (hp : ∀ x ∈ p, x ≠ '(' ∧ x ≠ ')' ∧ x ≠ '\n')
    (hd : isLatinLetter d || pyIsSpace d)
    (hc : ∀ x ∈ c, x ≠ ')' ∧ x ≠ '\n') :
    bracketMatch (p ++ '(' :: d :: (c ++ [')'])) =
      some (pyStripRight p, d :: c) := by
  unfold bracketMatch
  rw [bracketScanAux_clean p d c hd hc [] hp]
  rfl


/-- C2 (amended): for every cell text of the shape `p(c)` — prefix `p` free
of parentheses and newlines, content `c` starting with a Latin letter and
free of parentheses and newlines — `is_already_translated` returns true and
`check_and_adjust_translation_order` returns the stripped content, a
newline, then the stripped prefix.  (The claim as frozen fails when the
prefix itself contains parentheses: the lazy group capture then grabs from
the first `(`, see the counterexample.) -/
theorem C2_theorem (p c : List Char) (d : Char)
    (hp : ∀ x ∈ p, x ≠ '(' ∧ x ≠ ')' ∧ x ≠ '\n')
    (hd : isLatinLetter d = true)
    (hc : ∀ x ∈ c, x ≠ '(' ∧ x ≠ ')' ∧ x ≠ '\n') :
    is_already_translatedStr (p ++ '(' :: d :: (c ++ [')'])) = true ∧
      adjustStr (p ++ '(' :: d :: (c ++ [')'])) =
        pyStrip (d :: c) ++ '\n' :: pyStrip p := by
  have hc2 : ∀ x ∈ c, x ≠ ')' ∧ x ≠ '\n' :=
    fun x hx => ⟨(hc x hx).2.1, (hc x hx).2.2⟩
  constructor
  · have hs : searchParen (p ++ '(' :: d :: (c ++ [')'])) = true := by
      apply searchParen_append_left
      simp only [searchParen]
      rw [closeOk_clean c hc2]
      simp [hd]
    unfold is_already_translatedStr
    rw [hs]
    simp
  · unfold adjustStr
    rw [bracketMatch_clean p d c hp (by simp [hd]) hc2]
    show pyStrip (d :: c) ++ '\n' :: pyStrip (pyStripRight p) = _
    rw [pyStrip_stripRight]

/-- C2 (witness): the amended theorem at the concrete cell `"中文(ab)"`. -/
theorem C2_witness :
    is_already_translatedStr ("中文(ab)".data) = true ∧
      adjustStr ("中文(ab)".data) = "ab\n中文".data := by
  have h := C2_theorem ("中文".data) ("b".data) 'a'
    (by decide) (by decide) (by decide)
  have e1 : "中文".data ++ '(' :: 'a' :: ("b".data ++ [')']) =
      "中文(ab)".data := by decide
  have e2 : pyStrip ('a' :: "b".data) ++ '\n' :: pyStrip ("中文".data) =
      "ab\n中文".data := by decide
  rw [e1, e2] at h
  exact h


/-! ### Line-structure lemmas (for C3) -/

theorem splitOnNl_noNl (l : List Char) (h : ∀ x ∈ l, x ≠ '\n') :
    splitOnNl l = [l] := by
  induction l with
  | nil => rfl
  | cons x rest ih =>
    have hx := h x (List.mem_cons_self x rest)
    have hrest : ∀ y ∈ rest, y ≠ '\n' :=
      fun y hy => h y (List.mem_cons_of_mem x hy)
    rw [splitOnNl, if_neg hx, ih hrest]

theorem splitOnNl_two (l1 l2 : List Char)
    (h1 : ∀ x ∈ l1, x ≠ '\n') (h2 : ∀ x ∈ l2, x ≠ '\n') :
    splitOnNl (l1 ++ '\n' :: l2) = [l1, l2] := by
  induction l1 with
  | nil =>
    rw [List.nil_append, splitOnNl, if_pos rfl, splitOnNl_noNl l2 h2]
  | cons x rest ih =>
    have hx := h1 x (List.mem_cons_self x rest)
    have hrest : ∀ y ∈ rest, y ≠ '\n' :=
      fun y hy => h1 y (List.mem_cons_of_mem x hy)
    rw [List.cons_append, splitOnNl, if_neg hx, ih hrest]

theorem any_nl_append (l1 l2 : List Char) :
    (l1 ++ '\n' :: l2).any (· = '\n') = true := by
  simp [List.any_eq_true]

theorem mem_pyStripRight (x : Char) (l : List Char) (h : x ∈ pyStripRight l) :
    x ∈ l := by
  induction l with
  | nil => simp [pyStripRight] at h
  | cons y rest ih =>
    rw [pyStripRight] at h
    by_cases hcond : pyStripRight rest = [] ∧ pyIsSpace y
    · rw [if_pos hcond] at h
      simp at h
    · rw [if_neg hcond] at h
      rcases List.mem_cons.mp h with h | h
      · exact h ▸ List.mem_cons_self y rest
      · exact List.mem_cons_of_mem y (ih h)

theorem mem_pyStrip (x : Char) (l : List Char) (h : x ∈ pyStrip l) : x ∈ l := by
  unfold pyStrip pyStripLeft at h
  exact (List.dropWhile_sublist pyIsSpace).subset (mem_pyStripRight x _ h)

theorem mem_pyStripRight_of_not_ws (x : Char) (l : List Char)
    (hx : pyIsSpace x = false) (h : x ∈ l) : x ∈ pyStripRight l := by
  induction l with
  | nil => simp at h
  | cons y rest ih =>
    rw [pyStripRight]
    by_cases hcond : pyStripRight rest = [] ∧ pyIsSpace y
    · exfalso
      rcases List.mem_cons.mp h with h | h
      · rw [h] at hx
        rw [hx] at hcond
        exact Bool.false_ne_true hcond.2
      · have := ih h
        rw [hcond.1] at this
        simp at this
    · rw [if_neg hcond]
      rcases List.mem_cons.mp h with h | h
      · exact h ▸ List.mem_cons_self y _
      · exact List.mem_cons_of_mem y (ih h)

theorem mem_pyStrip_of_not_ws (x : Char) (l : List Char)
    (hx : pyIsSpace x = false) (h : x ∈ l) : x ∈ pyStrip l := by
  unfold pyStrip pyStripLeft
  apply mem_pyStripRight_of_not_ws x _ hx
  induction l with
  | nil => simp at h
  | cons y rest ih =>
    rw [List.dropWhile_cons]
    by_cases hy : pyIsSpace y
    · rw [if_pos hy]
      rcases List.mem_cons.mp h with h | h
      · rw [h] at hx
        rw [hx] at hy
        exact absurd hy (Bool.false_ne_true)
      · exact ih h
    · rw [if_neg hy]
      exact h

theorem cjk_not_ws (x : Char) (h : isCJK x = true) : pyIsSpace x = false := by
  cases hw : pyIsSpace x
  · rfl
  · exfalso
    simp only [pyIsSpace, Bool.or_eq_true, decide_eq_true_eq] at hw
    rcases hw with ((((h1 | h1) | h1) | h1) | h1) | h1 <;>
      (subst h1; simp [isCJK] at h)

theorem pyStripRight_eq_self_of_no_ws (l : List Char)
    (h : ∀ x ∈ l, pyIsSpace x = false) : pyStripRight l = l := by
  induction l with
  | nil => rfl
  | cons y rest ih =>
    have hy := h y (List.mem_cons_self y rest)
    have hrest : ∀ x ∈ rest, pyIsSpace x = false :=
      fun x hx => h x (List.mem_cons_of_mem y hx)
    rw [pyStripRight, if_neg, ih hrest]
    rintro ⟨-, h2⟩
    rw [hy] at h2
    exact Bool.false_ne_true h2

theorem pyStrip_eq_self_of_no_ws (l : List Char)
    (h : ∀ x ∈ l, pyIsSpace x = false) : pyStrip l = l := by
  have hL : pyStripLeft l = l := by
    cases l with
    | nil => rfl
    | cons y rest =>
      rw [pyStripLeft_cons, if_neg]
      rw [h y (List.mem_cons_self y rest)]
      exact Bool.false_ne_true
  unfold pyStrip
  rw [hL, pyStripRight_eq_self_of_no_ws l h]

theorem any_cjk_strip_false (l : List Char) (h : l.any isCJK = false) :
    (pyStrip l).any isCJK = false := by
  cases hs : (pyStrip l).any isCJK
  · rfl
  · exfalso
    rcases List.any_eq_true.mp hs with ⟨x, hx, hcx⟩
    have : l.any isCJK = true := List.any_eq_true.mpr ⟨x, mem_pyStrip x l hx, hcx⟩
    rw [h] at this
    exact Bool.false_ne_true this

theorem any_cjk_strip_true (l : List Char) (h : l.any isCJK = true) :
    (pyStrip l).any isCJK = true := by
  rcases List.any_eq_true.mp h with ⟨x, hx, hcx⟩
  exact List.any_eq_true.mpr
    ⟨x, mem_pyStrip_of_not_ws x l (cjk_not_ws x hcx) hx, hcx⟩


/-- C3 (amended): provided the text does not match the bracket regex (the
bracket branch is tried first and takes precedence):
(i) a two-line text whose nonempty first line is pure CJK and whose second
line contains no CJK character but is not blank is rewritten to the stripped
second line, a newline, then the first line (the swap uses stripped lines);
(ii) a two-line text already in non-CJK-then-CJK order is unchanged;
(iii) a text with three or more nonempty (after stripping) lines is
unchanged.  (The frozen claim fails without these guards: the bracket branch
can fire on two-line texts, and blank lines are discarded before the
two-line test, see the counterexample.) -/
theorem C3_theorem :
    (∀ l1 l2, bracketMatch (l1 ++ '\n' :: l2) = none →
      l1 ≠ [] → (∀ x ∈ l1, isCJK x = true) →
      (∀ x ∈ l2, x ≠ '\n') → l2.any isCJK = false → pyStrip l2 ≠ [] →
      adjustStr (l1 ++ '\n' :: l2) = pyStrip l2 ++ '\n' :: l1) ∧
    (∀ l1 l2, bracketMatch (l1 ++ '\n' :: l2) = none →
      (∀ x ∈ l1, x ≠ '\n') → (∀ x ∈ l2, x ≠ '\n') →
      l1.any isCJK = false → l2.any isCJK = true →
      adjustStr (l1 ++ '\n' :: l2) = l1 ++ '\n' :: l2) ∧
    (∀ s, bracketMatch s = none →
      3 ≤ (((splitOnNl s).map pyStrip).filter (fun p => ¬p.isEmpty)).length →
      adjustStr s = s) := by
  refine ⟨?_, ?_, ?_⟩
  · intro l1 l2 hbm h1ne h1cjk h2nl h2no h2str
    have h1nl : ∀ x ∈ l1, x ≠ '\n' := by
      intro x hx hEq
      have := h1cjk x hx
      rw [hEq] at this
      simp [isCJK] at this
    have h1strip : pyStrip l1 = l1 :=
      pyStrip_eq_self_of_no_ws l1 (fun x hx => cjk_not_ws x (h1cjk x hx))
    obtain ⟨y1, t1, rfl⟩ := List.exists_cons_of_ne_nil h1ne
    obtain ⟨z, zs, hz⟩ := List.exists_cons_of_ne_nil h2str
    have h1cjkany : (y1 :: t1).any isCJK = true :=
      List.any_eq_true.mpr
        ⟨y1, List.mem_cons_self y1 t1, h1cjk y1 (List.mem_cons_self y1 t1)⟩
    have hc2 : (z :: zs).any isCJK = false := by
      rw [← hz]
      exact any_cjk_strip_false l2 h2no
    unfold adjustStr
    rw [hbm, if_pos (any_nl_append (y1 :: t1) l2),
      splitOnNl_two (y1 :: t1) l2 h1nl h2nl, hz]
    simp only [List.map_cons, List.map_nil, h1strip, hz]
    simp [h1cjkany, hc2]
  · intro l1 l2 hbm h1nl h2nl h1no h2yes
    have h2sne : pyStrip l2 ≠ [] := by
      have hy := any_cjk_strip_true l2 h2yes
      intro hnil
      rw [hnil] at hy
      simp at hy
    obtain ⟨z, zs, hz⟩ := List.exists_cons_of_ne_nil h2sne
    have hc2 : (z :: zs).any isCJK = true := by
      rw [← hz]
      exact any_cjk_strip_true l2 h2yes
    unfold adjustStr
    rw [hbm, if_pos (any_nl_append l1 l2), splitOnNl_two l1 l2 h1nl h2nl]
    rcases hs1 : pyStrip l1 with _ | ⟨w, ws2⟩
    · simp only [List.map_cons, List.map_nil, hs1, hz]
      simp
    · have hc1 : (w :: ws2).any isCJK = false := by
        rw [← hs1]
        exact any_cjk_strip_false l1 h1no
      simp only [List.map_cons, List.map_nil, hs1, hz]
      simp [hc1, hc2]
  · intro s hbm hlen
    unfold adjustStr
    simp only [hbm]
    by_cases hany : (s.any (· = '\n')) = true
    · rw [if_pos hany]
      rcases hp : ((splitOnNl s).map pyStrip).filter (fun p => ¬p.isEmpty)
        with _ | ⟨a, _ | ⟨b, _ | ⟨c, rest⟩⟩⟩
      · rw [hp] at hlen
        simp at hlen
      · rw [hp] at hlen
        simp at hlen
      · rw [hp] at hlen
        simp at hlen
      · rw [hp]
    · rw [if_neg hany]

/-- C3 (witness): the amended theorem at concrete two-line and three-line
inputs. -/
theorem C3_witness :
    adjustStr ("中文\nabc".data) = "abc".data ++ '\n' :: "中文".data ∧
    adjustStr ("abc\n中文".data) = "abc\n中文".data ∧
    adjustStr ("a\nb\nc".data) = "a\nb\nc".data := by
  refine ⟨?_, ?_, ?_⟩
  · have h := C3_theorem.1 ("中文".data) ("abc".data)
      (by decide) (by decide) (by decide) (by decide) (by decide) (by decide)
    have e1 : "中文".data ++ '\n' :: "abc".data = "中文\nabc".data := by decide
    have e2 : pyStrip ("abc".data) = "abc".data := by decide
    rw [e1, e2] at h
    exact h
  · have h := C3_theorem.2.1 ("abc".data) ("中文".data)
      (by decide) (by decide) (by decide) (by decide) (by decide)
    have e1 : "abc".data ++ '\n' :: "中文".data = "abc\n中文".data := by decide
    rw [e1] at h
    exact h
  · exact C3_theorem.2.2 ("a\nb\nc".data) (by decide) (by decide)


/-! ### The Baidu request builder (`baidu_translate`, lines 35-49)

`random.randint` is modelled as a function of a draw `r` from the random
source; MD5 and UTF-8 are implemented concretely (Python
`hashlib.md5(sign_str.encode()).hexdigest()`). -/

/-- Model of `random.randint(a, b)`: an integer uniform on the INCLUSIVE
range `[a, b]`, as a function of the draw `r`. -/
def randint (a b : Nat) (r : Nat) : Nat :=
  a + r % (b - a + 1)

/-- UTF-8 encoding of one character (Python `str.encode()`). -/
def utf8Char (c : Char) : List Nat :=
  let n := c.toNat
  if n < 0x80 then [n]
  else if n < 0x800 then [0xC0 + n / 64, 0x80 + n % 64]
  else if n < 0x10000 then
    [0xE0 + n / 4096, 0x80 + (n / 64) % 64, 0x80 + n % 64]
  else
    [0xF0 + n / 262144, 0x80 + (n / 4096) % 64, 0x80 + (n / 64) % 64,
      0x80 + n % 64]

/-- UTF-8 encoding of a string as a byte list. -/
def utf8Encode (s : List Char) : List Nat :=
  (s.map utf8Char).flatten

/-- `2^32`, the word modulus of MD5. -/
def M32 : Nat := 4294967296

/-- Rotate a 32-bit word left by `c` bits. -/
def rotl32 (x c : Nat) : Nat :=
  ((x <<< c) % M32) ||| (x >>> (32 - c))

/-- The MD5 sine-derived round constants. -/
def md5K : List Nat := [
  3614090360, 3905402710, 606105819, 3250441966,
  4118548399, 1200080426, 2821735955, 4249261313,
  1770035416, 2336552879, 4294925233, 2304563134,
  1804603682, 4254626195, 2792965006, 1236535329,
  4129170786, 3225465664, 643717713, 3921069994,
  3593408605, 38016083, 3634488961, 3889429448,
  568446438, 3275163606, 4107603335, 1163531501,
  2850285829, 4243563512, 1735328473, 2368359562,
  4294588738, 2272392833, 1839030562, 4259657740,
  2763975236, 1272893353, 4139469664, 3200236656,
  681279174, 3936430074, 3572445317, 76029189,
  3654602809, 3873151461, 530742520, 3299628645,
  4096336452, 1126891415, 2878612391, 4237533241,
  1700485571, 2399980690, 4293915773, 2240044497,
  1873313359, 4264355552, 2734768916, 1309151649,
  4149444226, 3174756917, 718787259, 3951481745]

/-- The MD5 per-round left-rotation amounts. -/
def md5S : List Nat := [
  7, 12, 17, 22, 7, 12, 17, 22, 7, 12, 17, 22, 7, 12, 17, 22,
  5, 9, 14, 20, 5, 9, 14, 20, 5, 9, 14, 20, 5, 9, 14, 20,
  4, 11, 16, 23, 4, 11, 16, 23, 4, 11, 16, 23, 4, 11, 16, 23,
  6, 10, 15, 21, 6, 10, 15, 21, 6, 10, 15, 21, 6, 10, 15, 21]

/-- MD5 round function F. -/
def md5F (b c d : Nat) : Nat := (b &&& c) ||| ((b ^^^ 0xFFFFFFFF) &&& d)

/-- MD5 round function G. -/
def md5G (b c d : Nat) : Nat := (d &&& b) ||| ((d ^^^ 0xFFFFFFFF) &&& c)

/-- MD5 round function H. -/
def md5H (b c d : Nat) : Nat := (b ^^^ c) ^^^ d

/-- MD5 round function I. -/
def md5I (b c d : Nat) : Nat := c ^^^ (b ||| (d ^^^ 0xFFFFFFFF))

/-- One MD5 round, acting on the state `(a, b, c, d)`. -/
def md5step (Mw : List Nat) (st : Nat × Nat × Nat × Nat) (i : Nat) :
    Nat × Nat × Nat × Nat :=
  let (a, b, c, d) := st
  let fg :=
    if i < 16 then (md5F b c d, i)
    else if i < 32 then (md5G b c d, (5 * i + 1) % 16)
    else if i < 48 then (md5H b c d, (3 * i + 5) % 16)
    else (md5I b c d, (7 * i) % 16)
  let tmp := (a + fg.1 + md5K.getD i 0 + Mw.getD fg.2 0) % M32
  (d, (b + rotl32 tmp (md5S.getD i 0)) % M32, b, c)

/-- Split a byte list into 64-byte chunks. -/
def chunks64 : List Nat → List (List Nat)
  | [] => []
  | x :: rest => ((x :: rest).take 64) :: chunks64 ((x :: rest).drop 64)
termination_by l => l.length
decreasing_by
  simp [List.length_drop]
  omega

/-- Little-endian bytes of a number, `k` bytes wide. -/
def leBytes (k n : Nat) : List Nat :=
  (List.range k).map fun i => (n / 256 ^ i) % 256

/-- MD5 padding: `0x80`, zeros to 56 mod 64, then the bit length as a
64-bit little-endian number. -/
def md5pad (msg : List Nat) : List Nat :=
  let z := (119 - msg.length % 64) % 64
  msg ++ [0x80] ++ List.replicate z 0 ++ leBytes 8 ((8 * msg.length) % 2 ^ 64)

/-- Process one 64-byte chunk. -/
def md5chunk (st : Nat × Nat × Nat × Nat) (chunk : List Nat) :
    Nat × Nat × Nat × Nat :=
  let Mw := (List.range 16).map fun j =>
    chunk.getD (4 * j) 0 + 256 * chunk.getD (4 * j + 1) 0 +
      65536 * chunk.getD (4 * j + 2) 0 + 16777216 * chunk.getD (4 * j + 3) 0
  let r := (List.range 64).foldl (md5step Mw) st
  ((st.1 + r.1) % M32, (st.2.1 + r.2.1) % M32, (st.2.2.1 + r.2.2.1) % M32,
    (st.2.2.2 + r.2.2.2) % M32)

/-- The 16-byte MD5 digest of a byte string. -/
def md5digest (msg : List Nat) : List Nat :=
  let r := (chunks64 (md5pad msg)).foldl md5chunk
    (0x67452301, 0xefcdab89, 0x98badcfe, 0x10325476)
  leBytes 4 r.1 ++ leBytes 4 r.2.1 ++ leBytes 4 r.2.2.1 ++ leBytes 4 r.2.2.2

/-- One lowercase hexadecimal digit. -/
def hexChar (n : Nat) : Char :=
  if n < 10 then Char.ofNat ('0'.toNat + n) else Char.ofNat ('a'.toNat + n - 10)

/-- Lowercase hexadecimal rendering of a byte list (`hexdigest`). -/
def md5hex (msg : List Nat) : List Char :=
  ((md5digest msg).map fun b => [hexChar (b / 16), hexChar (b % 16)]).flatten

/-- The query parameters built by `baidu_translate`
(src/translation_engine.py:35-49). -/
structure BaiduRequest where
  q : List Char
  fromLang : List Char
  toLang : List Char
  appid : List Char
  salt : Nat
  sign : List Char

/-- The signed request of `baidu_translate`: salt drawn with
`random.randint(32768, 65536)`, `sign_str = app_id + query + str(salt) +
app_key`, `sign = md5(sign_str.encode()).hexdigest()`. -/
def baidu_request (query app_id app_key : List Char) (r : Nat) : BaiduRequest :=
  let salt := randint 32768 65536 r
  let signStr := app_id ++ query ++ (Nat.repr salt).data ++ app_key
  let sign := md5hex (utf8Encode signStr)
  ⟨query, "zh".data, "en".data, app_id, salt, sign⟩


/-- C8 (counterexample): `random.randint(32768, 65536)` is INCLUSIVE of
both endpoints, so the draw `r = 32768` yields salt 65536, outside the
claimed half-open range `[32768, 65536)`. -/
theorem C8_counterexample :
    (baidu_request [] [] [] 32768).salt = 65536 ∧
      ¬((baidu_request [] [] [] 32768).salt < 65536) := by
  constructor
  · rfl
  · intro h
    have : (baidu_request [] [] [] 32768).salt = 65536 := rfl
    rw [this] at h
    exact Nat.lt_irrefl _ h

/-- C8 (amended): every invocation draws a salt in the CLOSED range
`[32768, 65536]` and signs with the MD5 hex digest of the UTF-8 encoding of
`app_id + query + str(salt) + app_key`. -/
theorem C8_theorem (query app_id app_key : List Char) (r : Nat) :
    32768 ≤ (baidu_request query app_id app_key r).salt ∧
      (baidu_request query app_id app_key r).salt ≤ 65536 ∧
      (baidu_request query app_id app_key r).sign =
        md5hex (utf8Encode (app_id ++ query ++
          (Nat.repr ((baidu_request query app_id app_key r).salt)).data ++
            app_key)) := by
  refine ⟨?_, ?_, rfl⟩
  · show 32768 ≤ 32768 + r % (65536 - 32768 + 1)
    exact Nat.le_add_right _ _
  · show 32768 + r % (65536 - 32768 + 1) ≤ 65536
    have := Nat.mod_lt r (show 0 < 65536 - 32768 + 1 by omega)
    omega


/-! ### Data model of the task engine

`TranslationTask` (src/translation_engine.py:12-33) also carries string
fields (`current_sheet`, `current_cell`, `message`, `output_file`), the
immutable job spec, and timestamps; no claim mentions them, so the model
keeps the lifecycle status and the counters.  Cell styles keep the concrete
colors used by the code.  The float progress expression
`int((processed / total) * 100)` is modelled by exact integer division: the
float computation is a truncation of a monotone chain, and every claim
proved about progress (monotonicity, the 0/100 endpoints, the bound 100)
is invariant under that reading. -/

inductive TaskStatus
  | pending
  | running
  | completed
  | failed
deriving DecidableEq

structure Task where
  status : TaskStatus
  progress : Nat
  total_cells : Nat
  translated_cells : Nat
  error_cells : Nat
  skipped_cells : Nat
deriving DecidableEq

inductive CellValue
  | vNone
  | vStr (s : List Char)
  | vOther
deriving DecidableEq

inductive FillS
  | defaultFill
  | patternFill (startColor endColor fillType : String)
deriving DecidableEq

inductive FontS
  | defaultFont
  | fontSpec (color : String) (bold : Bool)
deriving DecidableEq

inductive AlignS
  | defaultAlign
  | alignSpec (wrapText : Bool) (vertical : String)
deriving DecidableEq

/-- `PatternFill(start_color="FFFF00", end_color="FFFF00", fill_type="solid")`. -/
def highlight_fill : FillS := FillS.patternFill "FFFF00" "FFFF00" "solid"

/-- `Font(color="FF0000", bold=True)`. -/
def highlight_font : FontS := FontS.fontSpec "FF0000" true

/-- `Alignment(wrap_text=True, vertical='top')`. -/
def wrap_alignment : AlignS := AlignS.alignSpec true "top"

structure Cell where
  value : CellValue
  fill : FillS
  font : FontS
  alignment : AlignS
deriving DecidableEq

/-- A worksheet: cell grid addressed by (row, column index), the openpyxl
`max_row`, and the column-width / row-height dimension maps (width stored in
tenths so that `min(len * 1.2 + 5, 50)` stays integral). -/
structure Worksheet where
  cells : Int → Nat → Cell
  maxRow : Int
  colWidthT : Nat → Option Nat
  rowHeightD : Int → Option Nat

def defaultCell : Cell :=
  ⟨CellValue.vNone, FillS.defaultFill, FontS.defaultFont, AlignS.defaultAlign⟩

def emptyWorksheet : Worksheet :=
  ⟨fun _ _ => defaultCell, 1, fun _ => none, fun _ => none⟩

/-- `openpyxl.utils.column_index_from_string`: up to three letters, case
insensitive, mapped to a 1-based index; anything else raises `ValueError`
(modelled as `none`). -/
def column_index_from_string (s : List Char) : Option Nat :=
  let u := s.map Char.toUpper
  if u.length = 0 ∨ 3 < u.length ∨ ¬(u.all fun c => 'A' ≤ c && c ≤ 'Z') then
    none
  else
    some (u.foldl (fun a c => a * 26 + (c.toNat - 'A'.toNat + 1)) 0)

/-- Observable timing events of a run: a remote call, the 10-second
rate-limit cooldown sleep, the 1.5-second pacing sleep. -/
inductive Event
  | apiCall
  | sleepCooldown
  | sleepPacing
deriving DecidableEq

/-- The string literal `"ERROR_54003"` returned by `baidu_translate` for
the rate-limit error code. -/
def ERRSTR : List Char := "ERROR_54003".data

/-- Mutable run state threaded by the engine: the shared task record, the
index of the next remote-call result to consume from the oracle, the event
log, the trace of task snapshots (newest first), and the sequence of values
assigned to `progress` (in assignment order). -/
structure RunSt where
  task : Task
  callIdx : Nat
  events : List Event
  trace : List Task
  progs : List Nat

/-- Record a task snapshot: one observation point. -/
def snap (st : RunSt) : RunSt :=
  {st with trace := st.task :: st.trace}

/-- Cells processed so far. -/
def sumc (t : Task) : Nat :=
  t.translated_cells + t.error_cells + t.skipped_cells

/-- The progress-update block (`if task.total_cells > 0: task.progress =
min(100, int((total_processed / task.total_cells) * 100))`, lines 186-199 /
216-229 / 243-257). -/
def updateProgress (st : RunSt) : RunSt :=
  if 0 < st.task.total_cells then
    let p := min 100 (sumc st.task * 100 / st.task.total_cells)
    snap
      { st with
        task := {st.task with progress := p}
        progs := st.progs ++ [p] }
  else st

def setStatus (st : RunSt) (s : TaskStatus) : RunSt :=
  snap {st with task := {st.task with status := s}}

/-- The per-cell body of the inner loop of
`translate_worksheet_with_progress` (lines 165-260): skip empty /
non-string / whitespace-only values; on an already-translated value,
normalize the order and count a skip (no pacing sleep); otherwise call the
translator, retrying once after a 10 s cooldown on `"ERROR_54003"`; a
second rate-limit marks the cell with the highlight style and counts an
error (and `continue`s without the pacing sleep); a truthy non-error result
rewrites the cell to `"english\noriginal"` with wrap alignment and counts a
translation; finally the progress is updated and the 1.5 s pacing sleep
runs.  Returns the updated cell and state plus the column-width
contribution `max(len(original), len(english))`. -/
def processCell (cell : Cell) (st : RunSt) (oracle : Nat → Option (List Char)) :
    Cell × RunSt × Nat :=
  match cell.value with
  | CellValue.vStr s0 =>
    let s := pyStrip s0
    if s = [] then (cell, st, 0)
    else if is_already_translatedStr s then
      let adjusted := adjustStr s
      let cell :=
        if adjusted ≠ s then {cell with value := CellValue.vStr adjusted} else cell
      let st := snap {st with task :=
        {st.task with skipped_cells := st.task.skipped_cells + 1}}
      (cell, updateProgress st, 0)
    else
      let r1 := oracle st.callIdx
      let st :=
        { st with
          callIdx := st.callIdx + 1
          events := st.events ++ [Event.apiCall] }
      let pr : Option (List Char) × RunSt :=
        if r1 = some ERRSTR then
          let st := {st with events := st.events ++ [Event.sleepCooldown]}
          let r2 := oracle st.callIdx
          let st :=
            { st with
              callIdx := st.callIdx + 1
              events := st.events ++ [Event.apiCall] }
          (r2, st)
        else (r1, st)
      let english := pr.1
      let st := pr.2
      if english = some ERRSTR then
        let st := snap {st with task :=
          {st.task with error_cells := st.task.error_cells + 1}}
        let cell := {cell with fill := highlight_fill, font := highlight_font}
        (cell, updateProgress st, 0)
      else
        let res : Cell × RunSt × Nat :=
          match english with
          | some es =>
            if es = [] then (cell, st, 0)
            else
              ({ cell with
                  value := CellValue.vStr (es ++ '\n' :: s)
                  alignment := wrap_alignment },
                snap {st with task :=
                  {st.task with translated_cells := st.task.translated_cells + 1}},
                max s.length es.length)
          | none => (cell, st, 0)
        let st := updateProgress res.2.1
        let st := {st with events := st.events ++ [Event.sleepPacing]}
        (res.1, st, res.2.2)
  | _ => (cell, st, 0)

/-- `end_row` resolution (`if end_row is None or end_row == 0: end_row =
ws.max_row`, line 127, and `task.end_row or ws.max_row`, line 350). -/
def resolveEndRow (endO : Option Int) (m : Int) : Int :=
  match endO with
  | none => m
  | some e => if e = 0 then m else e

/-- Python `range(a, b + 1)` over integers. -/
def intRange (a b : Int) : List Int :=
  (List.range (b + 1 - a).toNat).map (fun i : Nat => a + (i : Int))

/-- The row loop of one column (lines 161-260): abort with `False` when the
task was externally failed, otherwise process each cell and write it back,
accumulating the column-width maximum. -/
def processRows (oracle : Nat → Option (List Char)) (colIdx : Nat) :
    List Int → Worksheet → RunSt → Nat → Bool × Worksheet × RunSt × Nat
  | [], ws, st, ml => (true, ws, st, ml)
  | r :: rest, ws, st, ml =>
    if st.task.status = TaskStatus.failed then (false, ws, st, ml)
    else
      let pc := processCell (ws.cells r colIdx) st oracle
      let ws' : Worksheet := {ws with cells := fun r' c' =>
        if r' = r ∧ c' = colIdx then pc.1 else ws.cells r' c'}
      processRows oracle colIdx rest ws' pc.2.1 (max ml pc.2.2)

/-- Ordered-association update for the `columns_to_adjust` dict. -/
def setAssoc : List (Nat × Nat) → Nat → Nat → List (Nat × Nat)
  | [], k, v => [(k, v)]
  | (k', v') :: t, k, v =>
    if k' = k then (k, v) :: t else (k', v') :: setAssoc t k v

/-- The column loop (lines 148-260): invalid column letters are skipped;
each valid column resets its width entry to 0, runs the row loop, and
records the resulting maximum length. -/
def processColumns (oracle : Nat → Option (List Char)) (rows : List Int) :
    List (List Char) → Worksheet → List (Nat × Nat) → RunSt →
      Bool × Worksheet × List (Nat × Nat) × RunSt
  | [], ws, colAdj, st => (true, ws, colAdj, st)
  | cl :: rest, ws, colAdj, st =>
    match column_index_from_string cl with
    | none => processColumns oracle rows rest ws colAdj st
    | some ci =>
      let colAdj := setAssoc colAdj ci 0
      let res := processRows oracle ci rows ws st 0
      if res.1 then
        processColumns oracle rows rest res.2.1
          (setAssoc colAdj ci res.2.2.2) res.2.2.1
      else (false, res.2.1, colAdj, res.2.2.1)

/-- The width pass (lines 263-269): `width = min(max_length * 1.2 + 5,
50)`, stored in tenths. -/
def applyWidths (ws : Worksheet) (colAdj : List (Nat × Nat)) : Worksheet :=
  colAdj.foldl (fun w kv =>
    {w with colWidthT := fun c =>
      if c = kv.1 then some (min (kv.2 * 12 + 50) 500) else w.colWidthT c}) ws

/-- The per-row maximum line count over the target columns (lines 273-284). -/
def rowMaxLines (ws : Worksheet) (cols : List (List Char)) (r : Int) : Nat :=
  cols.foldl (fun m cl =>
    match column_index_from_string cl with
    | none => m
    | some ci =>
      match (ws.cells r ci).value with
      | CellValue.vStr s => if s.isEmpty then m else max m (s.count '\n' + 1)
      | _ => m) 1

/-- The height pass (lines 271-288): `height = min(15 + (lines - 1) * 10,
100)` for every row of the processed range. -/
def applyHeights (ws : Worksheet) (cols : List (List Char)) (rows : List Int) :
    Worksheet :=
  rows.foldl (fun w r =>
    let h := 15 + (rowMaxLines w cols r - 1) * 10
    {w with rowHeightD := fun r' =>
      if r' = r then some (min h 100) else w.rowHeightD r'}) ws

/-- `translate_worksheet_with_progress` (lines 124-290): resolve and clamp
the row range (failing when `start_row > end_row`), run the column loop,
then apply the width and height passes. -/
def clampStart (start_row : Int) : Int :=
  if start_row < 1 then 1 else start_row

def clampEnd (endO : Option Int) (m : Int) : Int :=
  if resolveEndRow endO m > m then m else resolveEndRow endO m

def translate_worksheet_with_progress (ws : Worksheet) (st : RunSt)
    (columns : List (List Char)) (start_row : Int) (end_row : Option Int)
    (oracle : Nat → Option (List Char)) : Bool × Worksheet × RunSt :=
  let s1 := clampStart start_row
  let e2 := clampEnd end_row ws.maxRow
  if s1 > e2 then (false, ws, st)
  else
    let rows := intRange s1 e2
    let res := processColumns oracle rows columns ws [] st
    if res.1 then
      let ws2 := applyWidths res.2.1 res.2.2.1
      let ws3 := applyHeights ws2 columns rows
      (true, ws3, res.2.2.2)
    else (false, res.2.1, res.2.2.2)


/-! ### The task engine (`translate_excel_with_progress`, lines 292-414)

External effects are parameters: `wbOpt` is the loaded workbook (`none` =
missing or unreadable file), `oracle k` is the result of the `k`-th
`baidu_translate` call (`none` = failure, `some "ERROR_54003"` = rate
limited, any other `some` = a translation), `saveOk` says whether
`wb.save` succeeds.  `EngResult.saved` records whether an output file was
written. -/

/-- `is_already_translated` on a raw cell value (non-strings are never
"already translated"). -/
def is_already_translated : CellValue → Bool
  | CellValue.vStr s => is_already_translatedStr s
  | _ => false

/-- The pre-scan/processing guard `cell.value and isinstance(cell.value,
str) and cell.value.strip()`. -/
def processableV : CellValue → Bool
  | CellValue.vStr s => !s.isEmpty && !(pyStrip s).isEmpty
  | _ => false

/-- One column of the pre-scan (lines 347-358).  A row index below 1 makes
`ws.cell` raise `ValueError`, which the per-column `try` swallows, skipping
the rest of the column; accessing a cell beyond `max_row` extends the
sheet. -/
def preScanColumn (ci : Nat) :
    List Int → Worksheet → Nat → Nat → Nat × Nat × Worksheet
  | [], ws, tc, sc => (tc, sc, ws)
  | r :: rest, ws, tc, sc =>
    if r < 1 then (tc, sc, ws)
    else
      let v := (ws.cells r ci).value
      let ws := {ws with maxRow := max ws.maxRow r}
      if processableV v then
        if is_already_translated v then preScanColumn ci rest ws tc (sc + 1)
        else preScanColumn ci rest ws (tc + 1) sc
      else preScanColumn ci rest ws tc sc

/-- The pre-scan of one sheet over all configured columns; the row range is
re-evaluated per column from the current `max_row` (line 350). -/
def preScanSheet (start : Int) (endO : Option Int) :
    List (List Char) → Worksheet → Nat → Nat → Nat × Nat × Worksheet
  | [], ws, tc, sc => (tc, sc, ws)
  | cl :: rest, ws, tc, sc =>
    match column_index_from_string cl with
    | none => preScanSheet start endO rest ws tc sc
    | some ci =>
      let rows := intRange start (resolveEndRow endO ws.maxRow)
      let res := preScanColumn ci rows ws tc sc
      preScanSheet start endO rest res.2.2 res.1 res.2.1

/-- A loaded workbook: the ordered sheets with their names. -/
abbrev Workbook := List (String × Worksheet)

def lookupSheet (wb : Workbook) (n : String) : Option Worksheet :=
  (wb.find? (fun p => p.1 == n)).map (·.2)

def updateSheet : Workbook → String → Worksheet → Workbook
  | [], _, _ => []
  | (n', w') :: t, n, w =>
    if n' = n then (n, w) :: t else (n', w') :: updateSheet t n w

/-- The pre-scan over all selected sheets (lines 345-358). -/
def preScanWb (cols : List (List Char)) (start : Int) (endO : Option Int) :
    List String → Workbook → Nat → Nat → Nat × Nat × Workbook
  | [], wb, tc, sc => (tc, sc, wb)
  | n :: rest, wb, tc, sc =>
    let ws := (lookupSheet wb n).getD emptyWorksheet
    let res := preScanSheet start endO cols ws tc sc
    preScanWb cols start endO rest (updateSheet wb n res.2.2) res.1 res.2.1

/-- The main per-sheet loop (lines 383-398): break when the task was failed
externally (the save is then skipped), stop and fail when the worksheet
pass reports failure. -/
def mainLoop (cols : List (List Char)) (start : Int) (endO : Option Int)
    (oracle : Nat → Option (List Char)) :
    List String → Workbook → RunSt → Bool × Workbook × RunSt
  | [], wb, st => (true, wb, st)
  | n :: rest, wb, st =>
    if st.task.status = TaskStatus.failed then (true, wb, st)
    else
      let ws := (lookupSheet wb n).getD emptyWorksheet
      let res := translate_worksheet_with_progress ws st cols start endO oracle
      if res.1 then
        mainLoop cols start endO oracle rest (updateSheet wb n res.2.1) res.2.2
      else (false, updateSheet wb n res.2.1, setStatus res.2.2 TaskStatus.failed)

/-- Sheet-name validation (lines 328-338): `None` selects every sheet; an
explicit list is filtered to the names present in the workbook. -/
def selectSheets (wb : Workbook) (snames : Option (List String)) :
    List String :=
  match snames with
  | none => wb.map (fun p => p.1)
  | some ns => ns.filter (fun n => (wb.map (fun p => p.1)).contains n)

/-- The job spec fields of `TranslationTask` the engine reads. -/
structure Config where
  columns : List (List Char)
  start_row : Int
  end_row : Option Int
  sheet_names : Option (List String)

structure EngResult where
  st : RunSt
  wb : Workbook
  saved : Bool

def initialTask : Task :=
  ⟨TaskStatus.pending, 0, 0, 0, 0, 0⟩

/-- Lines 363-367: fix `total_cells` and reset the counters and progress.
Each assignment is an observation point. -/
def initCounters (st : RunSt) (total : Nat) : RunSt :=
  let st1 := snap {st with task := {st.task with total_cells := total}}
  let st2 := snap {st1 with task := {st1.task with translated_cells := 0}}
  let st3 := snap {st2 with task := {st2.task with error_cells := 0}}
  let st4 := snap {st3 with task := {st3.task with skipped_cells := 0}}
  snap
    { st4 with
      task := {st4.task with progress := 0}
      progs := st4.progs ++ [0] }

/-- The engine body after the probe and workbook load (lines 327-414):
sheet-selection validation, pre-scan, counter initialisation, the trivial
zero-work completion, the per-sheet loop, and the final save. -/
def engineCore (wb : Workbook) (cfg : Config)
    (oracle : Nat → Option (List Char)) (saveOk : Bool) (st : RunSt) :
    EngResult :=
  let sheets := selectSheets wb cfg.sheet_names
  if cfg.sheet_names ≠ none ∧ sheets = [] then
    ⟨setStatus st TaskStatus.failed, wb, false⟩
  else
    let ps := preScanWb cfg.columns cfg.start_row cfg.end_row sheets wb 0 0
    let st := initCounters st (ps.1 + ps.2.1)
    if ps.1 + ps.2.1 = 0 then
      ⟨setStatus st TaskStatus.completed, ps.2.2, false⟩
    else
      let res := mainLoop cfg.columns cfg.start_row cfg.end_row oracle
        sheets ps.2.2 st
      if res.1 then
        if res.2.2.task.status = TaskStatus.failed then
          ⟨res.2.2, res.2.1, false⟩
        else if saveOk then
          let st := setStatus res.2.2 TaskStatus.completed
          let st := snap
            { st with
              task := {st.task with progress := 100}
              progs := st.progs ++ [100] }
          ⟨st, res.2.1, true⟩
        else ⟨setStatus res.2.2 TaskStatus.failed, res.2.1, false⟩
      else ⟨res.2.2, res.2.1, false⟩

/-- The run state right after the successful connectivity probe: status
`running`, one API call logged, one observation point recorded. -/
def stAfterProbe : RunSt :=
  ⟨{initialTask with status := TaskStatus.running}, 1, [Event.apiCall],
    [{initialTask with status := TaskStatus.running}], []⟩

/-- `translate_excel_with_progress` (lines 292-414): probe the API, load
the workbook, validate the sheet selection, pre-scan to fix `total_cells`
and reset the counters, finish immediately on zero work (without saving),
otherwise process every sheet and save. -/
def translate_excel_with_progress (wbOpt : Option Workbook) (cfg : Config)
    (oracle : Nat → Option (List Char)) (saveOk : Bool) : EngResult :=
  let st0 : RunSt := ⟨initialTask, 0, [], [], []⟩
  let st := setStatus st0 TaskStatus.running
  let probe := oracle st.callIdx
  let st :=
    { st with
      callIdx := st.callIdx + 1
      events := st.events ++ [Event.apiCall] }
  if probe = none ∨ probe = some ERRSTR then
    ⟨setStatus st TaskStatus.failed, wbOpt.getD [], false⟩
  else
    match wbOpt with
    | none => ⟨setStatus st TaskStatus.failed, [], false⟩
    | some wb => engineCore wb cfg oracle saveOk st


/-! ### Projection lemmas for the state helpers -/

theorem snap_task (st : RunSt) : (snap st).task = st.task := rfl

theorem snap_events (st : RunSt) : (snap st).events = st.events := rfl

theorem snap_callIdx (st : RunSt) : (snap st).callIdx = st.callIdx := rfl

theorem snap_progs (st : RunSt) : (snap st).progs = st.progs := rfl

theorem snap_trace (st : RunSt) : (snap st).trace = st.task :: st.trace := rfl

theorem updateProgress_events (st : RunSt) :
    (updateProgress st).events = st.events := by
  unfold updateProgress
  split <;> rfl

theorem updateProgress_callIdx (st : RunSt) :
    (updateProgress st).callIdx = st.callIdx := by
  unfold updateProgress
  split <;> rfl

theorem updateProgress_status (st : RunSt) :
    (updateProgress st).task.status = st.task.status := by
  unfold updateProgress
  split <;> rfl

theorem updateProgress_total (st : RunSt) :
    (updateProgress st).task.total_cells = st.task.total_cells := by
  unfold updateProgress
  split <;> rfl

theorem updateProgress_translated (st : RunSt) :
    (updateProgress st).task.translated_cells = st.task.translated_cells := by
  unfold updateProgress
  split <;> rfl

theorem updateProgress_error (st : RunSt) :
    (updateProgress st).task.error_cells = st.task.error_cells := by
  unfold updateProgress
  split <;> rfl

theorem updateProgress_skipped (st : RunSt) :
    (updateProgress st).task.skipped_cells = st.task.skipped_cells := by
  unfold updateProgress
  split <;> rfl

theorem updateProgress_sumc (st : RunSt) :
    sumc (updateProgress st).task = sumc st.task := by
  unfold sumc
  rw [updateProgress_translated, updateProgress_error, updateProgress_skipped]

/-- C6: when the translate call returns the rate-limited result and the
single retry does as well, `error_cells` is incremented exactly once, the
cell receives the highlight fill and the bold red font, and exactly one
cooldown sleep occurs (the event log grows by call, cooldown, call — and by
nothing else, in particular no pacing sleep). -/
theorem C6_theorem (cell : Cell) (st : RunSt)
    (oracle : Nat → Option (List Char)) (s0 : List Char)
    (hv : cell.value = CellValue.vStr s0)
    (hne : pyStrip s0 ≠ [])
    (hnb : is_already_translatedStr (pyStrip s0) = false)
    (h1 : oracle st.callIdx = some ERRSTR)
    (h2 : oracle (st.callIdx + 1) = some ERRSTR) :
    (processCell cell st oracle).2.1.task.error_cells =
        st.task.error_cells + 1 ∧
      (processCell cell st oracle).2.1.task.translated_cells =
        st.task.translated_cells ∧
      (processCell cell st oracle).2.1.task.skipped_cells =
        st.task.skipped_cells ∧
      (processCell cell st oracle).1.fill = highlight_fill ∧
      (processCell cell st oracle).1.font = highlight_font ∧
      (processCell cell st oracle).2.1.events =
        st.events ++ [Event.apiCall, Event.sleepCooldown, Event.apiCall] := by
  unfold processCell
  rw [hv]
  simp [hne, hnb, h1, h2, updateProgress_error, updateProgress_events,
    updateProgress_translated, updateProgress_skipped, snap]


/-- C6 (witness): the double-rate-limited path at a concrete cell. -/
theorem C6_witness :
    (processCell ⟨CellValue.vStr "中".data, FillS.defaultFill,
        FontS.defaultFont, AlignS.defaultAlign⟩ ⟨initialTask, 0, [], [], []⟩
        (fun _ => some ERRSTR)).2.1.task.error_cells = 1 ∧
      (processCell ⟨CellValue.vStr "中".data, FillS.defaultFill,
        FontS.defaultFont, AlignS.defaultAlign⟩ ⟨initialTask, 0, [], [], []⟩
        (fun _ => some ERRSTR)).1.fill = highlight_fill ∧
      (processCell ⟨CellValue.vStr "中".data, FillS.defaultFill,
        FontS.defaultFont, AlignS.defaultAlign⟩ ⟨initialTask, 0, [], [], []⟩
        (fun _ => some ERRSTR)).2.1.events =
        [Event.apiCall, Event.sleepCooldown, Event.apiCall] := by
  have h := C6_theorem ⟨CellValue.vStr "中".data, FillS.defaultFill,
      FontS.defaultFont, AlignS.defaultAlign⟩ ⟨initialTask, 0, [], [], []⟩
    (fun _ => some ERRSTR) ("中".data) rfl (by decide) (by decide) rfl rfl
  exact ⟨h.1, h.2.2.2.1, h.2.2.2.2.2⟩

/-- C7 (counterexample): a cell whose call and retry are both rate limited
reaches the translate call (an API call occurs), yet no ~1.5 s pacing sleep
follows it — the error path `continue`s past the pacing delay, refuting
"every cell that reaches the translate call is followed by the pacing
delay". -/
theorem C7_counterexample :
    (processCell ⟨CellValue.vStr "中".data, FillS.defaultFill,
        FontS.defaultFont, AlignS.defaultAlign⟩ ⟨initialTask, 0, [], [], []⟩
        (fun _ => some ERRSTR)).2.1.events =
        [Event.apiCall, Event.sleepCooldown, Event.apiCall] ∧
      Event.apiCall ∈ (processCell ⟨CellValue.vStr "中".data,
        FillS.defaultFill, FontS.defaultFont, AlignS.defaultAlign⟩
        ⟨initialTask, 0, [], [], []⟩ (fun _ => some ERRSTR)).2.1.events ∧
      Event.sleepPacing ∉ (processCell ⟨CellValue.vStr "中".data,
        FillS.defaultFill, FontS.defaultFont, AlignS.defaultAlign⟩
        ⟨initialTask, 0, [], [], []⟩ (fun _ => some ERRSTR)).2.1.events := by
  decide

/-- C7 (amended): the pacing delay follows every cell that reaches the
translate call EXCEPT when both the call and its retry are rate limited (in
that case the events are exactly call, cooldown, call — the error path
skips the pacing delay); no pacing delay (indeed no event at all) occurs
for already-bilingual skip cells. -/
theorem C7_theorem :
    (∀ cell st oracle s0, cell.value = CellValue.vStr s0 → pyStrip s0 ≠ [] →
      is_already_translatedStr (pyStrip s0) = true →
      (processCell cell st oracle).2.1.events = st.events) ∧
    (∀ cell st oracle s0, cell.value = CellValue.vStr s0 → pyStrip s0 ≠ [] →
      is_already_translatedStr (pyStrip s0) = false →
      ¬(oracle st.callIdx = some ERRSTR ∧
          oracle (st.callIdx + 1) = some ERRSTR) →
      (processCell cell st oracle).2.1.events =
        st.events ++
          (if oracle st.callIdx = some ERRSTR then
            [Event.apiCall, Event.sleepCooldown, Event.apiCall,
              Event.sleepPacing]
          else [Event.apiCall, Event.sleepPacing])) ∧
    (∀ cell st oracle s0, cell.value = CellValue.vStr s0 → pyStrip s0 ≠ [] →
      is_already_translatedStr (pyStrip s0) = false →
      oracle st.callIdx = some ERRSTR →
      oracle (st.callIdx + 1) = some ERRSTR →
      (processCell cell st oracle).2.1.events =
        st.events ++ [Event.apiCall, Event.sleepCooldown, Event.apiCall]) := by
  refine ⟨?_, ?_, ?_⟩
  · intro cell st oracle s0 hv hne hb
    unfold processCell
    rw [hv]
    simp [hne, hb, updateProgress_events, snap]
  · intro cell st oracle s0 hv hne hnb hnd
    unfold processCell
    rw [hv]
    by_cases h1 : oracle st.callIdx = some ERRSTR
    · have h2 : ¬oracle (st.callIdx + 1) = some ERRSTR :=
        fun h2 => hnd ⟨h1, h2⟩
      rcases he : oracle (st.callIdx + 1) with _ | es
      · simp [hne, hnb, h1, he, updateProgress_events, snap]
      · have hesne : ¬es = ERRSTR := by
          intro hh
          exact h2 (by rw [he, hh])
        by_cases hes : es = []
        · simp [hne, hnb, h1, he, hes, hesne, updateProgress_events, snap,
            show ERRSTR ≠ ([] : List Char) by decide,
            show ([] : List Char) ≠ ERRSTR by decide]
        · simp [hne, hnb, h1, he, hes, hesne, updateProgress_events, snap]
    · rcases he : oracle st.callIdx with _ | es
      · simp [hne, hnb, he, updateProgress_events, snap]
      · have hesne : ¬es = ERRSTR := by
          intro hh
          exact h1 (by rw [he, hh])
        by_cases hes : es = []
        · simp [hne, hnb, he, hes, hesne, updateProgress_events, snap,
            show ERRSTR ≠ ([] : List Char) by decide,
            show ([] : List Char) ≠ ERRSTR by decide]
        · simp [hne, hnb, he, hes, hesne, updateProgress_events, snap]
  · intro cell st oracle s0 hv hne hnb h1 h2
    unfold processCell
    rw [hv]
    simp [hne, hnb, h1, h2, updateProgress_events, snap]

/-- C7 (witness): the amended theorem at concrete skip, plain-translate and
double-rate-limited cells. -/
theorem C7_witness :
    (processCell ⟨CellValue.vStr "OK\n中".data, FillS.defaultFill,
        FontS.defaultFont, AlignS.defaultAlign⟩ ⟨initialTask, 0, [], [], []⟩
        (fun _ => some ERRSTR)).2.1.events = [] ∧
      (processCell ⟨CellValue.vStr "中".data, FillS.defaultFill,
        FontS.defaultFont, AlignS.defaultAlign⟩ ⟨initialTask, 0, [], [], []⟩
        (fun _ => some "OK".data)).2.1.events =
        [] ++ (if (fun _ => some "OK".data) 0 = some ERRSTR then
          [Event.apiCall, Event.sleepCooldown, Event.apiCall,
            Event.sleepPacing]
        else [Event.apiCall, Event.sleepPacing]) ∧
      (processCell ⟨CellValue.vStr "中".data, FillS.defaultFill,
        FontS.defaultFont, AlignS.defaultAlign⟩ ⟨initialTask, 0, [], [], []⟩
        (fun _ => some ERRSTR)).2.1.events =
        [] ++ [Event.apiCall, Event.sleepCooldown, Event.apiCall] := by
  refine ⟨?_, ?_, ?_⟩
  · exact C7_theorem.1 ⟨CellValue.vStr "OK\n中".data, FillS.defaultFill,
      FontS.defaultFont, AlignS.defaultAlign⟩ ⟨initialTask, 0, [], [], []⟩
      (fun _ => some ERRSTR) ("OK\n中".data) rfl (by decide) (by decide)
  · exact C7_theorem.2.1 ⟨CellValue.vStr "中".data, FillS.defaultFill,
      FontS.defaultFont, AlignS.defaultAlign⟩ ⟨initialTask, 0, [], [], []⟩
      (fun _ => some "OK".data) ("中".data) rfl (by decide) (by decide)
      (by intro h; exact absurd h.1 (by decide))
  · exact C7_theorem.2.2 ⟨CellValue.vStr "中".data, FillS.defaultFill,
      FontS.defaultFont, AlignS.defaultAlign⟩ ⟨initialTask, 0, [], [], []⟩
      (fun _ => some ERRSTR) ("中".data) rfl (by decide) (by decide) rfl rfl


/-! ### Frame lemmas for the worksheet pass (C10) -/

theorem mem_intRange (r a b : Int) : r ∈ intRange a b ↔ a ≤ r ∧ r ≤ b := by
  unfold intRange
  constructor
  · intro h
    rcases List.mem_map.mp h with ⟨i, hi, hEq⟩
    rw [List.mem_range] at hi
    constructor <;> omega
  · rintro ⟨h1, h2⟩
    apply List.mem_map.mpr
    exact ⟨(r - a).toNat, List.mem_range.mpr (by omega), by omega⟩

theorem processRows_frame (oracle : Nat → Option (List Char)) (ci : Nat)
    (rows : List Int) (ws : Worksheet) (st : RunSt) (ml : Nat) :
    (∀ r c, (c ≠ ci ∨ r ∉ rows) →
      (processRows oracle ci rows ws st ml).2.1.cells r c = ws.cells r c) ∧
    (processRows oracle ci rows ws st ml).2.1.colWidthT = ws.colWidthT ∧
    (processRows oracle ci rows ws st ml).2.1.rowHeightD = ws.rowHeightD ∧
    (processRows oracle ci rows ws st ml).2.1.maxRow = ws.maxRow := by
  induction rows generalizing ws st ml with
  | nil => exact ⟨fun r c _ => rfl, rfl, rfl, rfl⟩
  | cons r0 rest ih =>
    by_cases hf : st.task.status = TaskStatus.failed
    · have hred : processRows oracle ci (r0 :: rest) ws st ml =
          (false, ws, st, ml) := by
        simp [processRows, hf]
      rw [hred]
      exact ⟨fun r c _ => rfl, rfl, rfl, rfl⟩
    · set pc := processCell (ws.cells r0 ci) st oracle with hpc
      set ws' : Worksheet := {ws with cells := fun r' c' =>
        if r' = r0 ∧ c' = ci then pc.1 else ws.cells r' c'} with hws
      have hstep : processRows oracle ci (r0 :: rest) ws st ml =
          processRows oracle ci rest ws' pc.2.1 (max ml pc.2.2) := by
        rw [hws, hpc]
        simp [processRows, hf]
      rw [hstep]
      have hmain := ih ws' pc.2.1 (max ml pc.2.2)
      refine ⟨?_, hmain.2.1.trans (by rw [hws]),
        hmain.2.2.1.trans (by rw [hws]), hmain.2.2.2.trans (by rw [hws])⟩
      intro r c hc
      have hout : c ≠ ci ∨ r ∉ rest := by
        rcases hc with h | h
        · exact Or.inl h
        · exact Or.inr (fun hm => h (List.mem_cons_of_mem r0 hm))
      rw [hmain.1 r c hout, hws]
      show (if r = r0 ∧ c = ci then pc.1 else ws.cells r c) = ws.cells r c
      rw [if_neg]
      rintro ⟨rfl, rfl⟩
      rcases hc with h | h
      · exact h rfl
      · exact h (List.mem_cons_self _ _)

theorem setAssoc_keys (l : List (Nat × Nat)) (k v k' : Nat)
    (h : k' ∈ (setAssoc l k v).map Prod.fst) :
    k' ∈ l.map Prod.fst ∨ k' = k := by
  induction l with
  | nil =>
    simp [setAssoc] at h
    exact Or.inr h
  | cons p t ih =>
    obtain ⟨pk, pv⟩ := p
    rw [setAssoc] at h
    by_cases hk : pk = k
    · rw [if_pos hk] at h
      simp only [List.map_cons, List.mem_cons] at h
      rcases h with h | h
      · exact Or.inr h
      · exact Or.inl (by simp only [List.map_cons, List.mem_cons]; right; exact h)
    · rw [if_neg hk] at h
      simp only [List.map_cons, List.mem_cons] at h
      rcases h with h | h
      · exact Or.inl (by simp only [List.map_cons, List.mem_cons]; left; exact h)
      · rcases ih h with h2 | h2
        · exact Or.inl
            (by simp only [List.map_cons, List.mem_cons]; right; exact h2)
        · exact Or.inr h2

theorem processColumns_frame (oracle : Nat → Option (List Char))
    (rows : List Int) (cols : List (List Char)) (ws : Worksheet)
    (colAdj : List (Nat × Nat)) (st : RunSt) :
    (∀ r c, (c ∉ cols.filterMap column_index_from_string ∨ r ∉ rows) →
      (processColumns oracle rows cols ws colAdj st).2.1.cells r c =
        ws.cells r c) ∧
    (processColumns oracle rows cols ws colAdj st).2.1.colWidthT =
      ws.colWidthT ∧
    (processColumns oracle rows cols ws colAdj st).2.1.rowHeightD =
      ws.rowHeightD ∧
    (processColumns oracle rows cols ws colAdj st).2.1.maxRow = ws.maxRow ∧
    (∀ k, k ∈ ((processColumns oracle rows cols ws colAdj st).2.2.1).map
        Prod.fst →
      k ∈ colAdj.map Prod.fst ∨
        k ∈ cols.filterMap column_index_from_string) := by
  induction cols generalizing ws colAdj st with
  | nil =>
    exact ⟨fun r c _ => rfl, rfl, rfl, rfl, fun k hk => Or.inl hk⟩
  | cons cl rest ih =>
    cases hci : column_index_from_string cl with
    | none =>
      simp only [processColumns, hci]
      have hmain := ih ws colAdj st
      refine ⟨?_, hmain.2.1, hmain.2.2.1, hmain.2.2.2.1, ?_⟩
      · intro r c hc
        apply hmain.1
        rcases hc with h | h
        · left
          intro hm
          apply h
          rw [List.filterMap_cons, hci]
          exact hm
        · exact Or.inr h
      · intro k hk
        rcases hmain.2.2.2.2 k hk with h | h
        · exact Or.inl h
        · right
          rw [List.filterMap_cons, hci]
          exact h
    | some ci =>
      simp only [processColumns, hci]
      have hrows := processRows_frame oracle ci rows ws st 0
      by_cases hok : (processRows oracle ci rows ws st 0).1 = true
      · simp only [hok, if_pos]
        have hmain := ih (processRows oracle ci rows ws st 0).2.1
          (setAssoc (setAssoc colAdj ci 0) ci
            (processRows oracle ci rows ws st 0).2.2.2)
          (processRows oracle ci rows ws st 0).2.2.1
        refine ⟨?_, ?_, ?_, ?_, ?_⟩
        · intro r c hc
          have hc' : c ∉ rest.filterMap column_index_from_string ∨
              r ∉ rows := by
            rcases hc with h | h
            · left
              intro hm
              apply h
              rw [List.filterMap_cons, hci]
              exact List.mem_cons_of_mem ci hm
            · exact Or.inr h
          rw [hmain.1 r c hc']
          apply hrows.1
          rcases hc with h | h
          · left
            intro hceq
            apply h
            rw [List.filterMap_cons, hci, hceq]
            exact List.mem_cons_self ci _
          · exact Or.inr h
        · rw [hmain.2.1]
          exact hrows.2.1
        · rw [hmain.2.2.1]
          exact hrows.2.2.1
        · rw [hmain.2.2.2.1]
          exact hrows.2.2.2
        · intro k hk
          rcases hmain.2.2.2.2 k hk with h | h
          · rcases setAssoc_keys _ ci _ k h with h2 | h2
            · rcases setAssoc_keys _ ci 0 k h2 with h3 | h3
              · exact Or.inl h3
              · right
                rw [List.filterMap_cons, hci, h3]
                exact List.mem_cons_self ci _
            · right
              rw [List.filterMap_cons, hci, h2]
              exact List.mem_cons_self ci _
          · right
            rw [List.filterMap_cons, hci]
            exact List.mem_cons_of_mem ci h
      · simp only [hok, if_neg, Bool.not_eq_true]
        refine ⟨?_, hrows.2.1, hrows.2.2.1, hrows.2.2.2, ?_⟩
        · intro r c hc
          apply hrows.1
          rcases hc with h | h
          · left
            intro hceq
            apply h
            rw [List.filterMap_cons, hci, hceq]
            exact List.mem_cons_self ci _
          · exact Or.inr h
        · intro k hk
          rcases setAssoc_keys _ ci 0 k hk with h | h
          · exact Or.inl h
          · right
            rw [List.filterMap_cons, hci, h]
            exact List.mem_cons_self ci _

theorem applyWidths_frame (ws : Worksheet) (colAdj : List (Nat × Nat)) :
    (applyWidths ws colAdj).cells = ws.cells ∧
    (applyWidths ws colAdj).rowHeightD = ws.rowHeightD ∧
    (applyWidths ws colAdj).maxRow = ws.maxRow ∧
    (∀ c, c ∉ colAdj.map Prod.fst →
      (applyWidths ws colAdj).colWidthT c = ws.colWidthT c) := by
  induction colAdj generalizing ws with
  | nil => exact ⟨rfl, rfl, rfl, fun c _ => rfl⟩
  | cons kv t ih =>
    set ws1 : Worksheet :=
      { ws with
        colWidthT := fun c =>
          if c = kv.1 then some (min (kv.2 * 12 + 50) 500)
          else ws.colWidthT c }
      with hws1
    have hstep : applyWidths ws (kv :: t) = applyWidths ws1 t := by
      rw [hws1]
      rfl
    rw [hstep]
    have hmain := ih ws1
    refine ⟨hmain.1.trans (by rw [hws1]), hmain.2.1.trans (by rw [hws1]),
      hmain.2.2.1.trans (by rw [hws1]), ?_⟩
    intro c hc
    have hc1 : c ∉ t.map Prod.fst := by
      intro hm
      exact hc (by simp only [List.map_cons, List.mem_cons]; right; exact hm)
    rw [hmain.2.2.2 c hc1, hws1]
    show (if c = kv.1 then some (min (kv.2 * 12 + 50) 500)
      else ws.colWidthT c) = ws.colWidthT c
    rw [if_neg]
    intro heq
    exact hc (by
      simp only [List.map_cons, List.mem_cons]
      exact Or.inl heq)

theorem applyHeights_frame (ws : Worksheet) (cols : List (List Char))
    (rows : List Int) :
    (applyHeights ws cols rows).cells = ws.cells ∧
    (applyHeights ws cols rows).colWidthT = ws.colWidthT ∧
    (applyHeights ws cols rows).maxRow = ws.maxRow ∧
    (∀ r, r ∉ rows →
      (applyHeights ws cols rows).rowHeightD r = ws.rowHeightD r) := by
  induction rows generalizing ws with
  | nil => exact ⟨rfl, rfl, rfl, fun r _ => rfl⟩
  | cons r0 t ih =>
    set ws1 : Worksheet :=
      { ws with
        rowHeightD := fun r' =>
          if r' = r0 then some (min (15 + (rowMaxLines ws cols r0 - 1) * 10) 100)
          else ws.rowHeightD r' }
      with hws1
    have hstep : applyHeights ws cols (r0 :: t) = applyHeights ws1 cols t := by
      rw [hws1]
      rfl
    rw [hstep]
    have hmain := ih ws1
    refine ⟨hmain.1.trans (by rw [hws1]), hmain.2.1.trans (by rw [hws1]),
      hmain.2.2.1.trans (by rw [hws1]), ?_⟩
    intro r hr
    have hr1 : r ∉ t := fun hm => hr (List.mem_cons_of_mem r0 hm)
    rw [hmain.2.2.2 r hr1, hws1]
    show (if r = r0 then some (min (15 + (rowMaxLines ws cols r0 - 1) * 10) 100)
      else ws.rowHeightD r) = ws.rowHeightD r
    rw [if_neg]
    intro heq
    exact hr (heq ▸ List.mem_cons_self r0 t)


/-- C10: a run of `translate_worksheet_with_progress` changes cells (values
and styles) only at coordinates whose column index is one of the valid
target columns and whose row lies in the clamped range; every cell outside
is unchanged, column widths change only at target columns, and row heights
only at rows of the range. -/
theorem C10_theorem (ws : Worksheet) (st : RunSt)
    (columns : List (List Char)) (start_row : Int) (end_row : Option Int)
    (oracle : Nat → Option (List Char)) :
    (∀ r c, c ∉ columns.filterMap column_index_from_string ∨
        r < clampStart start_row ∨ clampEnd end_row ws.maxRow < r →
      (translate_worksheet_with_progress ws st columns start_row end_row
        oracle).2.1.cells r c = ws.cells r c) ∧
    (∀ c, c ∉ columns.filterMap column_index_from_string →
      (translate_worksheet_with_progress ws st columns start_row end_row
        oracle).2.1.colWidthT c = ws.colWidthT c) ∧
    (∀ r, r < clampStart start_row ∨ clampEnd end_row ws.maxRow < r →
      (translate_worksheet_with_progress ws st columns start_row end_row
        oracle).2.1.rowHeightD r = ws.rowHeightD r) := by
  have hnotin : ∀ r : Int, r < clampStart start_row ∨
      clampEnd end_row ws.maxRow < r →
      r ∉ intRange (clampStart start_row) (clampEnd end_row ws.maxRow) := by
    intro r hr hm
    rw [mem_intRange] at hm
    rcases hr with h | h <;> omega
  by_cases hse : clampStart start_row > clampEnd end_row ws.maxRow
  · have hred : translate_worksheet_with_progress ws st columns start_row
        end_row oracle = (false, ws, st) := by
      unfold translate_worksheet_with_progress
      simp [hse]
    rw [hred]
    exact ⟨fun r c _ => rfl, fun c _ => rfl, fun r _ => rfl⟩
  · have hpc := processColumns_frame oracle
      (intRange (clampStart start_row) (clampEnd end_row ws.maxRow))
      columns ws [] st
    by_cases hok : (processColumns oracle
        (intRange (clampStart start_row) (clampEnd end_row ws.maxRow))
        columns ws [] st).1 = true
    · have hred : translate_worksheet_with_progress ws st columns start_row
          end_row oracle =
          (true,
            applyHeights
              (applyWidths
                (processColumns oracle
                  (intRange (clampStart start_row)
                    (clampEnd end_row ws.maxRow)) columns ws [] st).2.1
                (processColumns oracle
                  (intRange (clampStart start_row)
                    (clampEnd end_row ws.maxRow)) columns ws [] st).2.2.1)
              columns
              (intRange (clampStart start_row) (clampEnd end_row ws.maxRow)),
            (processColumns oracle
              (intRange (clampStart start_row) (clampEnd end_row ws.maxRow))
              columns ws [] st).2.2.2) := by
        unfold translate_worksheet_with_progress
        simp [hse, hok]
      rw [hred]
      have hw := applyWidths_frame
        (processColumns oracle
          (intRange (clampStart start_row) (clampEnd end_row ws.maxRow))
          columns ws [] st).2.1
        (processColumns oracle
          (intRange (clampStart start_row) (clampEnd end_row ws.maxRow))
          columns ws [] st).2.2.1
      have hh := applyHeights_frame
        (applyWidths
          (processColumns oracle
            (intRange (clampStart start_row) (clampEnd end_row ws.maxRow))
            columns ws [] st).2.1
          (processColumns oracle
            (intRange (clampStart start_row) (clampEnd end_row ws.maxRow))
            columns ws [] st).2.2.1)
        columns (intRange (clampStart start_row) (clampEnd end_row ws.maxRow))
      refine ⟨?_, ?_, ?_⟩
      · intro r c hc
        show (applyHeights _ _ _).cells r c = ws.cells r c
        rw [hh.1, hw.1]
        apply hpc.1
        rcases hc with h | h
        · exact Or.inl h
        · exact Or.inr (hnotin r h)
      · intro c hc
        have hkeys : c ∉ ((processColumns oracle
            (intRange (clampStart start_row) (clampEnd end_row ws.maxRow))
            columns ws [] st).2.2.1).map Prod.fst := by
          intro hk
          rcases hpc.2.2.2.2 c hk with h | h
          · simp at h
          · exact hc h
        show (applyHeights _ _ _).colWidthT c = ws.colWidthT c
        rw [congrFun hh.2.1 c, hw.2.2.2 c hkeys, congrFun hpc.2.1 c]
      · intro r hr
        show (applyHeights _ _ _).rowHeightD r = ws.rowHeightD r
        rw [hh.2.2.2 r (hnotin r hr), congrFun hw.2.1 r,
          congrFun hpc.2.2.1 r]
    · have hred : translate_worksheet_with_progress ws st columns start_row
          end_row oracle =
          (false,
            (processColumns oracle
              (intRange (clampStart start_row) (clampEnd end_row ws.maxRow))
              columns ws [] st).2.1,
            (processColumns oracle
              (intRange (clampStart start_row) (clampEnd end_row ws.maxRow))
              columns ws [] st).2.2.2) := by
        unfold translate_worksheet_with_progress
        simp [hse, hok]
      rw [hred]
      refine ⟨?_, ?_, ?_⟩
      · intro r c hc
        apply hpc.1
        rcases hc with h | h
        · exact Or.inl h
        · exact Or.inr (hnotin r h)
      · intro c _
        exact congrFun hpc.2.1 c
      · intro r _
        exact congrFun hpc.2.2.1 r

/-- C10 (witness): a concrete one-cell worksheet, target column `A`; the
out-of-frame cell (5, 2), column 2 and row 5 are untouched. -/
theorem C10_witness :
    (translate_worksheet_with_progress emptyWorksheet
        ⟨initialTask, 0, [], [], []⟩ ["A".data] 1 none
        (fun _ => some "OK".data)).2.1.cells 5 2 =
      emptyWorksheet.cells 5 2 ∧
    (translate_worksheet_with_progress emptyWorksheet
        ⟨initialTask, 0, [], [], []⟩ ["A".data] 1 none
        (fun _ => some "OK".data)).2.1.colWidthT 2 =
      emptyWorksheet.colWidthT 2 ∧
    (translate_worksheet_with_progress emptyWorksheet
        ⟨initialTask, 0, [], [], []⟩ ["A".data] 1 none
        (fun _ => some "OK".data)).2.1.rowHeightD 5 =
      emptyWorksheet.rowHeightD 5 := by
  have h := C10_theorem emptyWorksheet ⟨initialTask, 0, [], [], []⟩
    ["A".data] 1 none (fun _ => some "OK".data)
  exact ⟨h.1 5 2 (by decide), h.2.1 2 (by decide), h.2.2 5 (by decide)⟩


/-! ### Pre-scan preservation lemmas (C9) -/

theorem preScanColumn_ws (ci : Nat) (rows : List Int) :
    ∀ (ws : Worksheet) (tc sc : Nat),
    ∃ m, (preScanColumn ci rows ws tc sc).2.2 = {ws with maxRow := m} := by
  induction rows with
  | nil =>
    intro ws tc sc
    exact ⟨ws.maxRow, rfl⟩
  | cons r rest ih =>
    intro ws tc sc
    by_cases hr : r < 1
    · refine ⟨ws.maxRow, ?_⟩
      rw [preScanColumn, if_pos hr]
    · have hred : preScanColumn ci (r :: rest) ws tc sc =
          if processableV (ws.cells r ci).value = true then
            (if is_already_translated (ws.cells r ci).value = true then
              preScanColumn ci rest {ws with maxRow := max ws.maxRow r} tc
                (sc + 1)
            else
              preScanColumn ci rest {ws with maxRow := max ws.maxRow r}
                (tc + 1) sc)
          else preScanColumn ci rest {ws with maxRow := max ws.maxRow r} tc
            sc := by
        rw [preScanColumn, if_neg hr]
      rw [hred]
      by_cases h1 : processableV (ws.cells r ci).value = true
      · by_cases h2 : is_already_translated (ws.cells r ci).value = true
        · obtain ⟨m, hm⟩ := ih {ws with maxRow := max ws.maxRow r} tc (sc + 1)
          refine ⟨m, ?_⟩
          rw [if_pos h1, if_pos h2, hm]
        · obtain ⟨m, hm⟩ := ih {ws with maxRow := max ws.maxRow r} (tc + 1) sc
          refine ⟨m, ?_⟩
          rw [if_pos h1, if_neg h2, hm]
      · obtain ⟨m, hm⟩ := ih {ws with maxRow := max ws.maxRow r} tc sc
        refine ⟨m, ?_⟩
        rw [if_neg h1, hm]

theorem preScanSheet_ws (start : Int) (endO : Option Int)
    (cols : List (List Char)) :
    ∀ (ws : Worksheet) (tc sc : Nat),
    ∃ m, (preScanSheet start endO cols ws tc sc).2.2 = {ws with maxRow := m} := by
  induction cols with
  | nil =>
    intro ws tc sc
    exact ⟨ws.maxRow, rfl⟩
  | cons cl rest ih =>
    intro ws tc sc
    cases hci : column_index_from_string cl with
    | none =>
      have hred : preScanSheet start endO (cl :: rest) ws tc sc =
          preScanSheet start endO rest ws tc sc := by
        rw [preScanSheet, hci]
      rw [hred]
      exact ih ws tc sc
    | some ci =>
      have hred : preScanSheet start endO (cl :: rest) ws tc sc =
          preScanSheet start endO rest
            (preScanColumn ci
              (intRange start (resolveEndRow endO ws.maxRow)) ws tc sc).2.2
            (preScanColumn ci
              (intRange start (resolveEndRow endO ws.maxRow)) ws tc sc).1
            (preScanColumn ci
              (intRange start (resolveEndRow endO ws.maxRow)) ws tc sc).2.1 := by
        rw [preScanSheet, hci]
      rw [hred]
      obtain ⟨m1, hm1⟩ := preScanColumn_ws ci
        (intRange start (resolveEndRow endO ws.maxRow)) ws tc sc
      obtain ⟨m2, hm2⟩ := ih
        (preScanColumn ci (intRange start (resolveEndRow endO ws.maxRow))
          ws tc sc).2.2
        (preScanColumn ci (intRange start (resolveEndRow endO ws.maxRow))
          ws tc sc).1
        (preScanColumn ci (intRange start (resolveEndRow endO ws.maxRow))
          ws tc sc).2.1
      refine ⟨m2, ?_⟩
      rw [hm2, hm1]

theorem lookupSheet_cons (k : String) (x : Worksheet) (t : Workbook)
    (m : String) :
    lookupSheet ((k, x) :: t) m = if k = m then some x else lookupSheet t m := by
  by_cases h : k = m
  · subst h
    unfold lookupSheet
    rw [List.find?_cons_of_pos _ (by simp)]
    simp
  · unfold lookupSheet
    rw [List.find?_cons_of_neg _ (by simp [h])]
    rw [if_neg h]

theorem lookup_updateSheet (wb : Workbook) (n : String) (w : Worksheet)
    (m : String) :
    lookupSheet (updateSheet wb n w) m =
      if m = n ∧ (lookupSheet wb n).isSome then some w
      else lookupSheet wb m := by
  induction wb with
  | nil =>
    simp [updateSheet, lookupSheet]
  | cons p t ih =>
    obtain ⟨k, x⟩ := p
    by_cases hk : k = n
    · subst hk
      rw [updateSheet, if_pos rfl, lookupSheet_cons, lookupSheet_cons,
        lookupSheet_cons, if_pos rfl]
      by_cases hm : k = m
      · subst hm
        simp
      · have hmk : ¬(m = k) := fun h => hm h.symm
        simp [hm, hmk]
    · rw [updateSheet, if_neg hk, lookupSheet_cons, lookupSheet_cons,
        lookupSheet_cons, if_neg hk]
      by_cases hm : k = m
      · subst hm
        rw [if_pos rfl, if_pos rfl, if_neg]
        rintro ⟨h1, -⟩
        exact hk h1
      · rw [if_neg hm, if_neg hm, ih]

theorem preScanWb_preserves {α : Type} (f : Worksheet → α)
    (hf : ∀ ws m, f {ws with maxRow := m} = f ws)
    (cols : List (List Char)) (start : Int) (endO : Option Int) :
    ∀ (names : List String) (wb : Workbook) (tc sc : Nat) (m : String),
    ((lookupSheet (preScanWb cols start endO names wb tc sc).2.2 m).map f) =
      (lookupSheet wb m).map f := by
  intro names
  induction names with
  | nil =>
    intro wb tc sc m
    rfl
  | cons n rest ih =>
    intro wb tc sc m
    have hred : preScanWb cols start endO (n :: rest) wb tc sc =
        preScanWb cols start endO rest
          (updateSheet wb n
            (preScanSheet start endO cols
              ((lookupSheet wb n).getD emptyWorksheet) tc sc).2.2)
          (preScanSheet start endO cols
            ((lookupSheet wb n).getD emptyWorksheet) tc sc).1
          (preScanSheet start endO cols
            ((lookupSheet wb n).getD emptyWorksheet) tc sc).2.1 := by
      rw [preScanWb]
    rw [hred, ih]
    rw [lookup_updateSheet]
    by_cases hc : m = n ∧ (lookupSheet wb n).isSome
    · rw [if_pos hc]
      rcases hl : lookupSheet wb n with _ | w0
      · rw [hl] at hc
        simp at hc
      · simp only [Option.getD_some]
        obtain ⟨m1, hm1⟩ := preScanSheet_ws start endO cols w0 tc sc
        rw [hm1, hc.1, hl]
        simp [hf]
    · rw [if_neg hc]

/-! ### C9: the zero-work branch -/

/-- C9 (counterexample): a run whose pre-scan finds no translatable cell
ends `completed` without saving, but its `progress` stays at 0 — the code
never assigns 100 in the `total_cells == 0` branch (line 367 is the last
progress write), so the claim's "progress = 100 (implicitly)" is false. -/
theorem C9_counterexample :
    (translate_excel_with_progress (some [(String.mk ['S'], emptyWorksheet)])
        ⟨[['A']], 1, none, none⟩ (fun _ => some ['O', 'K'])
        true).st.task.total_cells = 0 ∧
    (translate_excel_with_progress (some [(String.mk ['S'], emptyWorksheet)])
        ⟨[['A']], 1, none, none⟩ (fun _ => some ['O', 'K'])
        true).st.task.status = TaskStatus.completed ∧
    (translate_excel_with_progress (some [(String.mk ['S'], emptyWorksheet)])
        ⟨[['A']], 1, none, none⟩ (fun _ => some ['O', 'K'])
        true).st.task.progress = 0 ∧
    ¬((translate_excel_with_progress (some [(String.mk ['S'], emptyWorksheet)])
        ⟨[['A']], 1, none, none⟩ (fun _ => some ['O', 'K'])
        true).st.task.progress = 100) := by
  refine ⟨rfl, rfl, rfl, ?_⟩
  intro h
  exact absurd h (by decide)

/-- C9 (amended): when the connectivity probe succeeds, the sheet selection
is valid and the pre-scan computes `total_cells = 0`, the task goes
directly to `completed` with `progress` left at 0 (not 100), nothing is
saved, no translate call is made beyond the probe, and every sheet's cell
contents, column widths and row heights are unchanged (only `max_row` may
be touched by the pre-scan's cell accesses). -/
theorem C9_theorem (wb : Workbook) (cfg : Config)
    (oracle : Nat → Option (List Char)) (saveOk : Bool)
    (ho : ¬(oracle 0 = none ∨ oracle 0 = some ERRSTR))
    (hsh : ¬(cfg.sheet_names ≠ none ∧ selectSheets wb cfg.sheet_names = []))
    (htot : (preScanWb cfg.columns cfg.start_row cfg.end_row
        (selectSheets wb cfg.sheet_names) wb 0 0).1 +
      (preScanWb cfg.columns cfg.start_row cfg.end_row
        (selectSheets wb cfg.sheet_names) wb 0 0).2.1 = 0) :
    (translate_excel_with_progress (some wb) cfg oracle
        saveOk).st.task.status = TaskStatus.completed ∧
    (translate_excel_with_progress (some wb) cfg oracle
        saveOk).st.task.progress = 0 ∧
    (translate_excel_with_progress (some wb) cfg oracle saveOk).saved
        = false ∧
    (translate_excel_with_progress (some wb) cfg oracle saveOk).st.events
        = [Event.apiCall] ∧
    (∀ n, (lookupSheet (translate_excel_with_progress (some wb) cfg oracle
          saveOk).wb n).map Worksheet.cells
        = (lookupSheet wb n).map Worksheet.cells) ∧
    (∀ n, (lookupSheet (translate_excel_with_progress (some wb) cfg oracle
          saveOk).wb n).map Worksheet.colWidthT
        = (lookupSheet wb n).map Worksheet.colWidthT) ∧
    (∀ n, (lookupSheet (translate_excel_with_progress (some wb) cfg oracle
          saveOk).wb n).map Worksheet.rowHeightD
        = (lookupSheet wb n).map Worksheet.rowHeightD) := by
  have h1 : translate_excel_with_progress (some wb) cfg oracle saveOk =
      if oracle 0 = none ∨ oracle 0 = some ERRSTR then
        ⟨setStatus stAfterProbe TaskStatus.failed, wb, false⟩
      else engineCore wb cfg oracle saveOk stAfterProbe := rfl
  have h2 : engineCore wb cfg oracle saveOk stAfterProbe =
      ⟨setStatus (initCounters stAfterProbe
          ((preScanWb cfg.columns cfg.start_row cfg.end_row
              (selectSheets wb cfg.sheet_names) wb 0 0).1 +
            (preScanWb cfg.columns cfg.start_row cfg.end_row
              (selectSheets wb cfg.sheet_names) wb 0 0).2.1))
          TaskStatus.completed,
        (preScanWb cfg.columns cfg.start_row cfg.end_row
          (selectSheets wb cfg.sheet_names) wb 0 0).2.2, false⟩ := by
    simp only [engineCore]
    rw [if_neg hsh, if_pos htot]
  rw [h1, if_neg ho, h2]
  refine ⟨rfl, rfl, rfl, rfl, ?_, ?_, ?_⟩
  · intro n
    exact preScanWb_preserves Worksheet.cells (fun ws m => rfl)
      cfg.columns cfg.start_row cfg.end_row
      (selectSheets wb cfg.sheet_names) wb 0 0 n
  · intro n
    exact preScanWb_preserves Worksheet.colWidthT (fun ws m => rfl)
      cfg.columns cfg.start_row cfg.end_row
      (selectSheets wb cfg.sheet_names) wb 0 0 n
  · intro n
    exact preScanWb_preserves Worksheet.rowHeightD (fun ws m => rfl)
      cfg.columns cfg.start_row cfg.end_row
      (selectSheets wb cfg.sheet_names) wb 0 0 n

/-- C9 (witness): the amended theorem at a concrete zero-work run. -/
theorem C9_witness :
    (translate_excel_with_progress (some [(String.mk ['S'], emptyWorksheet)])
        ⟨[['A']], 1, none, none⟩ (fun _ => some ['O', 'K'])
        true).st.task.status = TaskStatus.completed ∧
    (translate_excel_with_progress (some [(String.mk ['S'], emptyWorksheet)])
        ⟨[['A']], 1, none, none⟩ (fun _ => some ['O', 'K'])
        true).saved = false ∧
    (lookupSheet (translate_excel_with_progress
        (some [(String.mk ['S'], emptyWorksheet)])
        ⟨[['A']], 1, none, none⟩ (fun _ => some ['O', 'K'])
        true).wb (String.mk ['S'])).map Worksheet.cells
      = (lookupSheet [(String.mk ['S'], emptyWorksheet)]
          (String.mk ['S'])).map Worksheet.cells := by
  obtain ⟨h1, h2, h3, h4, h5, h6, h7⟩ :=
    C9_theorem [(String.mk ['S'], emptyWorksheet)]
      ⟨[['A']], 1, none, none⟩ (fun _ => some ['O', 'K']) true
      (by decide) (by decide) (by decide)
  exact ⟨h1, h3, h5 (String.mk ['S'])⟩

/-! ### C5: progress monotonicity -/

/-- Invariant carried through a run with `total_cells` fixed at `T`: the
recorded progress assignments are sorted and bounded by 100, and the last
one is dominated by the value the next `updateProgress` would compute. -/
def ProgInv (T : Nat) (st : RunSt) : Prop :=
  st.task.total_cells = T ∧
  List.Chain' (fun a b => a ≤ b) st.progs ∧
  (∀ p ∈ st.progs, p ≤ 100) ∧
  (∀ q, st.progs.getLast? = some q → q ≤ min 100 (sumc st.task * 100 / T))

theorem progInv_mono (T : Nat) (st st' : RunSt)
    (ht : st'.task.total_cells = T) (hp : st'.progs = st.progs)
    (hs : sumc st.task ≤ sumc st'.task) :
    ProgInv T st → ProgInv T st' := by
  rintro ⟨h1, h2, h3, h4⟩
  refine ⟨ht, hp ▸ h2, hp ▸ h3, ?_⟩
  intro q hq
  rw [hp] at hq
  exact le_trans (h4 q hq)
    (min_le_min (le_refl 100) (Nat.div_le_div_right (mul_le_mul_right' hs 100)))

theorem progInv_keep (T : Nat) (st st' : RunSt) (ht : st'.task = st.task)
    (hp : st'.progs = st.progs) (h : ProgInv T st) : ProgInv T st' :=
  progInv_mono T st st' (ht ▸ h.1) hp (le_of_eq (by rw [ht])) h

theorem progInv_setStatus (T : Nat) (st : RunSt) (s : TaskStatus)
    (h : ProgInv T st) : ProgInv T (setStatus st s) :=
  progInv_mono T st (setStatus st s) h.1 rfl (le_refl _) h

theorem progInv_updateProgress (T : Nat) (st : RunSt) (h : ProgInv T st) :
    ProgInv T (updateProgress st) := by
  obtain ⟨h1, h2, h3, h4⟩ := h
  by_cases hT : 0 < st.task.total_cells
  · have hred : updateProgress st = snap
        { st with
          task := {st.task with
            progress := min 100 (sumc st.task * 100 / st.task.total_cells)}
          progs := st.progs ++
            [min 100 (sumc st.task * 100 / st.task.total_cells)] } := by
      simp [updateProgress, hT]
    rw [hred]
    refine ⟨h1, ?_, ?_, ?_⟩
    · show List.Chain' (fun a b => a ≤ b)
        (st.progs ++ [min 100 (sumc st.task * 100 / st.task.total_cells)])
      refine List.Chain'.append h2 (List.chain'_singleton _) ?_
      intro x hx y hy
      simp only [List.head?_cons, Option.mem_def, Option.some.injEq] at hy
      subst hy
      have h4x := h4 x (Option.mem_def.mp hx)
      rw [h1]
      exact h4x
    · show ∀ p ∈ st.progs ++
          [min 100 (sumc st.task * 100 / st.task.total_cells)], p ≤ 100
      intro p hp
      rcases List.mem_append.mp hp with hp | hp
      · exact h3 p hp
      · rw [List.mem_singleton] at hp
        rw [hp]
        exact min_le_left _ _
    · show ∀ q, (st.progs ++
          [min 100 (sumc st.task * 100 / st.task.total_cells)]).getLast? =
            some q → q ≤ min 100 (sumc st.task * 100 / T)
      intro q hq
      have hlast : (st.progs ++
          [min 100 (sumc st.task * 100 / st.task.total_cells)]).getLast? =
          some (min 100 (sumc st.task * 100 / st.task.total_cells)) := by
        simp
      rw [hlast] at hq
      have hqe : q = min 100 (sumc st.task * 100 / st.task.total_cells) :=
        (Option.some.inj hq).symm
      rw [hqe, h1]
  · have hred : updateProgress st = st := by
      simp [updateProgress, hT]
    rw [hred]
    exact ⟨h1, h2, h3, h4⟩

theorem sumc_le_update (t : Task) (a b c : Nat)
    (ha : t.translated_cells ≤ a) (hb : t.error_cells ≤ b)
    (hc : t.skipped_cells ≤ c) :
    sumc t ≤ sumc {t with
      translated_cells := a
      error_cells := b
      skipped_cells := c} := by
  simp only [sumc]
  omega

theorem processCell_progInv (T : Nat) (cell : Cell) (st : RunSt)
    (oracle : Nat → Option (List Char)) (h : ProgInv T st) :
    ProgInv T (processCell cell st oracle).2.1 := by
  rcases hv : cell.value with _ | s0 | _
  · have hred : (processCell cell st oracle).2.1 = st := by
      unfold processCell
      rw [hv]
    rw [hred]
    exact h
  · by_cases hs : pyStrip s0 = []
    · have hred : (processCell cell st oracle).2.1 = st := by
        unfold processCell
        rw [hv]
        simp [hs]
      rw [hred]
      exact h
    · cases hb : is_already_translatedStr (pyStrip s0) with
      | true =>
        have hred : (processCell cell st oracle).2.1 =
            updateProgress (snap {st with task :=
              {st.task with skipped_cells := st.task.skipped_cells + 1}}) := by
          unfold processCell
          rw [hv]
          simp [hs, hb]
        rw [hred]
        refine progInv_updateProgress T _ (progInv_mono T st _ h.1 rfl ?_ h)
        show sumc st.task ≤
          sumc {st.task with skipped_cells := st.task.skipped_cells + 1}
        simp only [sumc]
        omega
      | false =>
        by_cases h1 : oracle st.callIdx = some ERRSTR
        · rcases he : oracle (st.callIdx + 1) with _ | es
          · have hred : (processCell cell st oracle).2.1 =
                {updateProgress (⟨st.task, st.callIdx + 1 + 1,
                    st.events ++ [Event.apiCall, Event.sleepCooldown,
                      Event.apiCall], st.trace, st.progs⟩ : RunSt) with
                  events := st.events ++ [Event.apiCall, Event.sleepCooldown,
                    Event.apiCall, Event.sleepPacing]} := by
              unfold processCell
              rw [hv]
              simp [hs, hb, h1, he, updateProgress_events]
            rw [hred]
            have hX : ProgInv T (⟨st.task, st.callIdx + 1 + 1,
                st.events ++ [Event.apiCall, Event.sleepCooldown,
                  Event.apiCall], st.trace, st.progs⟩ : RunSt) :=
              progInv_keep T st _ rfl rfl h
            exact progInv_keep T _ _ rfl rfl
              (progInv_updateProgress T _ hX)
          · by_cases herr : es = ERRSTR
            · have hred : (processCell cell st oracle).2.1 =
                  updateProgress (⟨{st.task with
                      error_cells := st.task.error_cells + 1},
                    st.callIdx + 1 + 1,
                    st.events ++ [Event.apiCall, Event.sleepCooldown,
                      Event.apiCall],
                    {st.task with error_cells := st.task.error_cells + 1} ::
                      st.trace, st.progs⟩ : RunSt) := by
                unfold processCell
                rw [hv]
                simp [hs, hb, h1, he, herr, snap]
              rw [hred]
              refine progInv_updateProgress T _
                (progInv_mono T st _ h.1 rfl ?_ h)
              show sumc st.task ≤
                sumc {st.task with error_cells := st.task.error_cells + 1}
              simp only [sumc]
              omega
            · by_cases hes : es = []
              · have hred : (processCell cell st oracle).2.1 =
                    {updateProgress (⟨st.task, st.callIdx + 1 + 1,
                        st.events ++ [Event.apiCall, Event.sleepCooldown,
                          Event.apiCall], st.trace, st.progs⟩ : RunSt) with
                      events := st.events ++ [Event.apiCall,
                        Event.sleepCooldown, Event.apiCall,
                        Event.sleepPacing]} := by
                  unfold processCell
                  rw [hv]
                  simp [hs, hb, h1, he, herr, hes, updateProgress_events,
                    show ERRSTR ≠ ([] : List Char) by decide,
                    show ([] : List Char) ≠ ERRSTR by decide]
                rw [hred]
                have hX : ProgInv T (⟨st.task, st.callIdx + 1 + 1,
                    st.events ++ [Event.apiCall, Event.sleepCooldown,
                      Event.apiCall], st.trace, st.progs⟩ : RunSt) :=
                  progInv_keep T st _ rfl rfl h
                exact progInv_keep T _ _ rfl rfl
                  (progInv_updateProgress T _ hX)
              · have hred : (processCell cell st oracle).2.1 =
                    {updateProgress (⟨{st.task with
                        translated_cells := st.task.translated_cells + 1},
                      st.callIdx + 1 + 1,
                      st.events ++ [Event.apiCall, Event.sleepCooldown,
                        Event.apiCall],
                      {st.task with
                        translated_cells := st.task.translated_cells + 1} ::
                        st.trace, st.progs⟩ : RunSt) with
                      events := st.events ++ [Event.apiCall,
                        Event.sleepCooldown, Event.apiCall,
                        Event.sleepPacing]} := by
                  unfold processCell
                  rw [hv]
                  simp [hs, hb, h1, he, herr, hes, updateProgress_events,
                    snap]
                rw [hred]
                have hY : ProgInv T (⟨{st.task with
                    translated_cells := st.task.translated_cells + 1},
                  st.callIdx + 1 + 1,
                  st.events ++ [Event.apiCall, Event.sleepCooldown,
                    Event.apiCall],
                  {st.task with
                    translated_cells := st.task.translated_cells + 1} ::
                    st.trace, st.progs⟩ : RunSt) := by
                  refine progInv_mono T st _ h.1 rfl ?_ h
                  show sumc st.task ≤ sumc {st.task with
                    translated_cells := st.task.translated_cells + 1}
                  simp only [sumc]
                  omega
                exact progInv_keep T _ _ rfl rfl
                  (progInv_updateProgress T _ hY)
        · rcases he : oracle st.callIdx with _ | es
          · have hred : (processCell cell st oracle).2.1 =
                {updateProgress (⟨st.task, st.callIdx + 1,
                    st.events ++ [Event.apiCall], st.trace, st.progs⟩ :
                      RunSt) with
                  events := st.events ++ [Event.apiCall,
                    Event.sleepPacing]} := by
              unfold processCell
              rw [hv]
              simp [hs, hb, he, updateProgress_events]
            rw [hred]
            have hX : ProgInv T (⟨st.task, st.callIdx + 1,
                st.events ++ [Event.apiCall], st.trace, st.progs⟩ : RunSt) :=
              progInv_keep T st _ rfl rfl h
            exact progInv_keep T _ _ rfl rfl
              (progInv_updateProgress T _ hX)
          · have herr : ¬es = ERRSTR := by
              intro hh
              exact h1 (by rw [he, hh])
            by_cases hes : es = []
            · have hred : (processCell cell st oracle).2.1 =
                  {updateProgress (⟨st.task, st.callIdx + 1,
                      st.events ++ [Event.apiCall], st.trace, st.progs⟩ :
                        RunSt) with
                    events := st.events ++ [Event.apiCall,
                      Event.sleepPacing]} := by
                unfold processCell
                rw [hv]
                simp [hs, hb, he, herr, hes, updateProgress_events,
                  show ERRSTR ≠ ([] : List Char) by decide,
                  show ([] : List Char) ≠ ERRSTR by decide]
              rw [hred]
              have hX : ProgInv T (⟨st.task, st.callIdx + 1,
                  st.events ++ [Event.apiCall], st.trace, st.progs⟩ :
                    RunSt) :=
                progInv_keep T st _ rfl rfl h
              exact progInv_keep T _ _ rfl rfl
                (progInv_updateProgress T _ hX)
            · have hred : (processCell cell st oracle).2.1 =
                  {updateProgress (⟨{st.task with
                      translated_cells := st.task.translated_cells + 1},
                    st.callIdx + 1, st.events ++ [Event.apiCall],
                    {st.task with
                      translated_cells := st.task.translated_cells + 1} ::
                      st.trace, st.progs⟩ : RunSt) with
                    events := st.events ++ [Event.apiCall,
                      Event.sleepPacing]} := by
                unfold processCell
                rw [hv]
                simp [hs, hb, he, herr, hes, updateProgress_events, snap]
              rw [hred]
              have hY : ProgInv T (⟨{st.task with
                  translated_cells := st.task.translated_cells + 1},
                st.callIdx + 1, st.events ++ [Event.apiCall],
                {st.task with
                  translated_cells := st.task.translated_cells + 1} ::
                  st.trace, st.progs⟩ : RunSt) := by
                refine progInv_mono T st _ h.1 rfl ?_ h
                show sumc st.task ≤ sumc {st.task with
                  translated_cells := st.task.translated_cells + 1}
                simp only [sumc]
                omega
              exact progInv_keep T _ _ rfl rfl
                (progInv_updateProgress T _ hY)
  · have hred : (processCell cell st oracle).2.1 = st := by
      unfold processCell
      rw [hv]
    rw [hred]
    exact h

theorem processRows_progInv (T : Nat) (oracle : Nat → Option (List Char))
    (ci : Nat) : ∀ (rows : List Int) (ws : Worksheet) (st : RunSt) (ml : Nat),
    ProgInv T st → ProgInv T (processRows oracle ci rows ws st ml).2.2.1 := by
  intro rows
  induction rows with
  | nil =>
    intro ws st ml h
    exact h
  | cons r rest ih =>
    intro ws st ml h
    by_cases hf : st.task.status = TaskStatus.failed
    · have hred : (processRows oracle ci (r :: rest) ws st ml).2.2.1 = st := by
        simp [processRows, hf]
      rw [hred]
      exact h
    · have hred : (processRows oracle ci (r :: rest) ws st ml).2.2.1 =
          (processRows oracle ci rest
            {ws with cells := fun r' c' =>
              if r' = r ∧ c' = ci then
                (processCell (ws.cells r ci) st oracle).1
              else ws.cells r' c'}
            (processCell (ws.cells r ci) st oracle).2.1
            (max ml (processCell (ws.cells r ci) st oracle).2.2)).2.2.1 := by
        simp [processRows, hf]
      rw [hred]
      exact ih _ _ _ (processCell_progInv T _ _ _ h)

theorem processColumns_progInv (T : Nat)
    (oracle : Nat → Option (List Char)) (rows : List Int) :
    ∀ (cls : List (List Char)) (ws : Worksheet)
      (colAdj : List (Nat × Nat)) (st : RunSt),
    ProgInv T st →
      ProgInv T (processColumns oracle rows cls ws colAdj st).2.2.2 := by
  intro cls
  induction cls with
  | nil =>
    intro ws colAdj st h
    exact h
  | cons cl rest ih =>
    intro ws colAdj st h
    rcases hci : column_index_from_string cl with _ | ci
    · have hred : (processColumns oracle rows (cl :: rest) ws colAdj
          st).2.2.2 = (processColumns oracle rows rest ws colAdj st).2.2.2 := by
        simp [processColumns, hci]
      rw [hred]
      exact ih _ _ _ h
    · by_cases hok : (processRows oracle ci rows ws st 0).1 = true
      · have hred : (processColumns oracle rows (cl :: rest) ws colAdj
            st).2.2.2 =
            (processColumns oracle rows rest
              (processRows oracle ci rows ws st 0).2.1
              (setAssoc (setAssoc colAdj ci 0) ci
                (processRows oracle ci rows ws st 0).2.2.2)
              (processRows oracle ci rows ws st 0).2.2.1).2.2.2 := by
          simp [processColumns, hci, hok]
        rw [hred]
        exact ih _ _ _ (processRows_progInv T oracle ci rows ws st 0 h)
      · have hred : (processColumns oracle rows (cl :: rest) ws colAdj
            st).2.2.2 = (processRows oracle ci rows ws st 0).2.2.1 := by
          simp [processColumns, hci, hok]
        rw [hred]
        exact processRows_progInv T oracle ci rows ws st 0 h

theorem translate_worksheet_progInv (T : Nat) (ws : Worksheet) (st : RunSt)
    (columns : List (List Char)) (start_row : Int) (end_row : Option Int)
    (oracle : Nat → Option (List Char)) (h : ProgInv T st) :
    ProgInv T (translate_worksheet_with_progress ws st columns start_row
      end_row oracle).2.2 := by
  by_cases hgt : clampStart start_row > clampEnd end_row ws.maxRow
  · have hred : (translate_worksheet_with_progress ws st columns start_row
        end_row oracle).2.2 = st := by
      simp [translate_worksheet_with_progress, hgt]
    rw [hred]
    exact h
  · by_cases hok : (processColumns oracle
        (intRange (clampStart start_row) (clampEnd end_row ws.maxRow))
        columns ws [] st).1 = true
    · have hred : (translate_worksheet_with_progress ws st columns start_row
          end_row oracle).2.2 =
          (processColumns oracle
            (intRange (clampStart start_row) (clampEnd end_row ws.maxRow))
            columns ws [] st).2.2.2 := by
        simp [translate_worksheet_with_progress, hgt, hok]
      rw [hred]
      exact processColumns_progInv T oracle _ columns ws [] st h
    · have hred : (translate_worksheet_with_progress ws st columns start_row
          end_row oracle).2.2 =
          (processColumns oracle
            (intRange (clampStart start_row) (clampEnd end_row ws.maxRow))
            columns ws [] st).2.2.2 := by
        simp [translate_worksheet_with_progress, hgt, hok]
      rw [hred]
      exact processColumns_progInv T oracle _ columns ws [] st h

theorem mainLoop_progInv (T : Nat) (cols : List (List Char)) (start : Int)
    (endO : Option Int) (oracle : Nat → Option (List Char)) :
    ∀ (names : List String) (wb : Workbook) (st : RunSt),
    ProgInv T st →
      ProgInv T (mainLoop cols start endO oracle names wb st).2.2 := by
  intro names
  induction names with
  | nil =>
    intro wb st h
    exact h
  | cons n rest ih =>
    intro wb st h
    by_cases hf : st.task.status = TaskStatus.failed
    · have hred : (mainLoop cols start endO oracle (n :: rest) wb
          st).2.2 = st := by
        simp [mainLoop, hf]
      rw [hred]
      exact h
    · by_cases hok : (translate_worksheet_with_progress
          ((lookupSheet wb n).getD emptyWorksheet) st cols start endO
          oracle).1 = true
      · have hred : (mainLoop cols start endO oracle (n :: rest) wb
            st).2.2 =
            (mainLoop cols start endO oracle rest
              (updateSheet wb n (translate_worksheet_with_progress
                ((lookupSheet wb n).getD emptyWorksheet) st cols start endO
                oracle).2.1)
              (translate_worksheet_with_progress
                ((lookupSheet wb n).getD emptyWorksheet) st cols start endO
                oracle).2.2).2.2 := by
          simp [mainLoop, hf, hok]
        rw [hred]
        exact ih _ _ (translate_worksheet_progInv T _ st cols start endO
          oracle h)
      · have hred : (mainLoop cols start endO oracle (n :: rest) wb
            st).2.2 =
            setStatus (translate_worksheet_with_progress
              ((lookupSheet wb n).getD emptyWorksheet) st cols start endO
              oracle).2.2 TaskStatus.failed := by
          simp [mainLoop, hf, hok]
        rw [hred]
        exact progInv_setStatus T _ _
          (translate_worksheet_progInv T _ st cols start endO oracle h)

theorem progInv_initCounters (st : RunSt) (total : Nat)
    (hp : st.progs = []) : ProgInv total (initCounters st total) := by
  have hprogs : (initCounters st total).progs = st.progs ++ [0] := rfl
  refine ⟨rfl, ?_, ?_, ?_⟩
  · rw [hprogs, hp]
    simp
  · rw [hprogs, hp]
    simp
  · intro q hq
    rw [hprogs, hp] at hq
    have h0 : (([] : List Nat) ++ [0]).getLast? = some 0 := rfl
    rw [h0] at hq
    cases hq
    exact Nat.zero_le _

theorem mem_of_mem_getLast (l : List Nat) (x : Nat) (hx : x ∈ l.getLast?) :
    x ∈ l := by
  obtain ⟨hne, hx2⟩ := List.mem_getLast?_eq_getLast hx
  rw [hx2]
  exact List.getLast_mem hne

theorem engineCore_bounds (wb : Workbook) (cfg : Config)
    (oracle : Nat → Option (List Char)) (saveOk : Bool) (st : RunSt)
    (hp : st.progs = []) :
    List.Chain' (fun a b => a ≤ b)
      (engineCore wb cfg oracle saveOk st).st.progs ∧
    ∀ p ∈ (engineCore wb cfg oracle saveOk st).st.progs, p ≤ 100 := by
  by_cases hsh : cfg.sheet_names ≠ none ∧ selectSheets wb cfg.sheet_names = []
  · have hred : (engineCore wb cfg oracle saveOk st).st.progs = st.progs := by
      simp [engineCore, hsh, setStatus, snap]
    rw [hred, hp]
    simp
  · by_cases htot : (preScanWb cfg.columns cfg.start_row cfg.end_row
        (selectSheets wb cfg.sheet_names) wb 0 0).1 + (preScanWb cfg.columns cfg.start_row cfg.end_row
        (selectSheets wb cfg.sheet_names) wb 0 0).2.1 = 0
    · have hred : (engineCore wb cfg oracle saveOk st).st.progs =
          st.progs ++ [0] := by
        simp [engineCore, hsh, htot, setStatus, snap, initCounters]
      rw [hred, hp]
      simp
    · have hinit : ProgInv ((preScanWb cfg.columns cfg.start_row cfg.end_row
        (selectSheets wb cfg.sheet_names) wb 0 0).1 + (preScanWb cfg.columns cfg.start_row cfg.end_row
        (selectSheets wb cfg.sheet_names) wb 0 0).2.1)
          (initCounters st ((preScanWb cfg.columns cfg.start_row cfg.end_row
        (selectSheets wb cfg.sheet_names) wb 0 0).1 + (preScanWb cfg.columns cfg.start_row cfg.end_row
        (selectSheets wb cfg.sheet_names) wb 0 0).2.1)) :=
        progInv_initCounters st _ hp
      have hmain : ProgInv ((preScanWb cfg.columns cfg.start_row cfg.end_row
        (selectSheets wb cfg.sheet_names) wb 0 0).1 + (preScanWb cfg.columns cfg.start_row cfg.end_row
        (selectSheets wb cfg.sheet_names) wb 0 0).2.1) (mainLoop cfg.columns cfg.start_row cfg.end_row oracle
        (selectSheets wb cfg.sheet_names) (preScanWb cfg.columns cfg.start_row cfg.end_row
        (selectSheets wb cfg.sheet_names) wb 0 0).2.2
        (initCounters st ((preScanWb cfg.columns cfg.start_row cfg.end_row
        (selectSheets wb cfg.sheet_names) wb 0 0).1 + (preScanWb cfg.columns cfg.start_row cfg.end_row
        (selectSheets wb cfg.sheet_names) wb 0 0).2.1))).2.2 :=
        mainLoop_progInv _ _ _ _ oracle _ _ _ hinit
      by_cases hok : (mainLoop cfg.columns cfg.start_row cfg.end_row oracle
        (selectSheets wb cfg.sheet_names) (preScanWb cfg.columns cfg.start_row cfg.end_row
        (selectSheets wb cfg.sheet_names) wb 0 0).2.2
        (initCounters st ((preScanWb cfg.columns cfg.start_row cfg.end_row
        (selectSheets wb cfg.sheet_names) wb 0 0).1 + (preScanWb cfg.columns cfg.start_row cfg.end_row
        (selectSheets wb cfg.sheet_names) wb 0 0).2.1))).1 = true
      · by_cases hfail : (mainLoop cfg.columns cfg.start_row cfg.end_row oracle
        (selectSheets wb cfg.sheet_names) (preScanWb cfg.columns cfg.start_row cfg.end_row
        (selectSheets wb cfg.sheet_names) wb 0 0).2.2
        (initCounters st ((preScanWb cfg.columns cfg.start_row cfg.end_row
        (selectSheets wb cfg.sheet_names) wb 0 0).1 + (preScanWb cfg.columns cfg.start_row cfg.end_row
        (selectSheets wb cfg.sheet_names) wb 0 0).2.1))).2.2.task.status = TaskStatus.failed
        · have hred : (engineCore wb cfg oracle saveOk st).st.progs =
              (mainLoop cfg.columns cfg.start_row cfg.end_row oracle
        (selectSheets wb cfg.sheet_names) (preScanWb cfg.columns cfg.start_row cfg.end_row
        (selectSheets wb cfg.sheet_names) wb 0 0).2.2
        (initCounters st ((preScanWb cfg.columns cfg.start_row cfg.end_row
        (selectSheets wb cfg.sheet_names) wb 0 0).1 + (preScanWb cfg.columns cfg.start_row cfg.end_row
        (selectSheets wb cfg.sheet_names) wb 0 0).2.1))).2.2.progs := by
            simp [engineCore, hsh, htot, hok, hfail]
          rw [hred]
          exact ⟨hmain.2.1, hmain.2.2.1⟩
        · by_cases hsv : saveOk = true
          · have hred : (engineCore wb cfg oracle saveOk st).st.progs =
                (mainLoop cfg.columns cfg.start_row cfg.end_row oracle
        (selectSheets wb cfg.sheet_names) (preScanWb cfg.columns cfg.start_row cfg.end_row
        (selectSheets wb cfg.sheet_names) wb 0 0).2.2
        (initCounters st ((preScanWb cfg.columns cfg.start_row cfg.end_row
        (selectSheets wb cfg.sheet_names) wb 0 0).1 + (preScanWb cfg.columns cfg.start_row cfg.end_row
        (selectSheets wb cfg.sheet_names) wb 0 0).2.1))).2.2.progs ++ [100] := by
              simp [engineCore, hsh, htot, hok, hfail, hsv, setStatus, snap]
            rw [hred]
            constructor
            · refine List.Chain'.append hmain.2.1
                (List.chain'_singleton _) ?_
              intro x hx y hy
              simp only [List.head?_cons, Option.mem_def,
                Option.some.injEq] at hy
              subst hy
              exact hmain.2.2.1 x (mem_of_mem_getLast _ x hx)
            · intro p hp2
              rcases List.mem_append.mp hp2 with h2 | h2
              · exact hmain.2.2.1 p h2
              · rw [List.mem_singleton] at h2
                rw [h2]
          · have hred : (engineCore wb cfg oracle saveOk st).st.progs =
                (mainLoop cfg.columns cfg.start_row cfg.end_row oracle
        (selectSheets wb cfg.sheet_names) (preScanWb cfg.columns cfg.start_row cfg.end_row
        (selectSheets wb cfg.sheet_names) wb 0 0).2.2
        (initCounters st ((preScanWb cfg.columns cfg.start_row cfg.end_row
        (selectSheets wb cfg.sheet_names) wb 0 0).1 + (preScanWb cfg.columns cfg.start_row cfg.end_row
        (selectSheets wb cfg.sheet_names) wb 0 0).2.1))).2.2.progs := by
              simp [engineCore, hsh, htot, hok, hfail, hsv, setStatus, snap]
            rw [hred]
            exact ⟨hmain.2.1, hmain.2.2.1⟩
      · have hred : (engineCore wb cfg oracle saveOk st).st.progs =
            (mainLoop cfg.columns cfg.start_row cfg.end_row oracle
        (selectSheets wb cfg.sheet_names) (preScanWb cfg.columns cfg.start_row cfg.end_row
        (selectSheets wb cfg.sheet_names) wb 0 0).2.2
        (initCounters st ((preScanWb cfg.columns cfg.start_row cfg.end_row
        (selectSheets wb cfg.sheet_names) wb 0 0).1 + (preScanWb cfg.columns cfg.start_row cfg.end_row
        (selectSheets wb cfg.sheet_names) wb 0 0).2.1))).2.2.progs := by
          simp [engineCore, hsh, htot, hok]
        rw [hred]
        exact ⟨hmain.2.1, hmain.2.2.1⟩

/-- C5: over any run of the engine, the sequence of values assigned to
`progress` is monotonically non-decreasing and never exceeds 100 (in
particular this holds whenever `total_cells` is fixed positive by the
pre-scan; the division `int((processed/total)*100)` capped by `min(?,100)`
is monotone in the processed count for a fixed total). -/
theorem C5_theorem (wbOpt : Option Workbook) (cfg : Config)
    (oracle : Nat → Option (List Char)) (saveOk : Bool) :
    List.Chain' (fun a b => a ≤ b)
      (translate_excel_with_progress wbOpt cfg oracle saveOk).st.progs ∧
    ∀ p ∈ (translate_excel_with_progress wbOpt cfg oracle saveOk).st.progs,
      p ≤ 100 := by
  by_cases hpr : oracle 0 = none ∨ oracle 0 = some ERRSTR
  · have hred : (translate_excel_with_progress wbOpt cfg oracle
        saveOk).st.progs = [] := by
      simp [translate_excel_with_progress, hpr, setStatus, snap]
    rw [hred]
    simp
  · rcases wbOpt with _ | wb
    · have hred : (translate_excel_with_progress none cfg oracle
          saveOk).st.progs = [] := by
        simp [translate_excel_with_progress, hpr, setStatus, snap]
      rw [hred]
      simp
    · have h1 : translate_excel_with_progress (some wb) cfg oracle saveOk =
          if oracle 0 = none ∨ oracle 0 = some ERRSTR then
            ⟨setStatus stAfterProbe TaskStatus.failed, wb, false⟩
          else engineCore wb cfg oracle saveOk stAfterProbe := rfl
      rw [h1, if_neg hpr]
      exact engineCore_bounds wb cfg oracle saveOk stAfterProbe rfl

/-- C5 (witness): the monotonicity theorem applied at a concrete run, with
the membership hypothesis of the bound discharged at the recorded 0. -/
theorem C5_witness :
    List.Chain' (fun a b => a ≤ b)
      (translate_excel_with_progress
        (some [(String.mk ['T'], emptyWorksheet)])
        ⟨[['A']], 1, none, none⟩ (fun _ => some ['X']) true).st.progs ∧
    (0 : Nat) ≤ 100 := by
  refine ⟨(C5_theorem (some [(String.mk ['T'], emptyWorksheet)])
      ⟨[['A']], 1, none, none⟩ (fun _ => some ['X']) true).1, ?_⟩
  exact (C5_theorem (some [(String.mk ['T'], emptyWorksheet)])
      ⟨[['A']], 1, none, none⟩ (fun _ => some ['X']) true).2 0 (by decide)

/-! ### C4: the counter invariant over the trace -/

/-- Cells that are processable now were already processable in the
reference sheet: the main loop only writes to cells that pass the
processing guard, so processability never appears out of nowhere. -/
def cellsOK (ws ws0 : Worksheet) : Prop :=
  ∀ r c, processableV ((ws.cells r c).value) = true →
    processableV ((ws0.cells r c).value) = true

/-- Number of processable cells of column `ci` over a row list. -/
def countP (ws : Worksheet) (ci : Nat) : List Int → Nat
  | [] => 0
  | r :: rest =>
    (if processableV ((ws.cells r ci).value) = true then 1 else 0) +
      countP ws ci rest

/-- Number of processable cells over a row list for every valid column. -/
def colsCount (ws : Worksheet) (rows : List Int) :
    List (List Char) → Nat
  | [] => 0
  | cl :: rest =>
    (match column_index_from_string cl with
     | none => 0
     | some ci => countP ws ci rows) + colsCount ws rows rest

/-- The number of cells one worksheet pass can count, measured on the
reference sheet over the clamped row range the pass will use. -/
def sheetBudget (cols : List (List Char)) (start : Int)
    (endO : Option Int) (ws0 : Worksheet) : Nat :=
  colsCount ws0 (intRange (clampStart start) (clampEnd endO ws0.maxRow)) cols

/-- The total count the main loop can reach over the named sheets. -/
def wbBudget (cols : List (List Char)) (start : Int) (endO : Option Int)
    (wb0 : Workbook) : List String → Nat
  | [] => 0
  | n :: rest =>
    sheetBudget cols start endO ((lookupSheet wb0 n).getD emptyWorksheet) +
      wbBudget cols start endO wb0 rest

/-- Every recorded task snapshot satisfies the counter invariant. -/
def TrInv (st : RunSt) : Prop :=
  ∀ t ∈ st.trace, sumc t ≤ t.total_cells

theorem countP_maxRow (ws : Worksheet) (m : Int) (ci : Nat)
    (rows : List Int) :
    countP {ws with maxRow := m} ci rows = countP ws ci rows := by
  induction rows with
  | nil => rfl
  | cons r rest ih => simp [countP, ih]

theorem countP_sublist (ws : Worksheet) (ci : Nat) (l1 l2 : List Int)
    (h : l1.Sublist l2) : countP ws ci l1 ≤ countP ws ci l2 := by
  induction h with
  | slnil => exact le_refl _
  | cons r _ ih => simp only [countP]; omega
  | cons₂ r _ ih => simp only [countP]; omega

theorem intRange_sublist (a b b' : Int) (h : b' ≤ b) :
    (intRange a b').Sublist (intRange a b) := by
  unfold intRange
  exact List.Sublist.map _ (List.range_sublist.mpr (by omega))

theorem colsCount_maxRow (ws : Worksheet) (m : Int) (rows : List Int)
    (cols : List (List Char)) :
    colsCount {ws with maxRow := m} rows cols = colsCount ws rows cols := by
  induction cols with
  | nil => rfl
  | cons cl rest ih =>
    simp only [colsCount, ih, countP_maxRow]

theorem colsCount_sublist (ws : Worksheet) (l1 l2 : List Int)
    (h : l1.Sublist l2) (cols : List (List Char)) :
    colsCount ws l1 cols ≤ colsCount ws l2 cols := by
  induction cols with
  | nil => exact le_refl _
  | cons cl rest ih =>
    simp only [colsCount]
    rcases column_index_from_string cl with _ | ci
    · simpa using ih
    · dsimp only
      have := countP_sublist ws ci l1 l2 h
      omega

theorem updateProgress_trace_mem (st : RunSt) :
    ∀ t ∈ (updateProgress st).trace, t ∈ st.trace ∨
      (sumc t = sumc st.task ∧ t.total_cells = st.task.total_cells) := by
  intro t ht
  by_cases hT : 0 < st.task.total_cells
  · have hred : updateProgress st = snap
        { st with
          task := {st.task with
            progress := min 100 (sumc st.task * 100 / st.task.total_cells)}
          progs := st.progs ++
            [min 100 (sumc st.task * 100 / st.task.total_cells)] } := by
      simp [updateProgress, hT]
    rw [hred] at ht
    have ht2 : t = {st.task with
        progress := min 100 (sumc st.task * 100 / st.task.total_cells)} ∨
        t ∈ st.trace := by
      simpa [snap] using ht
    rcases ht2 with ht2 | ht2
    · right
      rw [ht2]
      exact ⟨rfl, rfl⟩
    · left
      exact ht2
  · have hred : updateProgress st = st := by
      simp [updateProgress, hT]
    rw [hred] at ht
    left
    exact ht

/-- A cell that fails the processing guard is returned untouched. -/
theorem processCell_keep (cell : Cell) (st : RunSt)
    (oracle : Nat → Option (List Char))
    (h : processableV cell.value = false) :
    (processCell cell st oracle).1 = cell := by
  rcases hv : cell.value with _ | s0 | _
  · have hred : (processCell cell st oracle).1 = cell := by
      unfold processCell
      rw [hv]
    exact hred
  · rw [hv] at h
    have hs : pyStrip s0 = [] := by
      by_cases hs0 : s0 = []
      · rw [hs0]
        rfl
      · simp [processableV, List.isEmpty_iff, hs0] at h
        exact h
    have hred : (processCell cell st oracle).1 = cell := by
      unfold processCell
      rw [hv]
      simp [hs]
    exact hred
  · have hred : (processCell cell st oracle).1 = cell := by
      unfold processCell
      rw [hv]
    exact hred

theorem trace_mem_updatePush (st Z : RunSt) (d : Nat)
    (hZtr : Z.trace = Z.task :: st.trace ∨ Z.trace = st.trace)
    (hZs : sumc Z.task = sumc st.task + d)
    (hZt : Z.task.total_cells = st.task.total_cells) :
    ∀ t ∈ (updateProgress Z).trace, t ∈ st.trace ∨
      (sumc t ≤ sumc st.task + d ∧ t.total_cells = st.task.total_cells) := by
  intro t ht
  rcases updateProgress_trace_mem Z t ht with h2 | h2
  · rcases hZtr with hZtr | hZtr
    · rw [hZtr] at h2
      rcases List.mem_cons.mp h2 with h3 | h3
      · right
        rw [h3, hZs, hZt]
        exact ⟨le_refl _, rfl⟩
      · left
        exact h3
    · rw [hZtr] at h2
      left
      exact h2
  · right
    refine ⟨?_, ?_⟩
    · rw [h2.1, hZs]
    · rw [h2.2, hZt]

/-- Per-cell accounting: processing one cell advances the processed-cell
count by at most one, and only when the cell passes the processing guard;
`total_cells` is untouched and every snapshot the step records either was
already on the trace or satisfies the advanced bound. -/
theorem processCell_spec (cell : Cell) (st : RunSt)
    (oracle : Nat → Option (List Char)) :
    ∃ d, d ≤ (if processableV cell.value = true then 1 else 0) ∧
      (processCell cell st oracle).2.1.task.total_cells =
        st.task.total_cells ∧
      sumc (processCell cell st oracle).2.1.task = sumc st.task + d ∧
      ∀ t ∈ (processCell cell st oracle).2.1.trace, t ∈ st.trace ∨
        (sumc t ≤ sumc st.task + d ∧
          t.total_cells = st.task.total_cells) := by
  rcases hv : cell.value with _ | s0 | _
  · have hred : (processCell cell st oracle).2.1 = st := by
      unfold processCell
      rw [hv]
    rw [hred]
    exact ⟨0, Nat.zero_le _, rfl, rfl, fun t ht => Or.inl ht⟩
  · by_cases hs : pyStrip s0 = []
    · have hred : (processCell cell st oracle).2.1 = st := by
        unfold processCell
        rw [hv]
        simp [hs]
      rw [hred]
      exact ⟨0, Nat.zero_le _, rfl, rfl, fun t ht => Or.inl ht⟩
    · have hs0 : ¬s0 = [] := fun h0 => hs (by rw [h0]; rfl)
      have hpv : (if processableV (CellValue.vStr s0) = true then 1
          else 0) = 1 := by
        simp [processableV, List.isEmpty_iff, hs0, hs]
      cases hb : is_already_translatedStr (pyStrip s0) with
      | true =>
        have hred : (processCell cell st oracle).2.1 =
            updateProgress (snap {st with task :=
              {st.task with
                skipped_cells := st.task.skipped_cells + 1}}) := by
          unfold processCell
          rw [hv]
          simp [hs, hb]
        rw [hred]
        refine ⟨1, ?_, ?_, ?_, ?_⟩
        · rw [hpv]
        · rw [updateProgress_total, snap_task]
        · rw [updateProgress_sumc, snap_task]
          simp only [sumc]
          omega
        · exact trace_mem_updatePush st _ 1 (Or.inl rfl)
            (by simp only [snap_task, sumc]; omega) rfl
      | false =>
        by_cases h1 : oracle st.callIdx = some ERRSTR
        · rcases he : oracle (st.callIdx + 1) with _ | es
          ·
            have hred : (processCell cell st oracle).2.1 =
                {updateProgress (⟨st.task, st.callIdx + 1 + 1, st.events ++ [Event.apiCall, Event.sleepCooldown, Event.apiCall], st.trace, st.progs⟩ : RunSt) with
                  events := (updateProgress (⟨st.task, st.callIdx + 1 + 1, st.events ++ [Event.apiCall, Event.sleepCooldown, Event.apiCall], st.trace, st.progs⟩ : RunSt)).events ++ [Event.sleepPacing]} := by
              unfold processCell
              rw [hv]
              simp [hs, hb, h1, he, updateProgress_events]
            rw [hred]
            refine ⟨0, ?_, ?_, ?_, ?_⟩
            · rw [hpv]
              exact Nat.zero_le _
            · show (updateProgress (⟨st.task, st.callIdx + 1 + 1, st.events ++ [Event.apiCall, Event.sleepCooldown, Event.apiCall], st.trace, st.progs⟩ : RunSt)).task.total_cells = st.task.total_cells
              rw [updateProgress_total]
            · show sumc (updateProgress (⟨st.task, st.callIdx + 1 + 1, st.events ++ [Event.apiCall, Event.sleepCooldown, Event.apiCall], st.trace, st.progs⟩ : RunSt)).task = sumc st.task + 0
              rw [updateProgress_sumc]
              simp only [sumc]
              omega
            · show ∀ t ∈ (updateProgress (⟨st.task, st.callIdx + 1 + 1, st.events ++ [Event.apiCall, Event.sleepCooldown, Event.apiCall], st.trace, st.progs⟩ : RunSt)).trace,
                t ∈ st.trace ∨ (sumc t ≤ sumc st.task + 0 ∧
                  t.total_cells = st.task.total_cells)
              exact trace_mem_updatePush st _ 0 (Or.inr rfl)
                (by simp only [sumc]; omega) rfl
          · by_cases herr : es = ERRSTR
            ·
              have hred : (processCell cell st oracle).2.1 =
                  updateProgress (⟨{st.task with error_cells := st.task.error_cells + 1}, st.callIdx + 1 + 1, st.events ++ [Event.apiCall, Event.sleepCooldown, Event.apiCall], {st.task with error_cells := st.task.error_cells + 1} :: st.trace, st.progs⟩ : RunSt) := by
                unfold processCell
                rw [hv]
                simp [hs, hb, h1, he, herr, snap]
              rw [hred]
              refine ⟨1, ?_, ?_, ?_, ?_⟩
              · rw [hpv]
              · rw [updateProgress_total]
              · rw [updateProgress_sumc]
                simp only [sumc]
                omega
              · exact trace_mem_updatePush st _ 1 (Or.inl rfl)
                  (by simp only [sumc]; omega) rfl
            · by_cases hes : es = []
              ·
                have hred : (processCell cell st oracle).2.1 =
                    {updateProgress (⟨st.task, st.callIdx + 1 + 1, st.events ++ [Event.apiCall, Event.sleepCooldown, Event.apiCall], st.trace, st.progs⟩ : RunSt) with
                      events := (updateProgress (⟨st.task, st.callIdx + 1 + 1, st.events ++ [Event.apiCall, Event.sleepCooldown, Event.apiCall], st.trace, st.progs⟩ : RunSt)).events ++ [Event.sleepPacing]} := by
                  unfold processCell
                  rw [hv]
                  simp [hs, hb, h1, he, herr, hes, updateProgress_events, show ERRSTR ≠ ([] : List Char) by decide, show ([] : List Char) ≠ ERRSTR by decide]
                rw [hred]
                refine ⟨0, ?_, ?_, ?_, ?_⟩
                · rw [hpv]
                  exact Nat.zero_le _
                · show (updateProgress (⟨st.task, st.callIdx + 1 + 1, st.events ++ [Event.apiCall, Event.sleepCooldown, Event.apiCall], st.trace, st.progs⟩ : RunSt)).task.total_cells = st.task.total_cells
                  rw [updateProgress_total]
                · show sumc (updateProgress (⟨st.task, st.callIdx + 1 + 1, st.events ++ [Event.apiCall, Event.sleepCooldown, Event.apiCall], st.trace, st.progs⟩ : RunSt)).task = sumc st.task + 0
                  rw [updateProgress_sumc]
                  simp only [sumc]
                  omega
                · show ∀ t ∈ (updateProgress (⟨st.task, st.callIdx + 1 + 1, st.events ++ [Event.apiCall, Event.sleepCooldown, Event.apiCall], st.trace, st.progs⟩ : RunSt)).trace,
                    t ∈ st.trace ∨ (sumc t ≤ sumc st.task + 0 ∧
                      t.total_cells = st.task.total_cells)
                  exact trace_mem_updatePush st _ 0 (Or.inr rfl)
                    (by simp only [sumc]; omega) rfl
              ·
                have hred : (processCell cell st oracle).2.1 =
                    {updateProgress (⟨{st.task with translated_cells := st.task.translated_cells + 1}, st.callIdx + 1 + 1, st.events ++ [Event.apiCall, Event.sleepCooldown, Event.apiCall], {st.task with translated_cells := st.task.translated_cells + 1} :: st.trace, st.progs⟩ : RunSt) with
                      events := (updateProgress (⟨{st.task with translated_cells := st.task.translated_cells + 1}, st.callIdx + 1 + 1, st.events ++ [Event.apiCall, Event.sleepCooldown, Event.apiCall], {st.task with translated_cells := st.task.translated_cells + 1} :: st.trace, st.progs⟩ : RunSt)).events ++ [Event.sleepPacing]} := by
                  unfold processCell
                  rw [hv]
                  simp [hs, hb, h1, he, herr, hes, updateProgress_events, snap]
                rw [hred]
                refine ⟨1, ?_, ?_, ?_, ?_⟩
                · rw [hpv]
                · show (updateProgress (⟨{st.task with translated_cells := st.task.translated_cells + 1}, st.callIdx + 1 + 1, st.events ++ [Event.apiCall, Event.sleepCooldown, Event.apiCall], {st.task with translated_cells := st.task.translated_cells + 1} :: st.trace, st.progs⟩ : RunSt)).task.total_cells = st.task.total_cells
                  rw [updateProgress_total]
                · show sumc (updateProgress (⟨{st.task with translated_cells := st.task.translated_cells + 1}, st.callIdx + 1 + 1, st.events ++ [Event.apiCall, Event.sleepCooldown, Event.apiCall], {st.task with translated_cells := st.task.translated_cells + 1} :: st.trace, st.progs⟩ : RunSt)).task = sumc st.task + 1
                  rw [updateProgress_sumc]
                  simp only [sumc]
                  omega
                · show ∀ t ∈ (updateProgress (⟨{st.task with translated_cells := st.task.translated_cells + 1}, st.callIdx + 1 + 1, st.events ++ [Event.apiCall, Event.sleepCooldown, Event.apiCall], {st.task with translated_cells := st.task.translated_cells + 1} :: st.trace, st.progs⟩ : RunSt)).trace,
                    t ∈ st.trace ∨ (sumc t ≤ sumc st.task + 1 ∧
                      t.total_cells = st.task.total_cells)
                  exact trace_mem_updatePush st _ 1 (Or.inl rfl)
                    (by simp only [sumc]; omega) rfl
        · rcases he : oracle st.callIdx with _ | es
          ·
            have hred : (processCell cell st oracle).2.1 =
                {updateProgress (⟨st.task, st.callIdx + 1, st.events ++ [Event.apiCall], st.trace, st.progs⟩ : RunSt) with
                  events := (updateProgress (⟨st.task, st.callIdx + 1, st.events ++ [Event.apiCall], st.trace, st.progs⟩ : RunSt)).events ++ [Event.sleepPacing]} := by
              unfold processCell
              rw [hv]
              simp [hs, hb, he, updateProgress_events]
            rw [hred]
            refine ⟨0, ?_, ?_, ?_, ?_⟩
            · rw [hpv]
              exact Nat.zero_le _
            · show (updateProgress (⟨st.task, st.callIdx + 1, st.events ++ [Event.apiCall], st.trace, st.progs⟩ : RunSt)).task.total_cells = st.task.total_cells
              rw [updateProgress_total]
            · show sumc (updateProgress (⟨st.task, st.callIdx + 1, st.events ++ [Event.apiCall], st.trace, st.progs⟩ : RunSt)).task = sumc st.task + 0
              rw [updateProgress_sumc]
              simp only [sumc]
              omega
            · show ∀ t ∈ (updateProgress (⟨st.task, st.callIdx + 1, st.events ++ [Event.apiCall], st.trace, st.progs⟩ : RunSt)).trace,
                t ∈ st.trace ∨ (sumc t ≤ sumc st.task + 0 ∧
                  t.total_cells = st.task.total_cells)
              exact trace_mem_updatePush st _ 0 (Or.inr rfl)
                (by simp only [sumc]; omega) rfl
          · have herr : ¬es = ERRSTR := by
              intro hh
              exact h1 (by rw [he, hh])
            by_cases hes : es = []
            ·
              have hred : (processCell cell st oracle).2.1 =
                  {updateProgress (⟨st.task, st.callIdx + 1, st.events ++ [Event.apiCall], st.trace, st.progs⟩ : RunSt) with
                    events := (updateProgress (⟨st.task, st.callIdx + 1, st.events ++ [Event.apiCall], st.trace, st.progs⟩ : RunSt)).events ++ [Event.sleepPacing]} := by
                unfold processCell
                rw [hv]
                simp [hs, hb, he, herr, hes, updateProgress_events, show ERRSTR ≠ ([] : List Char) by decide, show ([] : List Char) ≠ ERRSTR by decide]
              rw [hred]
              refine ⟨0, ?_, ?_, ?_, ?_⟩
              · rw [hpv]
                exact Nat.zero_le _
              · show (updateProgress (⟨st.task, st.callIdx + 1, st.events ++ [Event.apiCall], st.trace, st.progs⟩ : RunSt)).task.total_cells = st.task.total_cells
                rw [updateProgress_total]
              · show sumc (updateProgress (⟨st.task, st.callIdx + 1, st.events ++ [Event.apiCall], st.trace, st.progs⟩ : RunSt)).task = sumc st.task + 0
                rw [updateProgress_sumc]
                simp only [sumc]
                omega
              · show ∀ t ∈ (updateProgress (⟨st.task, st.callIdx + 1, st.events ++ [Event.apiCall], st.trace, st.progs⟩ : RunSt)).trace,
                  t ∈ st.trace ∨ (sumc t ≤ sumc st.task + 0 ∧
                    t.total_cells = st.task.total_cells)
                exact trace_mem_updatePush st _ 0 (Or.inr rfl)
                  (by simp only [sumc]; omega) rfl
            ·
              have hred : (processCell cell st oracle).2.1 =
                  {updateProgress (⟨{st.task with translated_cells := st.task.translated_cells + 1}, st.callIdx + 1, st.events ++ [Event.apiCall], {st.task with translated_cells := st.task.translated_cells + 1} :: st.trace, st.progs⟩ : RunSt) with
                    events := (updateProgress (⟨{st.task with translated_cells := st.task.translated_cells + 1}, st.callIdx + 1, st.events ++ [Event.apiCall], {st.task with translated_cells := st.task.translated_cells + 1} :: st.trace, st.progs⟩ : RunSt)).events ++ [Event.sleepPacing]} := by
                unfold processCell
                rw [hv]
                simp [hs, hb, he, herr, hes, updateProgress_events, snap]
              rw [hred]
              refine ⟨1, ?_, ?_, ?_, ?_⟩
              · rw [hpv]
              · show (updateProgress (⟨{st.task with translated_cells := st.task.translated_cells + 1}, st.callIdx + 1, st.events ++ [Event.apiCall], {st.task with translated_cells := st.task.translated_cells + 1} :: st.trace, st.progs⟩ : RunSt)).task.total_cells = st.task.total_cells
                rw [updateProgress_total]
              · show sumc (updateProgress (⟨{st.task with translated_cells := st.task.translated_cells + 1}, st.callIdx + 1, st.events ++ [Event.apiCall], {st.task with translated_cells := st.task.translated_cells + 1} :: st.trace, st.progs⟩ : RunSt)).task = sumc st.task + 1
                rw [updateProgress_sumc]
                simp only [sumc]
                omega
              · show ∀ t ∈ (updateProgress (⟨{st.task with translated_cells := st.task.translated_cells + 1}, st.callIdx + 1, st.events ++ [Event.apiCall], {st.task with translated_cells := st.task.translated_cells + 1} :: st.trace, st.progs⟩ : RunSt)).trace,
                  t ∈ st.trace ∨ (sumc t ≤ sumc st.task + 1 ∧
                    t.total_cells = st.task.total_cells)
                exact trace_mem_updatePush st _ 1 (Or.inl rfl)
                  (by simp only [sumc]; omega) rfl
  · have hred : (processCell cell st oracle).2.1 = st := by
      unfold processCell
      rw [hv]
    rw [hred]
    exact ⟨0, Nat.zero_le _, rfl, rfl, fun t ht => Or.inl ht⟩

theorem processRows_spec (oracle : Nat → Option (List Char)) (ci : Nat)
    (ws0 : Worksheet) :
    ∀ (rows : List Int) (ws : Worksheet) (st : RunSt) (ml : Nat),
    cellsOK ws ws0 →
    cellsOK (processRows oracle ci rows ws st ml).2.1 ws0 ∧
    (processRows oracle ci rows ws st ml).2.1.maxRow = ws.maxRow ∧
    (processRows oracle ci rows ws st ml).2.2.1.task.total_cells =
      st.task.total_cells ∧
    sumc (processRows oracle ci rows ws st ml).2.2.1.task ≤
      sumc st.task + countP ws0 ci rows ∧
    ∀ t ∈ (processRows oracle ci rows ws st ml).2.2.1.trace,
      t ∈ st.trace ∨ (sumc t ≤ sumc st.task + countP ws0 ci rows ∧
        t.total_cells = st.task.total_cells) := by
  intro rows
  induction rows with
  | nil =>
    intro ws st ml hok
    exact ⟨hok, rfl, rfl, Nat.le_add_right _ _, fun t ht => Or.inl ht⟩
  | cons r rest ih =>
    intro ws st ml hok
    by_cases hf : st.task.status = TaskStatus.failed
    · have hred : processRows oracle ci (r :: rest) ws st ml =
          (false, ws, st, ml) := by
        simp [processRows, hf]
      rw [hred]
      exact ⟨hok, rfl, rfl, Nat.le_add_right _ _, fun t ht => Or.inl ht⟩
    · have hred : processRows oracle ci (r :: rest) ws st ml =
          processRows oracle ci rest
            {ws with cells := fun r' c' =>
              if r' = r ∧ c' = ci then
                (processCell (ws.cells r ci) st oracle).1
              else ws.cells r' c'}
            (processCell (ws.cells r ci) st oracle).2.1
            (max ml (processCell (ws.cells r ci) st oracle).2.2) := by
        simp [processRows, hf]
      rw [hred]
      obtain ⟨d, hd, htot, hsum, htr⟩ :=
        processCell_spec (ws.cells r ci) st oracle
      have hd0 : d ≤
          (if processableV ((ws0.cells r ci).value) = true then 1
           else 0) := by
        cases hP : processableV ((ws.cells r ci).value) with
        | false =>
          rw [hP] at hd
          simp at hd
          rw [hd]
          exact Nat.zero_le _
        | true =>
          rw [hok r ci hP]
          rw [hP] at hd
          simpa using hd
      have hok2 : cellsOK
          {ws with cells := fun r' c' =>
            if r' = r ∧ c' = ci then
              (processCell (ws.cells r ci) st oracle).1
            else ws.cells r' c'} ws0 := by
        intro r' c' hp2
        by_cases hrc : r' = r ∧ c' = ci
        · obtain ⟨hr1, hc1⟩ := hrc
          subst hr1
          subst hc1
          simp at hp2
          cases hP : processableV ((ws.cells r' c').value) with
          | false =>
            rw [processCell_keep (ws.cells r' c') st oracle hP] at hp2
            rw [hP] at hp2
            cases hp2
          | true => exact hok r' c' hP
        · simp only [hrc, if_false] at hp2
          exact hok r' c' hp2
      obtain ⟨ih1, ih2, ih3, ih4, ih5⟩ := ih _
        (processCell (ws.cells r ci) st oracle).2.1
        (max ml (processCell (ws.cells r ci) st oracle).2.2) hok2
      refine ⟨ih1, ih2, ih3.trans htot, ?_, ?_⟩
      · simp only [countP]
        rw [hsum] at ih4
        omega
      · intro t ht
        rcases ih5 t ht with h2 | h2
        · rcases htr t h2 with h3 | h3
          · left
            exact h3
          · right
            simp only [countP]
            exact ⟨by omega, h3.2⟩
        · right
          rw [hsum] at h2
          simp only [countP]
          exact ⟨by omega, h2.2.trans htot⟩

theorem processColumns_spec (oracle : Nat → Option (List Char))
    (rows : List Int) (ws0 : Worksheet) :
    ∀ (cls : List (List Char)) (ws : Worksheet)
      (colAdj : List (Nat × Nat)) (st : RunSt),
    cellsOK ws ws0 →
    cellsOK (processColumns oracle rows cls ws colAdj st).2.1 ws0 ∧
    (processColumns oracle rows cls ws colAdj st).2.1.maxRow = ws.maxRow ∧
    (processColumns oracle rows cls ws colAdj st).2.2.2.task.total_cells =
      st.task.total_cells ∧
    sumc (processColumns oracle rows cls ws colAdj st).2.2.2.task ≤
      sumc st.task + colsCount ws0 rows cls ∧
    ∀ t ∈ (processColumns oracle rows cls ws colAdj st).2.2.2.trace,
      t ∈ st.trace ∨ (sumc t ≤ sumc st.task + colsCount ws0 rows cls ∧
        t.total_cells = st.task.total_cells) := by
  intro cls
  induction cls with
  | nil =>
    intro ws colAdj st hok
    exact ⟨hok, rfl, rfl, Nat.le_add_right _ _, fun t ht => Or.inl ht⟩
  | cons cl rest ih =>
    intro ws colAdj st hok
    rcases hci : column_index_from_string cl with _ | ci
    · have hred : processColumns oracle rows (cl :: rest) ws colAdj st =
          processColumns oracle rows rest ws colAdj st := by
        simp [processColumns, hci]
      rw [hred]
      obtain ⟨ih1, ih2, ih3, ih4, ih5⟩ := ih ws colAdj st hok
      refine ⟨ih1, ih2, ih3, ?_, ?_⟩
      · simp only [colsCount, hci]
        omega
      · intro t ht
        rcases ih5 t ht with h2 | h2
        · left
          exact h2
        · right
          simp only [colsCount, hci]
          exact ⟨by omega, h2.2⟩
    · obtain ⟨p1, p2, p3, p4, p5⟩ :=
        processRows_spec oracle ci ws0 rows ws st 0 hok
      by_cases hok2 : (processRows oracle ci rows ws st 0).1 = true
      · have hred : processColumns oracle rows (cl :: rest) ws colAdj st =
            processColumns oracle rows rest
              (processRows oracle ci rows ws st 0).2.1
              (setAssoc (setAssoc colAdj ci 0) ci
                (processRows oracle ci rows ws st 0).2.2.2)
              (processRows oracle ci rows ws st 0).2.2.1 := by
          simp [processColumns, hci, hok2]
        rw [hred]
        obtain ⟨ih1, ih2, ih3, ih4, ih5⟩ := ih _ _ _ p1
        refine ⟨ih1, ih2.trans p2, ih3.trans p3, ?_, ?_⟩
        · simp only [colsCount, hci]
          omega
        · intro t ht
          rcases ih5 t ht with h2 | h2
          · rcases p5 t h2 with h3 | h3
            · left
              exact h3
            · right
              simp only [colsCount, hci]
              exact ⟨by omega, h3.2⟩
          · right
            simp only [colsCount, hci]
            refine ⟨by omega, h2.2.trans p3⟩
      · have hred : processColumns oracle rows (cl :: rest) ws colAdj st =
            (false, (processRows oracle ci rows ws st 0).2.1,
              setAssoc colAdj ci 0,
              (processRows oracle ci rows ws st 0).2.2.1) := by
          simp [processColumns, hci, hok2]
        rw [hred]
        refine ⟨p1, p2, p3, ?_, ?_⟩
        · simp only [colsCount, hci]
          omega
        · intro t ht
          rcases p5 t ht with h2 | h2
          · left
            exact h2
          · right
            simp only [colsCount, hci]
            exact ⟨by omega, h2.2⟩

theorem applyWidths_cells (colAdj : List (Nat × Nat)) :
    ∀ ws : Worksheet, (applyWidths ws colAdj).cells = ws.cells ∧
      (applyWidths ws colAdj).maxRow = ws.maxRow := by
  induction colAdj with
  | nil =>
    intro ws
    exact ⟨rfl, rfl⟩
  | cons kv rest ih =>
    intro ws
    have hred : applyWidths ws (kv :: rest) =
        applyWidths {ws with colWidthT := fun c =>
          if c = kv.1 then some (min (kv.2 * 12 + 50) 500) else ws.colWidthT c} rest := by
      simp [applyWidths]
    rw [hred]
    exact ih _

theorem foldl_preserve {α : Type} (f : Worksheet → α → Worksheet)
    (hf : ∀ w a, (f w a).cells = w.cells ∧ (f w a).maxRow = w.maxRow) :
    ∀ (l : List α) (ws : Worksheet),
      (l.foldl f ws).cells = ws.cells ∧
      (l.foldl f ws).maxRow = ws.maxRow := by
  intro l
  induction l with
  | nil =>
    intro ws
    exact ⟨rfl, rfl⟩
  | cons a rest ih =>
    intro ws
    rw [List.foldl_cons]
    obtain ⟨h1, h2⟩ := ih (f ws a)
    rw [h1, h2]
    exact hf ws a

theorem applyHeights_cells (cols : List (List Char)) (rows : List Int)
    (ws : Worksheet) :
    (applyHeights ws cols rows).cells = ws.cells ∧
    (applyHeights ws cols rows).maxRow = ws.maxRow := by
  unfold applyHeights
  exact foldl_preserve
    (fun w r =>
      let h := 15 + (rowMaxLines w cols r - 1) * 10
      {w with rowHeightD := fun r' =>
        if r' = r then some (min h 100) else w.rowHeightD r'})
    (fun w r => ⟨rfl, rfl⟩) rows ws

theorem translate_worksheet_spec (ws ws0 : Worksheet) (st : RunSt)
    (cols : List (List Char)) (start : Int) (endO : Option Int)
    (oracle : Nat → Option (List Char))
    (hok : cellsOK ws ws0) (hmr : ws.maxRow = ws0.maxRow) :
    cellsOK (translate_worksheet_with_progress ws st cols start endO
      oracle).2.1 ws0 ∧
    (translate_worksheet_with_progress ws st cols start endO
      oracle).2.1.maxRow = ws0.maxRow ∧
    (translate_worksheet_with_progress ws st cols start endO
      oracle).2.2.task.total_cells = st.task.total_cells ∧
    sumc (translate_worksheet_with_progress ws st cols start endO
      oracle).2.2.task ≤ sumc st.task + sheetBudget cols start endO ws0 ∧
    ∀ t ∈ (translate_worksheet_with_progress ws st cols start endO
        oracle).2.2.trace,
      t ∈ st.trace ∨
        (sumc t ≤ sumc st.task + sheetBudget cols start endO ws0 ∧
          t.total_cells = st.task.total_cells) := by
  by_cases hgt : clampStart start > clampEnd endO ws.maxRow
  · have hred : translate_worksheet_with_progress ws st cols start endO
        oracle = (false, ws, st) := by
      simp [translate_worksheet_with_progress, hgt]
    rw [hred]
    exact ⟨hok, hmr, rfl, Nat.le_add_right _ _, fun t ht => Or.inl ht⟩
  · obtain ⟨p1, p2, p3, p4, p5⟩ := processColumns_spec oracle
      (intRange (clampStart start) (clampEnd endO ws.maxRow)) ws0 cols
      ws [] st hok
    have hbud : colsCount ws0
        (intRange (clampStart start) (clampEnd endO ws.maxRow)) cols =
        sheetBudget cols start endO ws0 := by
      rw [hmr]
      rfl
    rw [hbud] at p4 p5
    by_cases hok2 : (processColumns oracle
        (intRange (clampStart start) (clampEnd endO ws.maxRow))
        cols ws [] st).1 = true
    · have hred : translate_worksheet_with_progress ws st cols start endO
          oracle =
          (true,
            applyHeights
              (applyWidths
                (processColumns oracle
                  (intRange (clampStart start) (clampEnd endO ws.maxRow))
                  cols ws [] st).2.1
                (processColumns oracle
                  (intRange (clampStart start) (clampEnd endO ws.maxRow))
                  cols ws [] st).2.2.1)
              cols (intRange (clampStart start) (clampEnd endO ws.maxRow)),
            (processColumns oracle
              (intRange (clampStart start) (clampEnd endO ws.maxRow))
              cols ws [] st).2.2.2) := by
        simp [translate_worksheet_with_progress, hgt, hok2]
      rw [hred]
      obtain ⟨hwc, hwm⟩ := applyWidths_cells
        (processColumns oracle
          (intRange (clampStart start) (clampEnd endO ws.maxRow))
          cols ws [] st).2.2.1
        (processColumns oracle
          (intRange (clampStart start) (clampEnd endO ws.maxRow))
          cols ws [] st).2.1
      obtain ⟨hhc, hhm⟩ := applyHeights_cells cols
        (intRange (clampStart start) (clampEnd endO ws.maxRow)) _
      refine ⟨?_, ?_, p3, p4, p5⟩
      · intro r c hp
        rw [hhc, hwc] at hp
        exact p1 r c hp
      · rw [hhm, hwm, p2, hmr]
    · have hred : translate_worksheet_with_progress ws st cols start endO
          oracle =
          (false,
            (processColumns oracle
              (intRange (clampStart start) (clampEnd endO ws.maxRow))
              cols ws [] st).2.1,
            (processColumns oracle
              (intRange (clampStart start) (clampEnd endO ws.maxRow))
              cols ws [] st).2.2.2) := by
        simp [translate_worksheet_with_progress, hgt, hok2]
      rw [hred]
      exact ⟨p1, p2.trans hmr, p3, p4, p5⟩

/-- Sheet-wise processability preservation for a workbook. -/
def WbOK (wb wb0 : Workbook) : Prop :=
  ∀ n, cellsOK ((lookupSheet wb n).getD emptyWorksheet)
      ((lookupSheet wb0 n).getD emptyWorksheet) ∧
    ((lookupSheet wb n).getD emptyWorksheet).maxRow =
      ((lookupSheet wb0 n).getD emptyWorksheet).maxRow

theorem mainLoop_spec (cols : List (List Char)) (start : Int)
    (endO : Option Int) (oracle : Nat → Option (List Char))
    (wb0 : Workbook) :
    ∀ (names : List String) (wb : Workbook) (st : RunSt), WbOK wb wb0 →
    (mainLoop cols start endO oracle names wb st).2.2.task.total_cells =
      st.task.total_cells ∧
    sumc (mainLoop cols start endO oracle names wb st).2.2.task ≤
      sumc st.task + wbBudget cols start endO wb0 names ∧
    ∀ t ∈ (mainLoop cols start endO oracle names wb st).2.2.trace,
      t ∈ st.trace ∨
        (sumc t ≤ sumc st.task + wbBudget cols start endO wb0 names ∧
          t.total_cells = st.task.total_cells) := by
  intro names
  induction names with
  | nil =>
    intro wb st hw
    exact ⟨rfl, Nat.le_add_right _ _, fun t ht => Or.inl ht⟩
  | cons n rest ih =>
    intro wb st hw
    by_cases hf : st.task.status = TaskStatus.failed
    · have hred : mainLoop cols start endO oracle (n :: rest) wb st =
          (true, wb, st) := by
        simp [mainLoop, hf]
      rw [hred]
      exact ⟨rfl, Nat.le_add_right _ _, fun t ht => Or.inl ht⟩
    · obtain ⟨t1, t2, t3, t4, t5⟩ := translate_worksheet_spec
        ((lookupSheet wb n).getD emptyWorksheet)
        ((lookupSheet wb0 n).getD emptyWorksheet) st cols start endO
        oracle (hw n).1 (hw n).2
      by_cases hok : (translate_worksheet_with_progress
          ((lookupSheet wb n).getD emptyWorksheet) st cols start endO
          oracle).1 = true
      · have hred : mainLoop cols start endO oracle (n :: rest) wb st =
            mainLoop cols start endO oracle rest
              (updateSheet wb n (translate_worksheet_with_progress
                ((lookupSheet wb n).getD emptyWorksheet) st cols start endO
                oracle).2.1)
              (translate_worksheet_with_progress
                ((lookupSheet wb n).getD emptyWorksheet) st cols start endO
                oracle).2.2 := by
          simp [mainLoop, hf, hok]
        rw [hred]
        have hw2 : WbOK (updateSheet wb n (translate_worksheet_with_progress
            ((lookupSheet wb n).getD emptyWorksheet) st cols start endO
            oracle).2.1) wb0 := by
          intro m
          rw [lookup_updateSheet]
          by_cases hc : m = n ∧ (lookupSheet wb n).isSome
          · rw [if_pos hc]
            simp only [Option.getD_some]
            rw [hc.1]
            exact ⟨t1, t2⟩
          · rw [if_neg hc]
            exact hw m
        obtain ⟨ih1, ih2, ih3⟩ := ih _ _ hw2
        refine ⟨ih1.trans t3, ?_, ?_⟩
        · simp only [wbBudget]
          omega
        · intro t ht
          rcases ih3 t ht with h2 | h2
          · rcases t5 t h2 with h3 | h3
            · left
              exact h3
            · right
              simp only [wbBudget]
              exact ⟨by omega, h3.2⟩
          · right
            simp only [wbBudget]
            exact ⟨by omega, h2.2.trans t3⟩
      · have hred : mainLoop cols start endO oracle (n :: rest) wb st =
            (false,
              updateSheet wb n (translate_worksheet_with_progress
                ((lookupSheet wb n).getD emptyWorksheet) st cols start endO
                oracle).2.1,
              setStatus (translate_worksheet_with_progress
                ((lookupSheet wb n).getD emptyWorksheet) st cols start endO
                oracle).2.2 TaskStatus.failed) := by
          simp [mainLoop, hf, hok]
        rw [hred]
        refine ⟨t3, ?_, ?_⟩
        · show sumc (translate_worksheet_with_progress
            ((lookupSheet wb n).getD emptyWorksheet) st cols start endO
            oracle).2.2.task ≤ _
          simp only [wbBudget]
          omega
        · intro t ht
          have ht2 : t = {(translate_worksheet_with_progress
              ((lookupSheet wb n).getD emptyWorksheet) st cols start endO
              oracle).2.2.task with status := TaskStatus.failed} ∨
              t ∈ (translate_worksheet_with_progress
                ((lookupSheet wb n).getD emptyWorksheet) st cols start endO
                oracle).2.2.trace := by
            simpa [setStatus, snap] using ht
          rcases ht2 with ht2 | ht2
          · right
            simp only [wbBudget]
            constructor
            · rw [ht2]
              show sumc (translate_worksheet_with_progress
                ((lookupSheet wb n).getD emptyWorksheet) st cols start endO
                oracle).2.2.task ≤ _
              omega
            · rw [ht2]
              show (translate_worksheet_with_progress
                ((lookupSheet wb n).getD emptyWorksheet) st cols start endO
                oracle).2.2.task.total_cells = _
              exact t3
          · rcases t5 t ht2 with h3 | h3
            · left
              exact h3
            · right
              simp only [wbBudget]
              exact ⟨by omega, h3.2⟩

theorem intRange_eq_nil_or_cons (a b : Int) :
    intRange a b = [] ∨ ∃ t, intRange a b = a :: t := by
  unfold intRange
  rcases hn : (b + 1 - a).toNat with _ | n
  · left
    rfl
  · right
    refine ⟨(List.range n).map (fun i : Nat => a + ((i + 1 : Nat) : Int)),
      ?_⟩
    rw [List.range_succ_eq_map, List.map_cons, List.map_map]
    simp [Function.comp]

theorem preScanColumn_lt (ci : Nat) (a b : Int) (ha : a < 1)
    (ws : Worksheet) (tc sc : Nat) :
    preScanColumn ci (intRange a b) ws tc sc = (tc, sc, ws) := by
  rcases intRange_eq_nil_or_cons a b with h | ⟨t, h⟩
  · rw [h]
    rfl
  · rw [h]
    simp [preScanColumn, ha]

theorem preScanSheet_lt (start : Int) (endO : Option Int)
    (ha : start < 1) :
    ∀ (cols : List (List Char)) (ws : Worksheet) (tc sc : Nat),
    preScanSheet start endO cols ws tc sc = (tc, sc, ws) := by
  intro cols
  induction cols with
  | nil =>
    intro ws tc sc
    rfl
  | cons cl rest ih =>
    intro ws tc sc
    rcases hci : column_index_from_string cl with _ | ci
    · have hred : preScanSheet start endO (cl :: rest) ws tc sc =
          preScanSheet start endO rest ws tc sc := by
        simp [preScanSheet, hci]
      rw [hred]
      exact ih ws tc sc
    · have hred : preScanSheet start endO (cl :: rest) ws tc sc =
          preScanSheet start endO rest
            (preScanColumn ci
              (intRange start (resolveEndRow endO ws.maxRow)) ws tc sc).2.2
            (preScanColumn ci
              (intRange start (resolveEndRow endO ws.maxRow)) ws tc sc).1
            (preScanColumn ci
              (intRange start (resolveEndRow endO ws.maxRow)) ws tc
                sc).2.1 := by
        simp [preScanSheet, hci]
      rw [hred, preScanColumn_lt ci start _ ha ws tc sc]
      exact ih ws tc sc

theorem preScanWb_lt (cols : List (List Char)) (start : Int)
    (endO : Option Int) (ha : start < 1) :
    ∀ (names : List String) (wb : Workbook) (tc sc : Nat),
    (preScanWb cols start endO names wb tc sc).1 = tc ∧
    (preScanWb cols start endO names wb tc sc).2.1 = sc := by
  intro names
  induction names with
  | nil =>
    intro wb tc sc
    exact ⟨rfl, rfl⟩
  | cons n rest ih =>
    intro wb tc sc
    have hred : preScanWb cols start endO (n :: rest) wb tc sc =
        preScanWb cols start endO rest
          (updateSheet wb n
            (preScanSheet start endO cols
              ((lookupSheet wb n).getD emptyWorksheet) tc sc).2.2)
          (preScanSheet start endO cols
            ((lookupSheet wb n).getD emptyWorksheet) tc sc).1
          (preScanSheet start endO cols
            ((lookupSheet wb n).getD emptyWorksheet) tc sc).2.1 := by
      rw [preScanWb]
    rw [hred, preScanSheet_lt start endO ha cols _ tc sc]
    exact ih _ tc sc

theorem preScanColumn_count (ci : Nat) :
    ∀ (rows : List Int) (ws : Worksheet) (tc sc : Nat),
    (∀ r ∈ rows, 1 ≤ r) →
    (preScanColumn ci rows ws tc sc).1 +
      (preScanColumn ci rows ws tc sc).2.1 =
      tc + sc + countP ws ci rows := by
  intro rows
  induction rows with
  | nil =>
    intro ws tc sc _
    simp [preScanColumn, countP]
  | cons r rest ih =>
    intro ws tc sc h1
    have hr1 : ¬r < 1 := by
      have := h1 r (List.mem_cons_self r rest)
      omega
    cases hP : processableV ((ws.cells r ci).value) with
    | false =>
      have hred : preScanColumn ci (r :: rest) ws tc sc =
          preScanColumn ci rest {ws with maxRow := max ws.maxRow r}
            tc sc := by
        simp [preScanColumn, hr1, hP]
      rw [hred, ih _ tc sc (fun r2 hr2 => h1 r2 (List.mem_cons_of_mem _ hr2))]
      simp [countP, countP_maxRow, hP]
    | true =>
      cases hB : is_already_translated ((ws.cells r ci).value) with
      | true =>
        have hred : preScanColumn ci (r :: rest) ws tc sc =
            preScanColumn ci rest {ws with maxRow := max ws.maxRow r}
              tc (sc + 1) := by
          simp [preScanColumn, hr1, hP, hB]
        rw [hred,
          ih _ tc (sc + 1) (fun r2 hr2 => h1 r2 (List.mem_cons_of_mem _ hr2))]
        simp [countP, countP_maxRow, hP]
        omega
      | false =>
        have hred : preScanColumn ci (r :: rest) ws tc sc =
            preScanColumn ci rest {ws with maxRow := max ws.maxRow r}
              (tc + 1) sc := by
          simp [preScanColumn, hr1, hP, hB]
        rw [hred,
          ih _ (tc + 1) sc (fun r2 hr2 => h1 r2 (List.mem_cons_of_mem _ hr2))]
        simp [countP, countP_maxRow, hP]
        omega

theorem preScanColumn_fixMax (ci : Nat) :
    ∀ (rows : List Int) (ws : Worksheet) (tc sc : Nat),
    (∀ r ∈ rows, r ≤ ws.maxRow) →
    (preScanColumn ci rows ws tc sc).2.2 = ws := by
  intro rows
  induction rows with
  | nil =>
    intro ws tc sc _
    rfl
  | cons r rest ih =>
    intro ws tc sc h1
    by_cases hr1 : r < 1
    · simp [preScanColumn, hr1]
    · have hws : {ws with maxRow := max ws.maxRow r} = ws := by
        rw [max_eq_left (h1 r (List.mem_cons_self r rest))]
      have hrest : ∀ r2 ∈ rest, r2 ≤ ws.maxRow :=
        fun r2 hr2 => h1 r2 (List.mem_cons_of_mem _ hr2)
      cases hP : processableV ((ws.cells r ci).value) with
      | false =>
        have hred : preScanColumn ci (r :: rest) ws tc sc =
            preScanColumn ci rest ws tc sc := by
          simp [preScanColumn, hr1, hP, hws]
        rw [hred]
        exact ih ws tc sc hrest
      | true =>
        cases hB : is_already_translated ((ws.cells r ci).value) with
        | true =>
          have hred : preScanColumn ci (r :: rest) ws tc sc =
              preScanColumn ci rest ws tc (sc + 1) := by
            simp [preScanColumn, hr1, hP, hB, hws]
          rw [hred]
          exact ih ws tc _ hrest
        | false =>
          have hred : preScanColumn ci (r :: rest) ws tc sc =
              preScanColumn ci rest ws (tc + 1) sc := by
            simp [preScanColumn, hr1, hP, hB, hws]
          rw [hred]
          exact ih ws _ sc hrest

theorem countP_congr (ws ws2 : Worksheet) (hc : ws.cells = ws2.cells)
    (ci : Nat) (rows : List Int) :
    countP ws ci rows = countP ws2 ci rows := by
  induction rows with
  | nil => rfl
  | cons r rest ih => simp [countP, ih, hc]

theorem colsCount_congr (ws ws2 : Worksheet) (hc : ws.cells = ws2.cells)
    (rows : List Int) (cols : List (List Char)) :
    colsCount ws rows cols = colsCount ws2 rows cols := by
  induction cols with
  | nil => rfl
  | cons cl rest ih =>
    simp only [colsCount, ih]
    rcases column_index_from_string cl with _ | ci
    · rfl
    · dsimp only
      rw [countP_congr ws ws2 hc]

/-- With `end_row` unset (or 0), the pre-scan of one sheet counts the
processable cells of the configured columns over rows `start..max_row` and
leaves the sheet untouched. -/
theorem preScanSheet_none (start : Int) (endO : Option Int)
    (hstart : ¬start < 1) (hE : ∀ m, resolveEndRow endO m = m) :
    ∀ (cols : List (List Char)) (ws : Worksheet) (tc sc : Nat),
    (preScanSheet start endO cols ws tc sc).2.2 = ws ∧
    (preScanSheet start endO cols ws tc sc).1 +
      (preScanSheet start endO cols ws tc sc).2.1 =
      tc + sc + colsCount ws (intRange start ws.maxRow) cols := by
  intro cols
  induction cols with
  | nil =>
    intro ws tc sc
    exact ⟨rfl, by simp [preScanSheet, colsCount]⟩
  | cons cl rest ih =>
    intro ws tc sc
    rcases hci : column_index_from_string cl with _ | ci
    · have hred : preScanSheet start endO (cl :: rest) ws tc sc =
          preScanSheet start endO rest ws tc sc := by
        simp [preScanSheet, hci]
      rw [hred]
      obtain ⟨ih1, ih2⟩ := ih ws tc sc
      refine ⟨ih1, ?_⟩
      rw [ih2]
      simp [colsCount, hci]
    · have hred : preScanSheet start endO (cl :: rest) ws tc sc =
          preScanSheet start endO rest
            (preScanColumn ci
              (intRange start (resolveEndRow endO ws.maxRow)) ws tc sc).2.2
            (preScanColumn ci
              (intRange start (resolveEndRow endO ws.maxRow)) ws tc sc).1
            (preScanColumn ci
              (intRange start (resolveEndRow endO ws.maxRow)) ws tc
                sc).2.1 := by
        simp [preScanSheet, hci]
      have hfix : (preScanColumn ci
          (intRange start (resolveEndRow endO ws.maxRow)) ws tc sc).2.2 =
          ws := by
        refine preScanColumn_fixMax ci _ ws tc sc ?_
        intro r hr
        rw [hE ws.maxRow] at hr
        exact ((mem_intRange r start ws.maxRow).mp hr).2
      have hcnt : (preScanColumn ci
          (intRange start (resolveEndRow endO ws.maxRow)) ws tc sc).1 +
          (preScanColumn ci
            (intRange start (resolveEndRow endO ws.maxRow)) ws tc
              sc).2.1 =
          tc + sc + countP ws ci (intRange start ws.maxRow) := by
        rw [hE ws.maxRow]
        refine preScanColumn_count ci _ ws tc sc ?_
        intro r hr
        have := ((mem_intRange r start ws.maxRow).mp hr).1
        omega
      rw [hred, hfix]
      obtain ⟨ih1, ih2⟩ := ih ws
        (preScanColumn ci
          (intRange start (resolveEndRow endO ws.maxRow)) ws tc sc).1
        (preScanColumn ci
          (intRange start (resolveEndRow endO ws.maxRow)) ws tc sc).2.1
      refine ⟨ih1, ?_⟩
      rw [ih2, hcnt]
      simp [colsCount, hci]
      omega

/-- With a fixed positive `end_row`, the pre-scan of one sheet counts the
processable cells over rows `start..end_row` (whatever `max_row` does). -/
theorem preScanSheet_some (start : Int) (e : Int)
    (hstart : ¬start < 1) (he : ¬e = 0) :
    ∀ (cols : List (List Char)) (ws : Worksheet) (tc sc : Nat),
    (preScanSheet start (some e) cols ws tc sc).1 +
      (preScanSheet start (some e) cols ws tc sc).2.1 =
      tc + sc + colsCount ws (intRange start e) cols := by
  intro cols
  induction cols with
  | nil =>
    intro ws tc sc
    simp [preScanSheet, colsCount]
  | cons cl rest ih =>
    intro ws tc sc
    have hres : resolveEndRow (some e) ws.maxRow = e := by
      simp [resolveEndRow, he]
    rcases hci : column_index_from_string cl with _ | ci
    · have hred : preScanSheet start (some e) (cl :: rest) ws tc sc =
          preScanSheet start (some e) rest ws tc sc := by
        simp [preScanSheet, hci]
      rw [hred, ih ws tc sc]
      simp [colsCount, hci]
    · have hred : preScanSheet start (some e) (cl :: rest) ws tc sc =
          preScanSheet start (some e) rest
            (preScanColumn ci (intRange start e) ws tc sc).2.2
            (preScanColumn ci (intRange start e) ws tc sc).1
            (preScanColumn ci (intRange start e) ws tc sc).2.1 := by
        simp [preScanSheet, hci, hres]
      obtain ⟨m, hm⟩ := preScanColumn_ws ci (intRange start e) ws tc sc
      have hcnt : (preScanColumn ci (intRange start e) ws tc sc).1 +
          (preScanColumn ci (intRange start e) ws tc sc).2.1 =
          tc + sc + countP ws ci (intRange start e) := by
        refine preScanColumn_count ci _ ws tc sc ?_
        intro r hr
        have := ((mem_intRange r start e).mp hr).1
        omega
      rw [hred, hm, ih _ _ _, hcnt, colsCount_maxRow]
      simp [colsCount, hci]
      omega

theorem updateSheet_getD (wb : Workbook) (n : String) :
    updateSheet wb n ((lookupSheet wb n).getD emptyWorksheet) = wb := by
  induction wb with
  | nil => rfl
  | cons p t ih =>
    rcases p with ⟨n2, w2⟩
    by_cases h : n2 = n
    · have hl : lookupSheet ((n2, w2) :: t) n = some w2 := by
        simp [lookupSheet, List.find?, h]
      rw [hl]
      simp [updateSheet, h]
    · have hb : (n2 == n) = false := beq_eq_false_iff_ne.mpr h
      have hl : lookupSheet ((n2, w2) :: t) n = lookupSheet t n := by
        simp [lookupSheet, List.find?, hb]
      rw [hl]
      simp only [updateSheet, if_neg h]
      rw [ih]

/-- The per-occurrence pre-scan contribution in the fixed-end-row case. -/
def preTotal (cols : List (List Char)) (start e : Int) (wb0 : Workbook) :
    List String → Nat
  | [] => 0
  | n :: rest =>
    colsCount ((lookupSheet wb0 n).getD emptyWorksheet)
      (intRange start e) cols + preTotal cols start e wb0 rest

/-- With `end_row` unset (or 0), the whole pre-scan leaves the workbook
unchanged and returns exactly the main loop budget. -/
theorem preScanWb_none (cols : List (List Char)) (start : Int)
    (endO : Option Int) (hstart : ¬start < 1)
    (hE : ∀ m, resolveEndRow endO m = m) :
    ∀ (names : List String) (wb : Workbook) (tc sc : Nat),
    (preScanWb cols start endO names wb tc sc).2.2 = wb ∧
    (preScanWb cols start endO names wb tc sc).1 +
      (preScanWb cols start endO names wb tc sc).2.1 =
      tc + sc + wbBudget cols start endO wb names := by
  intro names
  induction names with
  | nil =>
    intro wb tc sc
    exact ⟨rfl, by simp [preScanWb, wbBudget]⟩
  | cons n rest ih =>
    intro wb tc sc
    have hred : preScanWb cols start endO (n :: rest) wb tc sc =
        preScanWb cols start endO rest
          (updateSheet wb n
            (preScanSheet start endO cols
              ((lookupSheet wb n).getD emptyWorksheet) tc sc).2.2)
          (preScanSheet start endO cols
            ((lookupSheet wb n).getD emptyWorksheet) tc sc).1
          (preScanSheet start endO cols
            ((lookupSheet wb n).getD emptyWorksheet) tc sc).2.1 := by
      rw [preScanWb]
    obtain ⟨s1, s2⟩ := preScanSheet_none start endO hstart hE cols
      ((lookupSheet wb n).getD emptyWorksheet) tc sc
    rw [hred, s1, updateSheet_getD]
    obtain ⟨ih1, ih2⟩ := ih wb
      (preScanSheet start endO cols
        ((lookupSheet wb n).getD emptyWorksheet) tc sc).1
      (preScanSheet start endO cols
        ((lookupSheet wb n).getD emptyWorksheet) tc sc).2.1
    refine ⟨ih1, ?_⟩
    rw [ih2, s2]
    have hb : sheetBudget cols start endO
        ((lookupSheet wb n).getD emptyWorksheet) =
        colsCount ((lookupSheet wb n).getD emptyWorksheet)
          (intRange start
            ((lookupSheet wb n).getD emptyWorksheet).maxRow) cols := by
      unfold sheetBudget
      have h1 : clampStart start = start := by
        simp [clampStart, hstart]
      have h2 : clampEnd endO
          ((lookupSheet wb n).getD emptyWorksheet).maxRow =
          ((lookupSheet wb n).getD emptyWorksheet).maxRow := by
        simp [clampEnd, hE]
      rw [h1, h2]
    simp only [wbBudget]
    rw [hb]
    omega

/-- With a fixed positive `end_row`, the pre-scan total is the sum of the
per-occurrence contributions over rows `start..end_row`, and the cell
contents of every sheet are preserved. -/
theorem preScanWb_some (cols : List (List Char)) (start e : Int)
    (hstart : ¬start < 1) (he : ¬e = 0) (wb0 : Workbook) :
    ∀ (names : List String) (wb : Workbook) (tc sc : Nat),
    (∀ k, ((lookupSheet wb k).getD emptyWorksheet).cells =
      ((lookupSheet wb0 k).getD emptyWorksheet).cells) →
    (preScanWb cols start (some e) names wb tc sc).1 +
      (preScanWb cols start (some e) names wb tc sc).2.1 =
      tc + sc + preTotal cols start e wb0 names ∧
    (∀ k, ((lookupSheet
        (preScanWb cols start (some e) names wb tc sc).2.2 k).getD
        emptyWorksheet).cells =
      ((lookupSheet wb0 k).getD emptyWorksheet).cells) := by
  intro names
  induction names with
  | nil =>
    intro wb tc sc hc
    exact ⟨by simp [preScanWb, preTotal], hc⟩
  | cons n rest ih =>
    intro wb tc sc hc
    have hred : preScanWb cols start (some e) (n :: rest) wb tc sc =
        preScanWb cols start (some e) rest
          (updateSheet wb n
            (preScanSheet start (some e) cols
              ((lookupSheet wb n).getD emptyWorksheet) tc sc).2.2)
          (preScanSheet start (some e) cols
            ((lookupSheet wb n).getD emptyWorksheet) tc sc).1
          (preScanSheet start (some e) cols
            ((lookupSheet wb n).getD emptyWorksheet) tc sc).2.1 := by
      rw [preScanWb]
    have s2 := preScanSheet_some start e hstart he cols
      ((lookupSheet wb n).getD emptyWorksheet) tc sc
    obtain ⟨m, hm⟩ := preScanSheet_ws start (some e) cols
      ((lookupSheet wb n).getD emptyWorksheet) tc sc
    have hc2 : ∀ k, ((lookupSheet
        (updateSheet wb n
          (preScanSheet start (some e) cols
            ((lookupSheet wb n).getD emptyWorksheet) tc sc).2.2)
          k).getD emptyWorksheet).cells =
        ((lookupSheet wb0 k).getD emptyWorksheet).cells := by
      intro k
      rw [lookup_updateSheet]
      by_cases hck : k = n ∧ (lookupSheet wb n).isSome
      · rw [if_pos hck]
        simp only [Option.getD_some]
        rw [hm]
        rw [hck.1]
        exact hc n
      · rw [if_neg hck]
        exact hc k
    rw [hred]
    obtain ⟨ih1, ih2⟩ := ih _
      (preScanSheet start (some e) cols
        ((lookupSheet wb n).getD emptyWorksheet) tc sc).1
      (preScanSheet start (some e) cols
        ((lookupSheet wb n).getD emptyWorksheet) tc sc).2.1 hc2
    refine ⟨?_, ih2⟩
    rw [ih1, s2]
    have hK : colsCount ((lookupSheet wb n).getD emptyWorksheet)
        (intRange start e) cols =
        colsCount ((lookupSheet wb0 n).getD emptyWorksheet)
          (intRange start e) cols := by
      exact colsCount_congr _ _ (hc n) _ cols
    simp only [preTotal]
    rw [hK]
    omega

theorem wbBudget_le_preTotal (cols : List (List Char)) (start e : Int)
    (hstart : ¬start < 1) (he : ¬e = 0) (wbF wb0 : Workbook)
    (hc : ∀ k, ((lookupSheet wbF k).getD emptyWorksheet).cells =
      ((lookupSheet wb0 k).getD emptyWorksheet).cells) :
    ∀ names : List String,
    wbBudget cols start (some e) wbF names ≤
      preTotal cols start e wb0 names := by
  intro names
  induction names with
  | nil => exact le_refl _
  | cons n rest ih =>
    simp only [wbBudget, preTotal]
    have hsb : sheetBudget cols start (some e)
        ((lookupSheet wbF n).getD emptyWorksheet) ≤
        colsCount ((lookupSheet wb0 n).getD emptyWorksheet)
          (intRange start e) cols := by
      unfold sheetBudget
      have h1 : clampStart start = start := by
        simp [clampStart, hstart]
      have h2 : clampEnd (some e)
          ((lookupSheet wbF n).getD emptyWorksheet).maxRow ≤ e := by
        simp only [clampEnd, resolveEndRow, if_neg he]
        split
        · omega
        · exact le_refl _
      rw [h1]
      refine le_trans
        (colsCount_sublist _ _ _ (intRange_sublist start e _ h2) cols)
        (le_of_eq (colsCount_congr _ _ (hc n) _ cols))
    omega

theorem engineCore_trace (wb : Workbook) (cfg : Config)
    (oracle : Nat → Option (List Char)) (saveOk : Bool) :
    ∀ t ∈ (engineCore wb cfg oracle saveOk stAfterProbe).st.trace,
      sumc t ≤ t.total_cells := by
  by_cases hsh : cfg.sheet_names ≠ none ∧ selectSheets wb cfg.sheet_names = []
  · have hred : (engineCore wb cfg oracle saveOk stAfterProbe).st.trace =
        [⟨TaskStatus.failed, 0, 0, 0, 0, 0⟩,
          ⟨TaskStatus.running, 0, 0, 0, 0, 0⟩] := by
      simp [engineCore, hsh, setStatus, snap, stAfterProbe, initialTask]
    rw [hred]
    decide
  · have htr5 : (initCounters stAfterProbe ((preScanWb cfg.columns cfg.start_row cfg.end_row
      (selectSheets wb cfg.sheet_names) wb 0 0).1 + (preScanWb cfg.columns cfg.start_row cfg.end_row
      (selectSheets wb cfg.sheet_names) wb 0 0).2.1)).trace =
        [⟨TaskStatus.running, 0, ((preScanWb cfg.columns cfg.start_row cfg.end_row
      (selectSheets wb cfg.sheet_names) wb 0 0).1 + (preScanWb cfg.columns cfg.start_row cfg.end_row
      (selectSheets wb cfg.sheet_names) wb 0 0).2.1), 0, 0, 0⟩,
          ⟨TaskStatus.running, 0, ((preScanWb cfg.columns cfg.start_row cfg.end_row
      (selectSheets wb cfg.sheet_names) wb 0 0).1 + (preScanWb cfg.columns cfg.start_row cfg.end_row
      (selectSheets wb cfg.sheet_names) wb 0 0).2.1), 0, 0, 0⟩,
          ⟨TaskStatus.running, 0, ((preScanWb cfg.columns cfg.start_row cfg.end_row
      (selectSheets wb cfg.sheet_names) wb 0 0).1 + (preScanWb cfg.columns cfg.start_row cfg.end_row
      (selectSheets wb cfg.sheet_names) wb 0 0).2.1), 0, 0, 0⟩,
          ⟨TaskStatus.running, 0, ((preScanWb cfg.columns cfg.start_row cfg.end_row
      (selectSheets wb cfg.sheet_names) wb 0 0).1 + (preScanWb cfg.columns cfg.start_row cfg.end_row
      (selectSheets wb cfg.sheet_names) wb 0 0).2.1), 0, 0, 0⟩,
          ⟨TaskStatus.running, 0, ((preScanWb cfg.columns cfg.start_row cfg.end_row
      (selectSheets wb cfg.sheet_names) wb 0 0).1 + (preScanWb cfg.columns cfg.start_row cfg.end_row
      (selectSheets wb cfg.sheet_names) wb 0 0).2.1), 0, 0, 0⟩,
          ⟨TaskStatus.running, 0, 0, 0, 0, 0⟩] := by
      simp [initCounters, snap, stAfterProbe, initialTask]
    have hinit_mem : ∀ t ∈ (initCounters stAfterProbe ((preScanWb cfg.columns cfg.start_row cfg.end_row
      (selectSheets wb cfg.sheet_names) wb 0 0).1 + (preScanWb cfg.columns cfg.start_row cfg.end_row
      (selectSheets wb cfg.sheet_names) wb 0 0).2.1)).trace,
        sumc t ≤ t.total_cells := by
      rw [htr5]
      intro t ht
      simp only [List.mem_cons, List.not_mem_nil, or_false] at ht
      rcases ht with rfl | rfl | rfl | rfl | rfl | rfl <;>
        exact Nat.zero_le _
    by_cases htot : ((preScanWb cfg.columns cfg.start_row cfg.end_row
      (selectSheets wb cfg.sheet_names) wb 0 0).1 + (preScanWb cfg.columns cfg.start_row cfg.end_row
      (selectSheets wb cfg.sheet_names) wb 0 0).2.1) = 0
    · have hred : (engineCore wb cfg oracle saveOk stAfterProbe).st.trace =
          ⟨TaskStatus.completed, 0, ((preScanWb cfg.columns cfg.start_row cfg.end_row
      (selectSheets wb cfg.sheet_names) wb 0 0).1 + (preScanWb cfg.columns cfg.start_row cfg.end_row
      (selectSheets wb cfg.sheet_names) wb 0 0).2.1), 0, 0, 0⟩ ::
            (initCounters stAfterProbe ((preScanWb cfg.columns cfg.start_row cfg.end_row
      (selectSheets wb cfg.sheet_names) wb 0 0).1 + (preScanWb cfg.columns cfg.start_row cfg.end_row
      (selectSheets wb cfg.sheet_names) wb 0 0).2.1)).trace := by
        simp [engineCore, hsh, htot, setStatus, snap, initCounters,
          stAfterProbe, initialTask]
      rw [hred]
      intro t ht
      rcases List.mem_cons.mp ht with rfl | ht2
      · exact Nat.zero_le _
      · exact hinit_mem t ht2
    · have hstart : ¬cfg.start_row < 1 := by
        intro hlt
        have hz := preScanWb_lt cfg.columns cfg.start_row cfg.end_row hlt
          (selectSheets wb cfg.sheet_names) wb 0 0
        exact htot (by rw [hz.1, hz.2])
      have hWb : WbOK (preScanWb cfg.columns cfg.start_row cfg.end_row
      (selectSheets wb cfg.sheet_names) wb 0 0).2.2 (preScanWb cfg.columns cfg.start_row cfg.end_row
      (selectSheets wb cfg.sheet_names) wb 0 0).2.2 := fun n => ⟨fun r c h => h, rfl⟩
      obtain ⟨m1, m2, m3⟩ := mainLoop_spec cfg.columns cfg.start_row
        cfg.end_row oracle (preScanWb cfg.columns cfg.start_row cfg.end_row
      (selectSheets wb cfg.sheet_names) wb 0 0).2.2 (selectSheets wb cfg.sheet_names)
        (preScanWb cfg.columns cfg.start_row cfg.end_row
      (selectSheets wb cfg.sheet_names) wb 0 0).2.2 (initCounters stAfterProbe ((preScanWb cfg.columns cfg.start_row cfg.end_row
      (selectSheets wb cfg.sheet_names) wb 0 0).1 + (preScanWb cfg.columns cfg.start_row cfg.end_row
      (selectSheets wb cfg.sheet_names) wb 0 0).2.1)) hWb
      have hsum0 : sumc (initCounters stAfterProbe ((preScanWb cfg.columns cfg.start_row cfg.end_row
      (selectSheets wb cfg.sheet_names) wb 0 0).1 + (preScanWb cfg.columns cfg.start_row cfg.end_row
      (selectSheets wb cfg.sheet_names) wb 0 0).2.1)).task = 0 := rfl
      have htot0 : (initCounters stAfterProbe ((preScanWb cfg.columns cfg.start_row cfg.end_row
      (selectSheets wb cfg.sheet_names) wb 0 0).1 + (preScanWb cfg.columns cfg.start_row cfg.end_row
      (selectSheets wb cfg.sheet_names) wb 0 0).2.1)).task.total_cells =
        ((preScanWb cfg.columns cfg.start_row cfg.end_row
      (selectSheets wb cfg.sheet_names) wb 0 0).1 + (preScanWb cfg.columns cfg.start_row cfg.end_row
      (selectSheets wb cfg.sheet_names) wb 0 0).2.1) := rfl
      have hbud : wbBudget cfg.columns cfg.start_row cfg.end_row
          (preScanWb cfg.columns cfg.start_row cfg.end_row
      (selectSheets wb cfg.sheet_names) wb 0 0).2.2 (selectSheets wb cfg.sheet_names) ≤ ((preScanWb cfg.columns cfg.start_row cfg.end_row
      (selectSheets wb cfg.sheet_names) wb 0 0).1 + (preScanWb cfg.columns cfg.start_row cfg.end_row
      (selectSheets wb cfg.sheet_names) wb 0 0).2.1) := by
        rcases hE : cfg.end_row with _ | e
        · obtain ⟨w1, w2⟩ := preScanWb_none cfg.columns cfg.start_row none
            hstart (fun m => rfl) (selectSheets wb cfg.sheet_names) wb 0 0
          rw [w1, w2]
          omega
        · by_cases he0 : e = 0
          · subst he0
            obtain ⟨w1, w2⟩ := preScanWb_none cfg.columns cfg.start_row
              (some 0) hstart (fun m => by simp [resolveEndRow])
              (selectSheets wb cfg.sheet_names) wb 0 0
            rw [w1, w2]
            omega
          · obtain ⟨w1, w2⟩ := preScanWb_some cfg.columns cfg.start_row e
              hstart he0 wb (selectSheets wb cfg.sheet_names) wb 0 0
              (fun k => rfl)
            have hb2 := wbBudget_le_preTotal cfg.columns cfg.start_row e
              hstart he0
              (preScanWb cfg.columns cfg.start_row (some e)
                (selectSheets wb cfg.sheet_names) wb 0 0).2.2 wb w2
              (selectSheets wb cfg.sheet_names)
            omega
      have hML_sum : sumc (mainLoop cfg.columns cfg.start_row cfg.end_row oracle
      (selectSheets wb cfg.sheet_names) (preScanWb cfg.columns cfg.start_row cfg.end_row
      (selectSheets wb cfg.sheet_names) wb 0 0).2.2
      (initCounters stAfterProbe ((preScanWb cfg.columns cfg.start_row cfg.end_row
      (selectSheets wb cfg.sheet_names) wb 0 0).1 + (preScanWb cfg.columns cfg.start_row cfg.end_row
      (selectSheets wb cfg.sheet_names) wb 0 0).2.1))).2.2.task ≤ ((preScanWb cfg.columns cfg.start_row cfg.end_row
      (selectSheets wb cfg.sheet_names) wb 0 0).1 + (preScanWb cfg.columns cfg.start_row cfg.end_row
      (selectSheets wb cfg.sheet_names) wb 0 0).2.1) := by
        rw [hsum0] at m2
        omega
      have hML_total : (mainLoop cfg.columns cfg.start_row cfg.end_row oracle
      (selectSheets wb cfg.sheet_names) (preScanWb cfg.columns cfg.start_row cfg.end_row
      (selectSheets wb cfg.sheet_names) wb 0 0).2.2
      (initCounters stAfterProbe ((preScanWb cfg.columns cfg.start_row cfg.end_row
      (selectSheets wb cfg.sheet_names) wb 0 0).1 + (preScanWb cfg.columns cfg.start_row cfg.end_row
      (selectSheets wb cfg.sheet_names) wb 0 0).2.1))).2.2.task.total_cells = ((preScanWb cfg.columns cfg.start_row cfg.end_row
      (selectSheets wb cfg.sheet_names) wb 0 0).1 + (preScanWb cfg.columns cfg.start_row cfg.end_row
      (selectSheets wb cfg.sheet_names) wb 0 0).2.1) := m1.trans htot0
      have hML_mem : ∀ t ∈ (mainLoop cfg.columns cfg.start_row cfg.end_row oracle
      (selectSheets wb cfg.sheet_names) (preScanWb cfg.columns cfg.start_row cfg.end_row
      (selectSheets wb cfg.sheet_names) wb 0 0).2.2
      (initCounters stAfterProbe ((preScanWb cfg.columns cfg.start_row cfg.end_row
      (selectSheets wb cfg.sheet_names) wb 0 0).1 + (preScanWb cfg.columns cfg.start_row cfg.end_row
      (selectSheets wb cfg.sheet_names) wb 0 0).2.1))).2.2.trace, sumc t ≤ t.total_cells := by
        intro t ht
        rcases m3 t ht with h2 | h2
        · exact hinit_mem t h2
        · have h3 := h2.1
          rw [hsum0] at h3
          rw [h2.2, htot0]
          omega
      by_cases hok : (mainLoop cfg.columns cfg.start_row cfg.end_row oracle
      (selectSheets wb cfg.sheet_names) (preScanWb cfg.columns cfg.start_row cfg.end_row
      (selectSheets wb cfg.sheet_names) wb 0 0).2.2
      (initCounters stAfterProbe ((preScanWb cfg.columns cfg.start_row cfg.end_row
      (selectSheets wb cfg.sheet_names) wb 0 0).1 + (preScanWb cfg.columns cfg.start_row cfg.end_row
      (selectSheets wb cfg.sheet_names) wb 0 0).2.1))).1 = true
      · by_cases hfail : (mainLoop cfg.columns cfg.start_row cfg.end_row oracle
      (selectSheets wb cfg.sheet_names) (preScanWb cfg.columns cfg.start_row cfg.end_row
      (selectSheets wb cfg.sheet_names) wb 0 0).2.2
      (initCounters stAfterProbe ((preScanWb cfg.columns cfg.start_row cfg.end_row
      (selectSheets wb cfg.sheet_names) wb 0 0).1 + (preScanWb cfg.columns cfg.start_row cfg.end_row
      (selectSheets wb cfg.sheet_names) wb 0 0).2.1))).2.2.task.status = TaskStatus.failed
        · have hred : (engineCore wb cfg oracle saveOk
              stAfterProbe).st.trace = (mainLoop cfg.columns cfg.start_row cfg.end_row oracle
      (selectSheets wb cfg.sheet_names) (preScanWb cfg.columns cfg.start_row cfg.end_row
      (selectSheets wb cfg.sheet_names) wb 0 0).2.2
      (initCounters stAfterProbe ((preScanWb cfg.columns cfg.start_row cfg.end_row
      (selectSheets wb cfg.sheet_names) wb 0 0).1 + (preScanWb cfg.columns cfg.start_row cfg.end_row
      (selectSheets wb cfg.sheet_names) wb 0 0).2.1))).2.2.trace := by
            simp [engineCore, hsh, htot, hok, hfail]
          rw [hred]
          exact hML_mem
        · by_cases hsv : saveOk = true
          · have hred : (engineCore wb cfg oracle saveOk
                stAfterProbe).st.trace =
                {{(mainLoop cfg.columns cfg.start_row cfg.end_row oracle
      (selectSheets wb cfg.sheet_names) (preScanWb cfg.columns cfg.start_row cfg.end_row
      (selectSheets wb cfg.sheet_names) wb 0 0).2.2
      (initCounters stAfterProbe ((preScanWb cfg.columns cfg.start_row cfg.end_row
      (selectSheets wb cfg.sheet_names) wb 0 0).1 + (preScanWb cfg.columns cfg.start_row cfg.end_row
      (selectSheets wb cfg.sheet_names) wb 0 0).2.1))).2.2.task with status := TaskStatus.completed} with
                  progress := 100} ::
                {(mainLoop cfg.columns cfg.start_row cfg.end_row oracle
      (selectSheets wb cfg.sheet_names) (preScanWb cfg.columns cfg.start_row cfg.end_row
      (selectSheets wb cfg.sheet_names) wb 0 0).2.2
      (initCounters stAfterProbe ((preScanWb cfg.columns cfg.start_row cfg.end_row
      (selectSheets wb cfg.sheet_names) wb 0 0).1 + (preScanWb cfg.columns cfg.start_row cfg.end_row
      (selectSheets wb cfg.sheet_names) wb 0 0).2.1))).2.2.task with status := TaskStatus.completed} ::
                (mainLoop cfg.columns cfg.start_row cfg.end_row oracle
      (selectSheets wb cfg.sheet_names) (preScanWb cfg.columns cfg.start_row cfg.end_row
      (selectSheets wb cfg.sheet_names) wb 0 0).2.2
      (initCounters stAfterProbe ((preScanWb cfg.columns cfg.start_row cfg.end_row
      (selectSheets wb cfg.sheet_names) wb 0 0).1 + (preScanWb cfg.columns cfg.start_row cfg.end_row
      (selectSheets wb cfg.sheet_names) wb 0 0).2.1))).2.2.trace := by
              simp [engineCore, hsh, htot, hok, hfail, hsv, setStatus, snap]
            rw [hred]
            intro t ht
            rcases List.mem_cons.mp ht with rfl | ht2
            · show sumc (mainLoop cfg.columns cfg.start_row cfg.end_row oracle
      (selectSheets wb cfg.sheet_names) (preScanWb cfg.columns cfg.start_row cfg.end_row
      (selectSheets wb cfg.sheet_names) wb 0 0).2.2
      (initCounters stAfterProbe ((preScanWb cfg.columns cfg.start_row cfg.end_row
      (selectSheets wb cfg.sheet_names) wb 0 0).1 + (preScanWb cfg.columns cfg.start_row cfg.end_row
      (selectSheets wb cfg.sheet_names) wb 0 0).2.1))).2.2.task ≤ (mainLoop cfg.columns cfg.start_row cfg.end_row oracle
      (selectSheets wb cfg.sheet_names) (preScanWb cfg.columns cfg.start_row cfg.end_row
      (selectSheets wb cfg.sheet_names) wb 0 0).2.2
      (initCounters stAfterProbe ((preScanWb cfg.columns cfg.start_row cfg.end_row
      (selectSheets wb cfg.sheet_names) wb 0 0).1 + (preScanWb cfg.columns cfg.start_row cfg.end_row
      (selectSheets wb cfg.sheet_names) wb 0 0).2.1))).2.2.task.total_cells
              rw [hML_total]
              exact hML_sum
            · rcases List.mem_cons.mp ht2 with rfl | ht3
              · show sumc (mainLoop cfg.columns cfg.start_row cfg.end_row oracle
      (selectSheets wb cfg.sheet_names) (preScanWb cfg.columns cfg.start_row cfg.end_row
      (selectSheets wb cfg.sheet_names) wb 0 0).2.2
      (initCounters stAfterProbe ((preScanWb cfg.columns cfg.start_row cfg.end_row
      (selectSheets wb cfg.sheet_names) wb 0 0).1 + (preScanWb cfg.columns cfg.start_row cfg.end_row
      (selectSheets wb cfg.sheet_names) wb 0 0).2.1))).2.2.task ≤ (mainLoop cfg.columns cfg.start_row cfg.end_row oracle
      (selectSheets wb cfg.sheet_names) (preScanWb cfg.columns cfg.start_row cfg.end_row
      (selectSheets wb cfg.sheet_names) wb 0 0).2.2
      (initCounters stAfterProbe ((preScanWb cfg.columns cfg.start_row cfg.end_row
      (selectSheets wb cfg.sheet_names) wb 0 0).1 + (preScanWb cfg.columns cfg.start_row cfg.end_row
      (selectSheets wb cfg.sheet_names) wb 0 0).2.1))).2.2.task.total_cells
                rw [hML_total]
                exact hML_sum
              · exact hML_mem t ht3
          · have hred : (engineCore wb cfg oracle saveOk
                stAfterProbe).st.trace =
                {(mainLoop cfg.columns cfg.start_row cfg.end_row oracle
      (selectSheets wb cfg.sheet_names) (preScanWb cfg.columns cfg.start_row cfg.end_row
      (selectSheets wb cfg.sheet_names) wb 0 0).2.2
      (initCounters stAfterProbe ((preScanWb cfg.columns cfg.start_row cfg.end_row
      (selectSheets wb cfg.sheet_names) wb 0 0).1 + (preScanWb cfg.columns cfg.start_row cfg.end_row
      (selectSheets wb cfg.sheet_names) wb 0 0).2.1))).2.2.task with status := TaskStatus.failed} ::
                (mainLoop cfg.columns cfg.start_row cfg.end_row oracle
      (selectSheets wb cfg.sheet_names) (preScanWb cfg.columns cfg.start_row cfg.end_row
      (selectSheets wb cfg.sheet_names) wb 0 0).2.2
      (initCounters stAfterProbe ((preScanWb cfg.columns cfg.start_row cfg.end_row
      (selectSheets wb cfg.sheet_names) wb 0 0).1 + (preScanWb cfg.columns cfg.start_row cfg.end_row
      (selectSheets wb cfg.sheet_names) wb 0 0).2.1))).2.2.trace := by
              simp [engineCore, hsh, htot, hok, hfail, hsv, setStatus, snap]
            rw [hred]
            intro t ht
            rcases List.mem_cons.mp ht with rfl | ht2
            · show sumc (mainLoop cfg.columns cfg.start_row cfg.end_row oracle
      (selectSheets wb cfg.sheet_names) (preScanWb cfg.columns cfg.start_row cfg.end_row
      (selectSheets wb cfg.sheet_names) wb 0 0).2.2
      (initCounters stAfterProbe ((preScanWb cfg.columns cfg.start_row cfg.end_row
      (selectSheets wb cfg.sheet_names) wb 0 0).1 + (preScanWb cfg.columns cfg.start_row cfg.end_row
      (selectSheets wb cfg.sheet_names) wb 0 0).2.1))).2.2.task ≤ (mainLoop cfg.columns cfg.start_row cfg.end_row oracle
      (selectSheets wb cfg.sheet_names) (preScanWb cfg.columns cfg.start_row cfg.end_row
      (selectSheets wb cfg.sheet_names) wb 0 0).2.2
      (initCounters stAfterProbe ((preScanWb cfg.columns cfg.start_row cfg.end_row
      (selectSheets wb cfg.sheet_names) wb 0 0).1 + (preScanWb cfg.columns cfg.start_row cfg.end_row
      (selectSheets wb cfg.sheet_names) wb 0 0).2.1))).2.2.task.total_cells
              rw [hML_total]
              exact hML_sum
            · exact hML_mem t ht2
      · have hred : (engineCore wb cfg oracle saveOk
            stAfterProbe).st.trace = (mainLoop cfg.columns cfg.start_row cfg.end_row oracle
      (selectSheets wb cfg.sheet_names) (preScanWb cfg.columns cfg.start_row cfg.end_row
      (selectSheets wb cfg.sheet_names) wb 0 0).2.2
      (initCounters stAfterProbe ((preScanWb cfg.columns cfg.start_row cfg.end_row
      (selectSheets wb cfg.sheet_names) wb 0 0).1 + (preScanWb cfg.columns cfg.start_row cfg.end_row
      (selectSheets wb cfg.sheet_names) wb 0 0).2.1))).2.2.trace := by
          simp [engineCore, hsh, htot, hok]
        rw [hred]
        exact hML_mem

/-- C4: at every observation point of a run (every task snapshot on the
trace, including those taken while counters are being updated),
`translated_cells + error_cells + skipped_cells ≤ total_cells`, with
`total_cells` the value fixed by the pre-scan: the pre-scan counts every
processable cell of the scanned ranges, the main loop counts each visited
cell at most once and only when it is processable, processability of a
cell never appears during the run (writes only target cells that passed
the guard), and the processed row ranges are contained in the scanned
ones. -/
theorem C4_theorem (wbOpt : Option Workbook) (cfg : Config)
    (oracle : Nat → Option (List Char)) (saveOk : Bool) :
    ∀ t ∈ (translate_excel_with_progress wbOpt cfg oracle
        saveOk).st.trace,
      t.translated_cells + t.error_cells + t.skipped_cells ≤
        t.total_cells := by
  by_cases hpr : oracle 0 = none ∨ oracle 0 = some ERRSTR
  · have hred : (translate_excel_with_progress wbOpt cfg oracle
        saveOk).st.trace =
        [⟨TaskStatus.failed, 0, 0, 0, 0, 0⟩,
          ⟨TaskStatus.running, 0, 0, 0, 0, 0⟩] := by
      simp [translate_excel_with_progress, hpr, setStatus, snap,
        initialTask]
    rw [hred]
    decide
  · rcases wbOpt with _ | wb
    · have hred : (translate_excel_with_progress none cfg oracle
          saveOk).st.trace =
          [⟨TaskStatus.failed, 0, 0, 0, 0, 0⟩,
            ⟨TaskStatus.running, 0, 0, 0, 0, 0⟩] := by
        simp [translate_excel_with_progress, hpr, setStatus, snap,
          initialTask]
      rw [hred]
      decide
    · have h1 : translate_excel_with_progress (some wb) cfg oracle saveOk =
          if oracle 0 = none ∨ oracle 0 = some ERRSTR then
            ⟨setStatus stAfterProbe TaskStatus.failed, wb, false⟩
          else engineCore wb cfg oracle saveOk stAfterProbe := rfl
      rw [h1, if_neg hpr]
      exact engineCore_trace wb cfg oracle saveOk

/-- C4 (witness): the invariant applied to the final snapshot of a
concrete run that translates one cell: 1 + 0 + 0 ≤ 1. -/
theorem C4_witness :
    (⟨TaskStatus.completed, 100, 1, 1, 0, 0⟩ : Task).translated_cells +
      (⟨TaskStatus.completed, 100, 1, 1, 0, 0⟩ : Task).error_cells +
      (⟨TaskStatus.completed, 100, 1, 1, 0, 0⟩ : Task).skipped_cells ≤
      (⟨TaskStatus.completed, 100, 1, 1, 0, 0⟩ : Task).total_cells := by
  exact C4_theorem
    (some [(String.mk ['S'],
      ⟨fun r c =>
        if r = 1 ∧ c = 1 then
          ⟨CellValue.vStr ['中'], FillS.defaultFill, FontS.defaultFont,
            AlignS.defaultAlign⟩
        else defaultCell, 1, fun _ => none, fun _ => none⟩)])
    ⟨[['A']], 1, none, none⟩ (fun _ => some ['O', 'K']) true
    ⟨TaskStatus.completed, 100, 1, 1, 0, 0⟩ (by decide)

end ExcelText
